import Mathlib

/-!
# tv: line buffer, load/save and edit engine

A shallow embedding of `src/tv.c` and `src/utf8.c`.

Bytes are natural numbers below 256.  A `Line` carries the `len` content bytes of
`data` (so `len` is `data.length`), the allocated size `capacity`, and a flag that
records that the block behind `data` has been handed to `free`.  The terminating
NUL the C code stores at `data[len]` is not part of the content; the room for it
is what `capacity` accounts for.  `LineBuffer.count` is the length of `lines`.

Operations return `Option`: `none` stands for a run in which the C code indexes
outside the content of a line or outside the chunk array, or stores the
terminator of a line outside the `capacity` bytes of its block (`insert_char`),
or goes through a pointer into an array that `realloc` has replaced, or for a
loop that was cut off by its step bound.  Terminal output (`draw_text`,
`update_line`, `draw_header`) is left out, except for the byte range that
`update_line` selects and the test under which `draw_text` draws the cursor;
those routines change no state that the operations below read.
-/

namespace TV

/-! ## Data model (`tv.c` lines 43-77) -/

/-- The `Line` struct: content bytes and allocated size.  `freed` is set once `free` has been
called on the block behind `data` while the line is still in the buffer; the operations do
not consult it, as the C code cannot, and the bytes shown for such a line are those the block
held when it was released. -/
structure Line where
  data : List Nat
  capacity : Nat
  freed : Bool
deriving DecidableEq

/-- The `LineBuffer` struct: the `count` live lines and the allocated slot count. -/
structure LineBuffer where
  lines : List Line
  capacity : Nat
deriving DecidableEq

/-- The global state of `tv.c` that the modelled operations read or write, together with
the bytes of the open file.  `orig_termios`, `resize_flag`, `filename`, `show_blanks` and
`last_cursor_x`/`last_cursor_y` only serve the terminal and are left out. -/
structure Editor where
  buffer : LineBuffer
  cursor_x : Nat
  cursor_y : Nat
  scroll_x : Int
  scroll_y : Int
  rows : Int
  cols : Int
  view_mode : Nat
  modified : Nat
  insert_mode : Nat
  fd : Int
  file_size : Nat
  file : List Nat
deriving DecidableEq

def MAX_LINE_SIZE : Nat := 2 ^ 32

def CHUNK_SIZE : Nat := 64000

/-- The number of live lines, `buffer.count`. -/
def LineBuffer.count (b : LineBuffer) : Nat := b.lines.length

/-- The content of every line, in order. -/
def LineBuffer.contents (b : LineBuffer) : List (List Nat) := b.lines.map Line.data

/-! ## Line buffer functions (`tv.c` lines 99-119) -/

def init_buffer : LineBuffer := { lines := [], capacity := 1024 }

def grow_buffer (b : LineBuffer) : LineBuffer := { b with capacity := b.capacity * 2 }

/-- Appends a line holding a copy of `data`; `add_line(data, len)` with `len = data.length`. -/
def add_line (b : LineBuffer) (data : List Nat) : LineBuffer :=
  let b1 := if b.count ≥ b.capacity then grow_buffer b else b
  { b1 with lines := b1.lines ++ [{ data := data, capacity := data.length + 1, freed := false }] }

/-! ## Storage primitives -/

/-- The bytes `buf[start .. start+len)` of an array of `size` bytes; `none` when the
range leaves the array. -/
def slice (buf : List Nat) (size start len : Nat) : Option (List Nat) :=
  if start + len ≤ size then some ((buf.drop start).take len) else none

/-- Positioned read `pread(fd, chunk, count, offset)`: the new array and the byte count. -/
def pread (file chunk : List Nat) (count offset : Nat) : List Nat × Nat :=
  let got := (file.drop offset).take count
  (got ++ chunk.drop got.length, got.length)

/-- Sequential `write(fd, bytes, len)` at position `pos`: the new file and position. -/
def sys_write (file : List Nat) (pos : Nat) (bytes : List Nat) : List Nat × Nat :=
  ((file.take pos ++ List.replicate (pos - file.length) 0) ++ bytes
      ++ file.drop (pos + bytes.length), pos + bytes.length)

/-- Resizes the file to `size` bytes as `ftruncate(fd, size)` does. -/
def ftruncate (file : List Nat) (size : Nat) : List Nat :=
  file.take size ++ List.replicate (size - file.length) 0

/-! ## `load_file` (`tv.c` lines 121-174) -/

/-- The locals of `load_file`. `line_start` is an index into `chunk`. -/
structure Loader where
  chunk : List Nat
  offset : Nat
  bytes : Nat
  line_start : Nat
  line_len : Nat
  buffer : LineBuffer
deriving DecidableEq

/-- The `for` loop over one chunk (lines 132-163), from index `i`; `n` is the chunk size and
the first argument bounds the number of iterations.  The first branch ends a line at a
newline (or at the length cap) and leaves the loop when that was the last byte read; the
second counts the byte and, at the last byte of a chunk that is not the end of the file,
runs the carry-over code of lines 145-161. -/
def scan_chunk (file : List Nat) (file_size n : Nat) : Nat → Nat → Loader → Option Loader
  | 0, _, _ => none
  | fuel + 1, i, s =>
    if i < s.bytes then
      if s.chunk.getD i 0 = 10 ∨ s.line_len ≥ MAX_LINE_SIZE then
        match slice s.chunk n s.line_start s.line_len with
        | none => none
        | some seg =>
          let s1 := { s with buffer := add_line s.buffer seg, line_start := i + 1, line_len := 0 }
          if i = s.bytes - 1 then some { s1 with line_start := 0 }
          else scan_chunk file file_size n fuel (i + 1) s1
      else
        let s1 := { s with line_len := s.line_len + 1 }
        if i = s1.bytes - 1 ∧ s1.offset + s1.bytes < file_size then
          match slice s1.chunk n s1.line_start s1.line_len with
          | none => none
          | some temp =>
            let s2 := { s1 with offset := s1.offset + s1.bytes }
            let r := pread file s2.chunk n s2.offset
            if 0 < r.2 then
              if temp.length ≤ n then
                scan_chunk file file_size n fuel (temp.length - 1 + 1)
                  { s2 with chunk := temp ++ r.1.drop temp.length, bytes := r.2,
                            line_start := temp.length, line_len := 0 }
              else none
            else scan_chunk file file_size n fuel (i + 1) s2
        else scan_chunk file file_size n fuel (i + 1) s1
    else some s

/-- The `while (offset < file_size)` loop (lines 128-170). -/
def load_loop (file : List Nat) (file_size n : Nat) : Nat → Loader → Option Loader
  | 0, _ => none
  | fuel + 1, s =>
    if s.offset < file_size then
      let r := pread file s.chunk n s.offset
      if r.2 ≤ 0 then some s
      else
        match scan_chunk file file_size n ((file_size + 1) * (n + 1) + 1) 0
            { s with chunk := r.1, bytes := r.2 } with
        | none => none
        | some s1 =>
          if 0 < s1.line_len ∧ s1.offset + s1.bytes ≥ file_size then
            match slice s1.chunk n s1.line_start s1.line_len with
            | none => none
            | some seg =>
              load_loop file file_size n fuel
                { s1 with buffer := add_line s1.buffer seg, line_len := 0,
                          offset := s1.offset + s1.bytes }
          else load_loop file file_size n fuel { s1 with offset := s1.offset + s1.bytes }
    else some s

/-- The body of `load_file` with the chunk size `n` in place of `CHUNK_SIZE`.  The chunk
array starts zero-filled here; the C array is uninitialised. -/
def load_file_chunked (n : Nat) (file : List Nat) (file_size : Nat) : Option LineBuffer :=
  match load_loop file file_size n (file_size + 1)
      { chunk := List.replicate n 0, offset := 0, bytes := 0, line_start := 0,
        line_len := 0, buffer := init_buffer } with
  | none => none
  | some s => some (if s.buffer.count = 0 then add_line s.buffer [] else s.buffer)

def load_file (st : Editor) : Option Editor :=
  match load_file_chunked CHUNK_SIZE st.file st.file_size with
  | none => none
  | some b => some { st with buffer := b }

/-- The globals as `main` leaves them just before `load_file`, for an existing file. -/
def startup (file : List Nat) (rows cols : Int) : Editor :=
  { buffer := { lines := [], capacity := 0 }, cursor_x := 0, cursor_y := 0,
    scroll_x := 0, scroll_y := 0, rows := rows, cols := cols,
    view_mode := 0, modified := 0, insert_mode := 1,
    fd := 3, file_size := file.length, file := file }

/-! ## `save_file` (`tv.c` lines 448-457) -/

/-- The `for` loop of `save_file`: writes line `i`, then a newline unless it is the last. -/
def write_lines : List Line → List Nat × Nat → List Nat × Nat
  | [], sink => sink
  | [l], sink => sys_write sink.1 sink.2 l.data
  | l :: l2 :: rest, sink =>
    let s1 := sys_write sink.1 sink.2 l.data
    write_lines (l2 :: rest) (sys_write s1.1 s1.2 [10])

def save_file (st : Editor) : Editor :=
  if st.fd = -1 ∨ st.view_mode ≠ 0 then st
  else
    let sink := write_lines st.buffer.lines (st.file, 0)
    { st with file := ftruncate sink.1 st.file_size, modified := 0 }

/-! ## UTF-8 stepping (`utf8.c` lines 18-22) -/

def utf8_char_bytes (data : List Nat) (pos len : Nat) : Nat :=
  if pos ≥ len then 1
  else
    let c := data.getD pos 0
    if c &&& 0x80 ≠ 0 then
      (if c &&& 0xE0 = 0xC0 then 2 else if c &&& 0xF0 = 0xE0 then 3 else 4)
    else 1

/-! ## Editing functions (`tv.c` lines 375-446) -/

/-- Marks the block of the line in slot `i` as released, when slot `i` holds a live line. -/
def free_data_at : List Line → Nat → List Line
  | [], _ => []
  | l :: rest, 0 => { l with freed := true } :: rest
  | l :: rest, i + 1 => l :: free_data_at rest i

/-- Lines 396-413 of `insert_char`, for a byte `c` other than newline: the block of the
line is grown when `len >= capacity`, then `c` is stored: in insert mode in front of the
byte at the cursor, in replace mode over the byte at the cursor or, at the end of the line,
behind the last byte.  The result is the line and the new `cursor_x`, as they stand when
line 414 stores the terminator; `none` when the cursor lies beyond the content. -/
def insert_char_store (c insert_mode cursor_x : Nat) (l : Line) : Option (Line × Nat) :=
  let cap := if l.data.length ≥ l.capacity
    then (if l.capacity ≠ 0 then l.capacity * 2 else 16) else l.capacity
  if insert_mode ≠ 0 then
    if cursor_x > l.data.length then none
    else
      some ({ l with data := l.data.take cursor_x ++ c :: l.data.drop cursor_x,
                     capacity := cap }, cursor_x + 1)
  else if cursor_x < l.data.length then
    let data1 := l.data.set cursor_x c
    some ({ l with data := data1, capacity := cap },
          cursor_x + utf8_char_bytes data1 cursor_x l.data.length)
  else if cursor_x > l.data.length then none
  else some ({ l with data := l.data ++ [c], capacity := cap }, cursor_x + 1)

/-- The function `insert_char` (lines 375-418).  In the newline branch the C code takes
`l = &buffer.lines[cursor_y]` before `grow_buffer` may reallocate `buffer.lines`; when it
does, the later accesses through `l` go to the released array and the result is `none`.
Both branches end with `l->data[l->len] = 0` for the new `len` (lines 391 and 414); when
that `len` is not below `capacity` the store lies outside the block of the line and the
result is `none`.  The block of the new line of the newline branch has `tail_len + 1`
bytes, so its terminator fits. -/
def insert_char (c : Nat) (st : Editor) : Option Editor :=
  if st.view_mode ≠ 0 then some st
  else
    match st.buffer.lines[st.cursor_y]? with
    | none => none
    | some l =>
      if c = 10 then
        -- `l` was taken before `grow_buffer` reallocates `buffer.lines`
        if st.buffer.count ≥ st.buffer.capacity then none
        else if st.cursor_x > l.data.length then none
        -- `l->data[l->len] = 0` with `len = cursor_x`
        else if st.cursor_x ≥ l.capacity then none
        else
          let tail_len := l.data.length - st.cursor_x
          let new_line : Line :=
            { data := (l.data.drop st.cursor_x).take tail_len, capacity := tail_len + 1,
              freed := false }
          let l1 : Line := { l with data := l.data.take st.cursor_x }
          some { st with
            buffer := { st.buffer with
              lines := st.buffer.lines.take st.cursor_y ++ l1 :: new_line
                        :: st.buffer.lines.drop (st.cursor_y + 1) },
            cursor_y := st.cursor_y + 1, cursor_x := 0, modified := 1 }
      else
        match insert_char_store c st.insert_mode st.cursor_x l with
        | none => none
        | some r =>
          -- `l->data[l->len] = 0` with the new `len`
          if r.1.data.length ≥ r.1.capacity then none
          else
            some { st with
              buffer := { st.buffer with lines := st.buffer.lines.set st.cursor_y r.1 },
              cursor_x := r.2, modified := 1 }

/-- The function `delete_char` (lines 420-446).  In the join branch `free(next->data)` runs
after the slots were shifted and `count` decremented, so it acts on whatever line then sits
in slot `cursor_y + 1`. -/
def delete_char (st : Editor) : Option Editor :=
  if st.view_mode ≠ 0 then some st
  else
    match st.buffer.lines[st.cursor_y]? with
    | none => none
    | some l =>
      if st.cursor_x < l.data.length then
        let bytes := utf8_char_bytes l.data st.cursor_x l.data.length
        if st.cursor_x + bytes > l.data.length then none
        else
          let l1 : Line :=
            { l with data := l.data.take st.cursor_x ++ l.data.drop (st.cursor_x + bytes) }
          some { st with
            buffer := { st.buffer with lines := st.buffer.lines.set st.cursor_y l1 },
            modified := 1 }
      else if st.cursor_y + 1 < st.buffer.count then
        match st.buffer.lines[st.cursor_y + 1]? with
        | none => none
        | some next =>
          let cap := if l.data.length + next.data.length ≥ l.capacity
            then l.data.length + next.data.length + 1 else l.capacity
          let l1 : Line := { l with data := l.data ++ next.data, capacity := cap }
          -- memmove of the slots after `next`, then `count--`
          let shifted := st.buffer.lines.take st.cursor_y ++ l1
                          :: st.buffer.lines.drop (st.cursor_y + 2)
          -- `free(next->data)`: `next` still addresses slot `cursor_y + 1`
          some { st with
            buffer := { st.buffer with lines := free_data_at shifted (st.cursor_y + 1) },
            modified := 1 }
      else some st

/-! ## Key handling in `main` (`tv.c` lines 661-674) -/

/-- The `do { i--; } while (i > 0 && (data[i] & 0xC0) == 0x80)` scan, entered after the
first decrement with `i` as argument. -/
def scan_back (data : List Nat) : Nat → Nat
  | 0 => 0
  | i + 1 => if data.getD (i + 1) 0 &&& 0xC0 = 0x80 then scan_back data i else i + 1

/-- The `KEY_BACKSPACE` branch of the main loop. -/
def key_backspace (st : Editor) : Option Editor :=
  if st.view_mode ≠ 0 then some st
  else if st.cursor_x > 0 then
    match st.buffer.lines[st.cursor_y]? with
    | none => none
    | some l =>
      if st.cursor_x > l.data.length then none
      else delete_char { st with cursor_x := scan_back l.data (st.cursor_x - 1) }
  else if st.cursor_y > 0 then
    match st.buffer.lines[st.cursor_y - 1]? with
    | none => none
    | some prev =>
      match delete_char { st with cursor_x := prev.data.length } with
      | none => none
      | some st1 => some { st1 with cursor_y := st1.cursor_y - 1 }
  else some st

/-! ## Concrete states used below -/

/-- An editor in edit mode over the given line contents, each line allocated as `add_line`
allocates it, with the cursor at byte `x` of line `y`. -/
def editor_of (contents : List (List Nat)) (x y : Nat) : Editor :=
  { buffer := { lines := contents.map (fun d => { data := d, capacity := d.length + 1,
                                                   freed := false }),
                capacity := 1024 },
    cursor_x := x, cursor_y := y, scroll_x := 0, scroll_y := 0, rows := 24, cols := 80,
    view_mode := 0, modified := 0, insert_mode := 1, fd := 3, file_size := 0, file := [] }

/-- A buffer of 1024 empty lines whose slot array is full, as loading a file of 1024
newline bytes leaves it; the cursor is at the start of the first line. -/
def full_buffer_editor : Editor :=
  { editor_of [] 0 0 with
    buffer := { lines := List.replicate 1024 { data := [], capacity := 1, freed := false },
                capacity := 1024 },
    file_size := 1024 }

/-- The editor after loading the two-line text `ab`, `cd` from the file `"ab\ncd\n"`. -/
def two_line_editor : Editor :=
  { editor_of [[97, 98], [99, 100]] 0 0 with
    file := [97, 98, 10, 99, 100, 10], file_size := 6 }

/-! ## Specification-side functions for `load_file` -/

/-- What scanning `rest` yields when `cur` is the line under construction: the lines
completed by a newline, and the bytes left over after the last newline. -/
def scan_spec : List Nat → List Nat → List (List Nat) × List Nat
  | cur, [] => ([], cur)
  | cur, b :: rest =>
    if b = 10 then (cur :: (scan_spec [] rest).1, (scan_spec [] rest).2)
    else scan_spec (cur ++ [b]) rest

/-- The lines `load_file` ends up with once `scan_spec` has consumed the whole source: the
completed lines, the left-over bytes as a last line when there are any, and one empty line
when nothing was added at all. -/
def loaded_lines (src : List Nat) : List (List Nat) :=
  let r := scan_spec [] src
  let ls := r.1 ++ (if r.2 = [] then [] else [r.2])
  if ls = [] then [[]] else ls

/-! ## Unicode metrics (`utf8.c` lines 51-217) -/

/-- The function `utf8_to_codepoint`: the codepoint returned and the value stored in `*bytes`.
Bytes of the line are read as `unsigned char`; a byte past the end of the list reads as 0. -/
def utf8_to_codepoint (data : List Nat) (pos len : Nat) : Nat × Nat :=
  if pos ≥ len then (0, 1)
  else
    let c := data.getD pos 0
    if c &&& 0x80 = 0 then (c, 1)
    else if c &&& 0xE0 = 0xC0 ∧ pos + 1 < len then
      (((c &&& 0x1F) <<< 6) ||| (data.getD (pos + 1) 0 &&& 0x3F), 2)
    else if c &&& 0xF0 = 0xE0 ∧ pos + 2 < len then
      ((((c &&& 0x0F) <<< 12) ||| ((data.getD (pos + 1) 0 &&& 0x3F) <<< 6))
        ||| (data.getD (pos + 2) 0 &&& 0x3F), 3)
    else if c &&& 0xF8 = 0xF0 ∧ pos + 3 < len then
      (((((c &&& 0x07) <<< 18) ||| ((data.getD (pos + 1) 0 &&& 0x3F) <<< 12))
        ||| ((data.getD (pos + 2) 0 &&& 0x3F) <<< 6))
        ||| (data.getD (pos + 3) 0 &&& 0x3F), 4)
    else (0, 1)

/-- The function `utf8_char_width`, branch by branch in the order of the source. -/
def utf8_char_width (cp : Nat) : Nat :=
  if 0x00000 ≤ cp ∧ cp ≤ 0x0007F then 1
  else if 0x00080 ≤ cp ∧ cp ≤ 0x000FF then 1
  else if 0x00100 ≤ cp ∧ cp ≤ 0x0017F then 1
  else if 0x00180 ≤ cp ∧ cp ≤ 0x0024F then 1
  else if 0x00250 ≤ cp ∧ cp ≤ 0x002AF then 1
  else if 0x00300 ≤ cp ∧ cp ≤ 0x0036F then 0
  else if 0x00370 ≤ cp ∧ cp ≤ 0x003FF then 1
  else if 0x00400 ≤ cp ∧ cp ≤ 0x004FF then 1
  else if 0x00500 ≤ cp ∧ cp ≤ 0x0052F then 1
  else if 0x00530 ≤ cp ∧ cp ≤ 0x0058F then 1
  else if 0x00590 ≤ cp ∧ cp ≤ 0x005FF then 1
  else if 0x00600 ≤ cp ∧ cp ≤ 0x006FF then 1
  else if 0x00700 ≤ cp ∧ cp ≤ 0x0074F then 1
  else if 0x00780 ≤ cp ∧ cp ≤ 0x007BF then 1
  else if 0x0900 ≤ cp ∧ cp ≤ 0x097F then
    (if (0x093C ≤ cp ∧ cp ≤ 0x094D) ∨ (0x0951 ≤ cp ∧ cp ≤ 0x0957) then 0 else 1)
  else if 0x00980 ≤ cp ∧ cp ≤ 0x009FF then 1
  else if 0x00A00 ≤ cp ∧ cp ≤ 0x00A7F then 1
  else if 0x00A80 ≤ cp ∧ cp ≤ 0x00AFF then 1
  else if 0x00B00 ≤ cp ∧ cp ≤ 0x00B7F then 1
  else if 0x00B80 ≤ cp ∧ cp ≤ 0x00BFF then 1
  else if 0x00C00 ≤ cp ∧ cp ≤ 0x00C7F then 1
  else if 0x00C80 ≤ cp ∧ cp ≤ 0x00CFF then 1
  else if 0x00D00 ≤ cp ∧ cp ≤ 0x00D7F then 1
  else if 0x00E00 ≤ cp ∧ cp ≤ 0x00E7F then 1
  else if 0x0E00 ≤ cp ∧ cp ≤ 0x0E7F then
    (if cp = 0x0E31 ∨ (0x0E34 ≤ cp ∧ cp ≤ 0x0E3A) ∨ (0x0E47 ≤ cp ∧ cp ≤ 0x0E4E) ∨ cp = 0x0E46
      then 0 else 1)
  else if 0x00E80 ≤ cp ∧ cp ≤ 0x00EFF then 1
  else if 0x010A0 ≤ cp ∧ cp ≤ 0x010FF then 1
  else if 0x01100 ≤ cp ∧ cp ≤ 0x011FF then 2
  else if 0x01E00 ≤ cp ∧ cp ≤ 0x01EFF then 1
  else if 0x01F00 ≤ cp ∧ cp ≤ 0x01FFF then 1
  else if 0x02000 ≤ cp ∧ cp ≤ 0x0206F then 1
  else if 0x02070 ≤ cp ∧ cp ≤ 0x0209F then 1
  else if 0x020A0 ≤ cp ∧ cp ≤ 0x020CF then 1
  else if 0x02100 ≤ cp ∧ cp ≤ 0x0214F then 1
  else if 0x02150 ≤ cp ∧ cp ≤ 0x0218F then 1
  else if 0x02190 ≤ cp ∧ cp ≤ 0x021FF then 1
  else if 0x02200 ≤ cp ∧ cp ≤ 0x022FF then 1
  else if 0x02300 ≤ cp ∧ cp ≤ 0x023FF then 1
  else if 0x02460 ≤ cp ∧ cp ≤ 0x024FF then 1
  else if 0x02500 ≤ cp ∧ cp ≤ 0x0257F then 1
  else if 0x02580 ≤ cp ∧ cp ≤ 0x0259F then 1
  else if 0x025A0 ≤ cp ∧ cp ≤ 0x025FF then 1
  else if 0x02600 ≤ cp ∧ cp ≤ 0x026FF then 1
  else if 0x02700 ≤ cp ∧ cp ≤ 0x027BF then 1
  else if 0x02E80 ≤ cp ∧ cp ≤ 0x02EFF then 2
  else if 0x02F00 ≤ cp ∧ cp ≤ 0x02FDF then 2
  else if 0x03000 ≤ cp ∧ cp ≤ 0x0303F then 2
  else if 0x03040 ≤ cp ∧ cp ≤ 0x0309F then 2
  else if 0x030A0 ≤ cp ∧ cp ≤ 0x030FF then 2
  else if 0x03100 ≤ cp ∧ cp ≤ 0x0312F then 2
  else if 0x03130 ≤ cp ∧ cp ≤ 0x0318F then 2
  else if 0x031F0 ≤ cp ∧ cp ≤ 0x031FF then 2
  else if 0x03400 ≤ cp ∧ cp ≤ 0x04DBF then 2
  else if 0x04E00 ≤ cp ∧ cp ≤ 0x09FFF then 2
  else if 0x0A000 ≤ cp ∧ cp ≤ 0x0A48F then 2
  else if 0x0A490 ≤ cp ∧ cp ≤ 0x0A4CF then 2
  else if 0x0AC00 ≤ cp ∧ cp ≤ 0x0D7AF then 2
  else if 0x0D800 ≤ cp ∧ cp ≤ 0x0DFFF then 0
  else if 0x0F900 ≤ cp ∧ cp ≤ 0x0FAFF then 2
  else if 0x0FB00 ≤ cp ∧ cp ≤ 0x0FB4F then 1
  else if 0x0FE00 ≤ cp ∧ cp ≤ 0x0FE0F then 0
  else if 0x0FE10 ≤ cp ∧ cp ≤ 0x0FE1F then 2
  else if 0x0FE30 ≤ cp ∧ cp ≤ 0x0FE4F then 2
  else if 0x0FF00 ≤ cp ∧ cp ≤ 0x0FFEF then 2
  else if 0x1D400 ≤ cp ∧ cp ≤ 0x1D7FF then 1
  else if 0x1F000 ≤ cp ∧ cp ≤ 0x1F02F then 2
  else if 0x1F030 ≤ cp ∧ cp ≤ 0x1F09F then 2
  else if 0x1F0A0 ≤ cp ∧ cp ≤ 0x1F0FF then 2
  else if 0x1F100 ≤ cp ∧ cp ≤ 0x1F1FF then 2
  else if 0x1F300 ≤ cp ∧ cp ≤ 0x1F5FF then 2
  else if 0x1F600 ≤ cp ∧ cp ≤ 0x1F64F then 2
  else if 0x1F650 ≤ cp ∧ cp ≤ 0x1F67F then 2
  else if 0x1F680 ≤ cp ∧ cp ≤ 0x1F6FF then 2
  else if 0x1F700 ≤ cp ∧ cp ≤ 0x1F77F then 2
  else if 0x1F900 ≤ cp ∧ cp ≤ 0x1F9FF then 2
  else 1

/-- The blocks that `utf8_char_width` lists, as inclusive ranges, in the order of the source. -/
def listed_blocks : List (Nat × Nat) :=
  [(0x00000, 0x0007F), (0x00080, 0x000FF), (0x00100, 0x0017F), (0x00180, 0x0024F),
   (0x00250, 0x002AF), (0x00300, 0x0036F), (0x00370, 0x003FF), (0x00400, 0x004FF),
   (0x00500, 0x0052F), (0x00530, 0x0058F), (0x00590, 0x005FF), (0x00600, 0x006FF),
   (0x00700, 0x0074F), (0x00780, 0x007BF), (0x0900, 0x097F), (0x00980, 0x009FF),
   (0x00A00, 0x00A7F), (0x00A80, 0x00AFF), (0x00B00, 0x00B7F), (0x00B80, 0x00BFF),
   (0x00C00, 0x00C7F), (0x00C80, 0x00CFF), (0x00D00, 0x00D7F), (0x00E00, 0x00E7F),
   (0x00E80, 0x00EFF), (0x010A0, 0x010FF), (0x01100, 0x011FF), (0x01E00, 0x01EFF),
   (0x01F00, 0x01FFF), (0x02000, 0x0206F), (0x02070, 0x0209F), (0x020A0, 0x020CF),
   (0x02100, 0x0214F), (0x02150, 0x0218F), (0x02190, 0x021FF), (0x02200, 0x022FF),
   (0x02300, 0x023FF), (0x02460, 0x024FF), (0x02500, 0x0257F), (0x02580, 0x0259F),
   (0x025A0, 0x025FF), (0x02600, 0x026FF), (0x02700, 0x027BF), (0x02E80, 0x02EFF),
   (0x02F00, 0x02FDF), (0x03000, 0x0303F), (0x03040, 0x0309F), (0x030A0, 0x030FF),
   (0x03100, 0x0312F), (0x03130, 0x0318F), (0x031F0, 0x031FF), (0x03400, 0x04DBF),
   (0x04E00, 0x09FFF), (0x0A000, 0x0A48F), (0x0A490, 0x0A4CF), (0x0AC00, 0x0D7AF),
   (0x0D800, 0x0DFFF), (0x0F900, 0x0FAFF), (0x0FB00, 0x0FB4F), (0x0FE00, 0x0FE0F),
   (0x0FE10, 0x0FE1F), (0x0FE30, 0x0FE4F), (0x0FF00, 0x0FFEF), (0x1D400, 0x1D7FF),
   (0x1F000, 0x1F02F), (0x1F030, 0x1F09F), (0x1F0A0, 0x1F0FF), (0x1F100, 0x1F1FF),
   (0x1F300, 0x1F5FF), (0x1F600, 0x1F64F), (0x1F650, 0x1F67F), (0x1F680, 0x1F6FF),
   (0x1F700, 0x1F77F), (0x1F900, 0x1F9FF)]

/-- The `for` loop of `utf8_display_length`, from index `i` with `disp_len = disp`.  The first
argument bounds the number of iterations; the loop returns the final index together with the
width, so that the exit condition `i ≥ len` can be checked on the result. -/
def display_length_loop (data : List Nat) (len : Nat) : Nat → Nat → Nat → Nat × Nat
  | 0, i, disp => (i, disp)
  | fuel + 1, i, disp =>
    if i < len then
      display_length_loop data len fuel (i + (utf8_to_codepoint data i len).2)
        (disp + utf8_char_width (utf8_to_codepoint data i len).1)
    else (i, disp)

def utf8_display_length (data : List Nat) (len : Nat) : Nat :=
  (display_length_loop data len len 0 0).2

/-- The `for` loop of `byte_to_display`, from index `i` with `disp_pos = disp`; it returns the
final index and the column. -/
def byte_to_display_loop (data : List Nat) (byte_pos len : Nat) : Nat → Nat → Nat → Nat × Nat
  | 0, i, disp => (i, disp)
  | fuel + 1, i, disp =>
    if i < byte_pos ∧ i < len then
      byte_to_display_loop data byte_pos len fuel (i + (utf8_to_codepoint data i len).2)
        (disp + utf8_char_width (utf8_to_codepoint data i len).1)
    else (i, disp)

def byte_to_display (data : List Nat) (byte_pos len : Nat) : Nat :=
  (byte_to_display_loop data byte_pos len len 0 0).2

/-- The `for` loop of `display_to_byte`, from `byte_pos` with `curr_disp`; it returns both. -/
def display_to_byte_loop (data : List Nat) (disp_pos len : Nat) : Nat → Nat → Nat → Nat × Nat
  | 0, byte_pos, curr_disp => (byte_pos, curr_disp)
  | fuel + 1, byte_pos, curr_disp =>
    if byte_pos < len ∧ curr_disp < disp_pos then
      let curr1 := curr_disp + utf8_char_width (utf8_to_codepoint data byte_pos len).1
      display_to_byte_loop data disp_pos len fuel
        (if curr1 ≤ disp_pos then byte_pos + (utf8_to_codepoint data byte_pos len).2
         else byte_pos)
        curr1
    else (byte_pos, curr_disp)

def display_to_byte (data : List Nat) (disp_pos len : Nat) : Nat :=
  (display_to_byte_loop data disp_pos len (len + 1) 0 0).1

def TAB_WIDTH : Nat := 4

/-- The function `get_utf8_char_at`: the codepoint returned, `*bytes` and `*width`. -/
def get_utf8_char_at (data : List Nat) (byte_pos len : Nat) : Nat × Nat × Nat :=
  if byte_pos ≥ len then (32, 0, 1)
  else
    let r := utf8_to_codepoint data byte_pos len
    if r.1 = 0 ∧ r.2 = 1 then (63, r.2, 1)
    else if r.1 = 9 then
      (r.1, r.2, TAB_WIDTH - (byte_to_display data byte_pos len % TAB_WIDTH))
    else (r.1, r.2, utf8_char_width r.1)

/-- The bytes that `print_utf8_char` stores in `buf` for the codepoint `cp` (`utf8.c` lines
226-241): the UTF-8 encoding of `cp`, empty above U+10FFFF. -/
def utf8_encode (cp : Nat) : List Nat :=
  if cp ≤ 0x7F then [cp]
  else if cp ≤ 0x7FF then [0xC0 ||| (cp >>> 6), 0x80 ||| (cp &&& 0x3F)]
  else if cp ≤ 0xFFFF then
    [0xE0 ||| (cp >>> 12), 0x80 ||| ((cp >>> 6) &&& 0x3F), 0x80 ||| (cp &&& 0x3F)]
  else if cp ≤ 0x10FFFF then
    [0xF0 ||| (cp >>> 18), 0x80 ||| ((cp >>> 12) &&& 0x3F), 0x80 ||| ((cp >>> 6) &&& 0x3F),
     0x80 ||| (cp &&& 0x3F)]
  else []

/-- The line formed by the encodings of the codepoints `cps`, one after the other. -/
def encode_line (cps : List Nat) : List Nat := (cps.map utf8_encode).flatten

/-! ## Cursor keys in `main` (`tv.c` lines 566-645) -/

/-- Conversion of an `int` value to `size_t` (64 bits). -/
def size_t_of_int (x : Int) : Nat := (x % 2 ^ 64).toNat

/-- Conversion of a `size_t` value to `int` (32 bits, two's complement). -/
def int_of_size_t (n : Nat) : Int :=
  if n % 2 ^ 32 < 2 ^ 31 then ((n % 2 ^ 32 : Nat) : Int) else ((n % 2 ^ 32 : Nat) : Int) - 2 ^ 32

/-- The re-clamp of `cursor_x` that the up, down, page-up and page-down branches all run on
the line `l` the cursor has moved to. -/
def reclamp_cursor_x (l : Line) (cursor_x : Nat) : Nat :=
  if byte_to_display l.data cursor_x l.data.length > utf8_display_length l.data l.data.length
  then l.data.length else cursor_x

/-- The `KEY_UP` branch. -/
def key_up (st : Editor) : Option Editor :=
  if st.cursor_y > 0 then
    match st.buffer.lines[st.cursor_y - 1]? with
    | none => none
    | some l =>
      some { st with
        cursor_y := st.cursor_y - 1,
        cursor_x := reclamp_cursor_x l st.cursor_x,
        scroll_y := if st.cursor_y - 1 < size_t_of_int st.scroll_y then st.scroll_y - 1
                    else st.scroll_y }
  else some st

/-- The value `scroll_y` is reset to when the window would run past the last line. -/
def scroll_y_at_end (st : Editor) : Int :=
  if st.buffer.count > size_t_of_int (st.rows - 2)
  then int_of_size_t ((st.buffer.count + 2 ^ 64 - size_t_of_int (st.rows - 2)) % 2 ^ 64)
  else 0

/-- The `KEY_DOWN` branch. -/
def key_down (st : Editor) : Option Editor :=
  if (st.cursor_y + 1) % 2 ^ 64 < st.buffer.count then
    match st.buffer.lines[(st.cursor_y + 1) % 2 ^ 64]? with
    | none => none
    | some l =>
      some { st with
        cursor_y := (st.cursor_y + 1) % 2 ^ 64,
        cursor_x := reclamp_cursor_x l st.cursor_x,
        scroll_y :=
          if (st.cursor_y + 1) % 2 ^ 64 ≥ size_t_of_int (st.scroll_y + st.rows - 2) then
            (if size_t_of_int (st.scroll_y + 1 + st.rows - 2) > st.buffer.count
             then scroll_y_at_end st else st.scroll_y + 1)
          else st.scroll_y }
  else some st

/-- The values of `scroll_y` and `cursor_y` after lines 622-625 of the `KEY_PGUP` branch.
The test `cursor_y < 0` of line 625 is on a `size_t` and never holds. -/
def pgup_shift (st : Editor) : Int × Nat :=
  let sy := st.scroll_y - (st.rows - 2)
  let cy := size_t_of_int ((st.cursor_y : Int) - (st.rows - 2))
  (if sy < 0 then 0 else sy, cy)

/-- The `KEY_PGUP` branch. -/
def key_pgup (st : Editor) : Option Editor :=
  if st.scroll_y > 0 then
    match st.buffer.lines[(pgup_shift st).2]? with
    | none => none
    | some l =>
      some { st with
        scroll_y := (pgup_shift st).1, cursor_y := (pgup_shift st).2,
        cursor_x := reclamp_cursor_x l st.cursor_x }
  else some st

/-- The values of `scroll_y` and `cursor_y` after lines 634-639 of the `KEY_PGDOWN` branch. -/
def pgdown_shift (st : Editor) : Int × Nat :=
  let sy := st.scroll_y + (st.rows - 2)
  let cy := size_t_of_int ((st.cursor_y : Int) + (st.rows - 2))
  let cy1 := if cy ≥ st.buffer.count then (st.buffer.count + 2 ^ 64 - 1) % 2 ^ 64 else cy
  (if size_t_of_int (sy + st.rows - 2) > st.buffer.count then scroll_y_at_end st else sy, cy1)

/-- The `KEY_PGDOWN` branch. -/
def key_pgdown (st : Editor) : Option Editor :=
  if st.scroll_y + st.rows - 2 < int_of_size_t st.buffer.count then
    match st.buffer.lines[(pgdown_shift st).2]? with
    | none => none
    | some l =>
      some { st with
        scroll_y := (pgdown_shift st).1, cursor_y := (pgdown_shift st).2,
        cursor_x := reclamp_cursor_x l st.cursor_x }
  else some st

/-- The `KEY_LEFT` branch. -/
def key_left (st : Editor) : Option Editor :=
  if st.cursor_x > 0 then
    match st.buffer.lines[st.cursor_y]? with
    | none => none
    | some l =>
      if st.cursor_x > l.data.length then none
      else
        let x := scan_back l.data (st.cursor_x - 1)
        some { st with
          cursor_x := x,
          scroll_x := if byte_to_display l.data x l.data.length < size_t_of_int st.scroll_x
                      then st.scroll_x - 1 else st.scroll_x }
  else some st

/-- A buffer of 30 one-byte lines on a 24-row terminal, scrolled down by one line, with the
cursor on line 1, the first line on screen. -/
def page_up_editor : Editor :=
  { editor_of (List.replicate 30 [97]) 0 1 with scroll_y := 1 }


/-- The offset reached after `k` decoding steps from the start of the line: the `k`-th
character boundary, or the end of the line once the walk has passed the last character. -/
def walk_index (data : List Nat) (len k : Nat) : Nat :=
  (display_length_loop data len k 0 0).1

/-- The display column reached after `k` decoding steps from the start of the line. -/
def walk_column (data : List Nat) (len k : Nat) : Nat :=
  (display_length_loop data len k 0 0).2




/-! ## Horizontal moves and word moves (`tv.c` lines 459-478, 606-615, 646-656) -/

/-- The `KEY_RIGHT` branch. -/
def key_right (st : Editor) : Option Editor :=
  match st.buffer.lines[st.cursor_y]? with
  | none => none
  | some l =>
    if st.cursor_x < l.data.length then
      let x := st.cursor_x + utf8_char_bytes l.data st.cursor_x l.data.length
      some { st with
        cursor_x := x,
        scroll_x := if byte_to_display l.data x l.data.length
                        ≥ size_t_of_int (st.scroll_x + st.cols)
                    then st.scroll_x + 1 else st.scroll_x }
    else some st

/-- The predicate `isspace` of the C locale (the program never calls `setlocale`): space and
the control characters `\t`, `\n`, `\v`, `\f`, `\r`.  Bytes from `0x80` up are not
whitespace (the program passes them as negative `char` values, for which the table of the C
library holds 0). -/
def isspace (c : Nat) : Bool := decide (c = 32 ∨ (9 ≤ c ∧ c ≤ 13))

/-- The backward loops of `move_cursor_word`: with `space = true` the loop
`while (x > 0 && isspace(l->data[x - 1])) x--;`, with `space = false` the loop
`while (x > 0 && !isspace(l->data[x - 1])) x--;`. -/
def skip_back (space : Bool) (data : List Nat) : Nat → Nat
  | 0 => 0
  | x + 1 => if isspace (data.getD x 0) = space then skip_back space data x else x + 1

/-- The forward loops of `move_cursor_word`: with `space = false` the loop
`while (x < l->len && !isspace(l->data[x])) x += utf8_char_bytes(l->data, x, l->len);`,
with `space = true` the loop with `isspace(l->data[x])`.  The first numeric argument bounds
the number of iterations. -/
def skip_fwd (space : Bool) (data : List Nat) (len : Nat) : Nat → Nat → Nat
  | 0, x => x
  | fuel + 1, x =>
    if x < len ∧ isspace (data.getD x 0) = space
    then skip_fwd space data len fuel (x + utf8_char_bytes data x len) else x

/-- The offset `move_cursor_word(direction)` computes from the offset `x` in a line. -/
def word_target (data : List Nat) (direction : Int) (x : Nat) : Nat :=
  if direction < 0 then skip_back false data (skip_back true data x)
  else skip_fwd true data data.length data.length
         (skip_fwd false data data.length data.length x)

/-- The scroll adjustment at the end of `move_cursor_word` (lines 470-477): the new value of
the `int` `scroll_x` for the `size_t` column `disp_x`.  The comparisons convert the `int`
side to `size_t`; `disp_x - cols + 1` is computed in `size_t` and stored into an `int`. -/
def scroll_to_column (disp_x : Nat) (scroll_x cols : Int) : Int :=
  if disp_x < size_t_of_int scroll_x then int_of_size_t disp_x
  else if disp_x ≥ size_t_of_int (scroll_x + cols) then
    int_of_size_t ((disp_x + 2 ^ 64 - size_t_of_int cols + 1) % 2 ^ 64)
  else scroll_x

/-- The function `move_cursor_word`.  The backward loops read `data[x - 1]`, so a cursor
beyond the end of the line has no defined result there. -/
def move_cursor_word (direction : Int) (st : Editor) : Option Editor :=
  match st.buffer.lines[st.cursor_y]? with
  | none => none
  | some l =>
    if direction < 0 ∧ st.cursor_x > l.data.length then none
    else
      let x := word_target l.data direction st.cursor_x
      some { st with
        cursor_x := x,
        scroll_x := scroll_to_column (byte_to_display l.data x l.data.length)
                      st.scroll_x st.cols }

/-- The `KEY_HOME` branch. -/
def key_home (st : Editor) : Option Editor :=
  some { st with cursor_x := 0, scroll_x := 0 }

/-- The `KEY_END` branch. -/
def key_end (st : Editor) : Option Editor :=
  match st.buffer.lines[st.cursor_y]? with
  | none => none
  | some l =>
    let disp_x := byte_to_display l.data l.data.length l.data.length
    some { st with
      cursor_x := l.data.length,
      scroll_x := if disp_x ≥ size_t_of_int st.cols
                  then int_of_size_t ((disp_x + 2 ^ 64 - size_t_of_int st.cols + 1) % 2 ^ 64)
                  else 0 }

/-! ## Rendering of one line (`tv.c` lines 304-328, 355-358) -/

/-- The `while` loop of `update_line`, from `byte_end` with `disp_len`; it returns both.  The
first argument bounds the number of iterations. -/
def render_loop (data : List Nat) (len cols : Nat) : Nat → Nat → Nat → Nat × Nat
  | 0, byte_end, disp_len => (byte_end, disp_len)
  | fuel + 1, byte_end, disp_len =>
    if byte_end < len ∧ disp_len < cols then
      render_loop data len cols fuel (byte_end + (utf8_to_codepoint data byte_end len).2)
        (disp_len + utf8_char_width (utf8_to_codepoint data byte_end len).1)
    else (byte_end, disp_len)

/-- The values `byte_start`, `byte_end` and `disp_len` that `update_line` computes for a line:
the bytes `[byte_start, byte_end)` are printed. -/
def update_line_range (data : List Nat) (scroll_x cols : Int) : Nat × Nat × Nat :=
  let byte_start := display_to_byte data (size_t_of_int scroll_x) data.length
  let r := render_loop data data.length (size_t_of_int cols) data.length byte_start 0
  (byte_start, r.1, r.2)

/-- The function `update_line` for screen row `line`: the byte range it prints and its width,
or `none` when the row lies below the last line of the buffer and nothing is printed. -/
def update_line (line : Int) (st : Editor) : Option (Nat × Nat × Nat) :=
  match st.buffer.lines[size_t_of_int (st.scroll_y + line)]? with
  | none => none
  | some l => some (update_line_range l.data st.scroll_x st.cols)

/-- The test under which `draw_text` draws the cursor (lines 355-358): with
`x = disp_x - scroll_x` and `cursor_row = cursor_y - scroll_y + 2`, it is
`x >= 0 && x < cols && cursor_row >= 2 && cursor_row <= rows - 1`. -/
def cursor_visible (st : Editor) : Bool :=
  match st.buffer.lines[st.cursor_y]? with
  | none => false
  | some l =>
    decide (0 ≤ (byte_to_display l.data st.cursor_x l.data.length : Int) - st.scroll_x
      ∧ (byte_to_display l.data st.cursor_x l.data.length : Int) - st.scroll_x < st.cols
      ∧ 2 ≤ (st.cursor_y : Int) - st.scroll_y + 2
      ∧ (st.cursor_y : Int) - st.scroll_y + 2 ≤ st.rows - 1)

/-! ## The main loop (`tv.c` lines 481-687) -/

def KEY_TAB : Int := 9
def KEY_ESC : Int := 1000
def KEY_UP : Int := 1001
def KEY_DOWN : Int := 1002
def KEY_RIGHT : Int := 1003
def KEY_LEFT : Int := 1004
def KEY_PGUP : Int := 1005
def KEY_PGDOWN : Int := 1006
def KEY_HOME : Int := 1007
def KEY_END : Int := 1008
def KEY_INSERT : Int := 1009
def KEY_DELETE : Int := 1010
def KEY_F1 : Int := 1011
def KEY_F3 : Int := 1013
def KEY_F4 : Int := 1014
def KEY_F5 : Int := 1015
def KEY_F10 : Int := 1020
def KEY_ENTER : Int := 1021
def KEY_BACKSPACE : Int := 1024
def KEY_CTRL_LEFT : Int := 1025
def KEY_CTRL_RIGHT : Int := 1026

/-- The state of a run of `main` between two calls of `get_input`: the globals, the selected
item when the loop of `handle_menu` is the one reading keys, and whether `main` has left its
loop.  `saved` is a ghost field: the buffer text at the last load or effective `save_file`. -/
structure Session where
  ed : Editor
  menu : Option Nat
  exited : Bool
  saved : List (List Nat)

/-- A call of `save_file`, with the ghost field updated when the call is not the early
return. -/
def Session.save (s : Session) : Session :=
  { s with
    ed := save_file s.ed,
    saved := if s.ed.fd = -1 ∨ s.ed.view_mode ≠ 0 then s.saved else s.ed.buffer.contents }

/-- The code after the main loop (line 687): `if (modified) save_file();`. -/
def Session.leave (s : Session) : Session :=
  if s.ed.modified ≠ 0 then { s.save with menu := none, exited := true }
  else { s with menu := none, exited := true }

/-- The statement `if (!modified || handle_menu()) break;` up to the first `get_input` of
`handle_menu`. -/
def Session.leave_or_menu (s : Session) : Session :=
  if s.ed.modified = 0 then s.leave else { s with menu := some 0 }

/-- One iteration of the loop of `handle_menu` with the key `c` and the item `selected`. -/
def handle_menu_key (c : Int) (selected : Nat) (s : Session) : Session :=
  if c = KEY_UP ∧ selected > 0 then { s with menu := some (selected - 1) }
  else if c = KEY_DOWN ∧ selected < 2 then { s with menu := some (selected + 1) }
  else if c = KEY_ENTER then
    if selected = 0 then { s with ed := { s.ed with view_mode := 0 }, menu := none }
    else if selected = 1 then { s.save with menu := none }
    else if selected = 2 then s.leave
    else { s with menu := none }
  else if c = KEY_ESC then { s with menu := none }
  else s

/-- The dispatch on the key `c` in the loop of `main` (lines 541-684). -/
def handle_key (c : Int) (s : Session) : Option Session :=
  let lift : Option Editor → Option Session := fun r => r.map (fun e => { s with ed := e })
  if c = KEY_F1 then some s
  else if c = KEY_F3 then
    if s.ed.view_mode ≠ 0 then some s.leave_or_menu
    else some { s with ed := { s.ed with view_mode := 1 } }
  else if c = KEY_F4 then
    if s.ed.view_mode = 0 then some s.leave_or_menu
    else some { s with ed := { s.ed with view_mode := 0 } }
  else if c = KEY_F5 then some s
  else if c = KEY_F10 then some s.leave_or_menu
  else if c = KEY_UP then lift (key_up s.ed)
  else if c = KEY_DOWN then lift (key_down s.ed)
  else if c = KEY_LEFT then lift (key_left s.ed)
  else if c = KEY_RIGHT then lift (key_right s.ed)
  else if c = KEY_CTRL_LEFT ∧ s.ed.view_mode = 0 then lift (move_cursor_word (-1) s.ed)
  else if c = KEY_CTRL_RIGHT ∧ s.ed.view_mode = 0 then lift (move_cursor_word 1 s.ed)
  else if c = KEY_PGUP then lift (key_pgup s.ed)
  else if c = KEY_PGDOWN then lift (key_pgdown s.ed)
  else if c = KEY_HOME then lift (key_home s.ed)
  else if c = KEY_END then lift (key_end s.ed)
  else if s.ed.view_mode = 0 then
    if c = KEY_INSERT then
      some { s with ed := { s.ed with insert_mode := if s.ed.insert_mode ≠ 0 then 0 else 1 } }
    else if c = KEY_BACKSPACE then lift (key_backspace s.ed)
    else if c = KEY_DELETE then lift (delete_char s.ed)
    else if c = KEY_TAB then lift (insert_char 9 s.ed)
    else if 32 ≤ c ∧ c ≤ 126 then lift (insert_char c.toNat s.ed)
    else if c = KEY_ENTER then lift (insert_char 10 s.ed)
    else some s
  else some s

/-- What the key `c` does to a session: nothing once `main` has left its loop, one iteration
of `handle_menu` while the menu is open, one iteration of the main loop otherwise.  The
resize branch at the head of the main loop is driven by a signal, not by a key, and is left
out. -/
def step (c : Int) (s : Session) : Option Session :=
  if s.exited = true then some s
  else
    match s.menu with
    | some selected => some (handle_menu_key c selected s)
    | none => handle_key c s

/-- The keys of a list, one after the other. -/
def run : List Int → Session → Option Session
  | [], s => some s
  | c :: cs, s =>
    match step c s with
    | none => none
    | some s1 => run cs s1

/-- The session in which `main` enters its loop with the editor state `st`. -/
def session_of (st : Editor) : Session :=
  { ed := st, menu := none, exited := false, saved := st.buffer.contents }

/-! ## Properties of the buffer -/

/-- The buffer has at least one line and no line contains a newline byte. -/
def well_formed (b : LineBuffer) : Prop :=
  1 ≤ b.count ∧ ∀ l ∈ b.lines, 10 ∉ l.data

/-- The line has room for the terminator: `len < capacity`. -/
def has_room (l : Line) : Prop := l.data.length < l.capacity

/-- A source of two full chunks without a newline followed by the two bytes `c`, newline. -/
def two_chunks_and_a_line (n : Nat) : List Nat :=
  List.replicate n 97 ++ (List.replicate n 98 ++ [99, 10])



/-- The offset `y` is a character boundary of the line that encodes the codepoints `cs`: the
length of the encoding of some first `j` of them. -/
def char_boundary (cs : List Nat) (y : Nat) : Prop :=
  ∃ j, j ≤ cs.length ∧ y = (encode_line (cs.take j)).length



/-- What a key of the main loop may do to the editor state: it keeps the buffer well formed,
and it either leaves the buffer and `modified` as they are or sets `modified` to 1. -/
def edit_effect (st st1 : Editor) : Prop :=
  (well_formed st.buffer → well_formed st1.buffer)
  ∧ ((st1.buffer = st.buffer ∧ st1.modified = st.modified) ∨ st1.modified = 1)

/-- The keys that the main loop passes to `insert_char`, `delete_char` or the backspace
code. -/
def edit_key (c : Int) : Prop :=
  c = KEY_BACKSPACE ∨ c = KEY_DELETE ∨ c = KEY_TAB ∨ (32 ≤ c ∧ c ≤ 126) ∨ c = KEY_ENTER

/-- What a key may do to a session: an `edit_effect` on the editor state with the saved text
untouched, or a save, after which `modified` is 0 and the saved text is the buffer text. -/
def session_effect (s s1 : Session) : Prop :=
  (edit_effect s.ed s1.ed ∧ s1.saved = s.saved)
  ∨ (s1.ed.buffer = s.ed.buffer ∧ s1.ed.modified = 0 ∧ s1.saved = s.ed.buffer.contents)




/-! ## Auxiliary facts -/

theorem sys_write_after (W file b : List Nat) :
    sys_write (W ++ file.drop W.length) W.length b
      = ((W ++ b) ++ file.drop (W ++ b).length, (W ++ b).length) := by
  simp [sys_write, List.take_append_eq_append_take, List.drop_append_eq_append_drop,
    Nat.add_comm]

theorem intercalate_cons_cons (sep l l2 : List Nat) (rest : List (List Nat)) :
    List.intercalate sep (l :: l2 :: rest) = l ++ sep ++ List.intercalate sep (l2 :: rest) := by
  simp [List.intercalate, List.intersperse]

theorem write_lines_after (file : List Nat) (lines : List Line) :
    ∀ W : List Nat,
      write_lines lines (W ++ file.drop W.length, W.length)
        = ((W ++ List.intercalate [10] (lines.map Line.data))
            ++ file.drop (W ++ List.intercalate [10] (lines.map Line.data)).length,
           (W ++ List.intercalate [10] (lines.map Line.data)).length) := by
  induction lines with
  | nil => intro W; simp [write_lines, List.intercalate]
  | cons l rest ih =>
    intro W
    cases rest with
    | nil =>
      simp only [write_lines, List.map]
      rw [sys_write_after]
      simp [List.intercalate]
    | cons l2 rest2 =>
      simp only [write_lines]
      rw [sys_write_after, sys_write_after, ih (W ++ l.data ++ [10])]
      simp only [List.map, intercalate_cons_cons, List.append_assoc]

theorem insert_char_insert_mode (st : Editor) (l : Line) (c : Nat)
    (hview : st.view_mode = 0) (hins : st.insert_mode = 1)
    (hline : st.buffer.lines[st.cursor_y]? = some l)
    (hk : st.cursor_x ≤ l.data.length) (hc : c ≠ 10)
    (hroom : l.data.length + 1 < (if l.data.length ≥ l.capacity
        then (if l.capacity ≠ 0 then l.capacity * 2 else 16) else l.capacity)) :
    insert_char c st = some { st with
      buffer := { st.buffer with
        lines := st.buffer.lines.set st.cursor_y
          { l with data := l.data.take st.cursor_x ++ [c] ++ l.data.drop st.cursor_x,
                   capacity := if l.data.length ≥ l.capacity
                     then (if l.capacity ≠ 0 then l.capacity * 2 else 16) else l.capacity } },
      cursor_x := st.cursor_x + 1, modified := 1 } := by
  have hk2 : ¬ (st.cursor_x > l.data.length) := Nat.not_lt.mpr hk
  have hb : insert_char_store c st.insert_mode st.cursor_x l
      = some ({ l with data := l.data.take st.cursor_x ++ [c] ++ l.data.drop st.cursor_x,
                       capacity := if l.data.length ≥ l.capacity
                         then (if l.capacity ≠ 0 then l.capacity * 2 else 16)
                         else l.capacity }, st.cursor_x + 1) := by
    simp [insert_char_store, hins, hk2]
  have hlen : (l.data.take st.cursor_x ++ [c] ++ l.data.drop st.cursor_x).length
      = l.data.length + 1 := by
    simp only [List.length_append, List.length_take, List.length_drop, List.length_singleton]
    omega
  have hstore : ¬ ((l.data.take st.cursor_x ++ [c] ++ l.data.drop st.cursor_x).length
      ≥ (if l.data.length ≥ l.capacity
          then (if l.capacity ≠ 0 then l.capacity * 2 else 16) else l.capacity)) := by
    rw [hlen]; omega
  unfold insert_char
  rw [if_neg (by rw [hview]; decide), hline]
  simp only [if_neg hc, hb, if_neg hstore]

theorem insert_char_newline_split (st : Editor) (l : Line) (hview : st.view_mode = 0)
    (hline : st.buffer.lines[st.cursor_y]? = some l)
    (hroom : st.buffer.count < st.buffer.capacity) (hk : st.cursor_x ≤ l.data.length)
    (hcap : st.cursor_x < l.capacity) :
    insert_char 10 st = some { st with
      buffer := { st.buffer with
        lines := st.buffer.lines.take st.cursor_y
          ++ { l with data := l.data.take st.cursor_x }
          :: { data := l.data.drop st.cursor_x,
               capacity := l.data.length - st.cursor_x + 1, freed := false }
          :: st.buffer.lines.drop (st.cursor_y + 1) },
      cursor_y := st.cursor_y + 1, cursor_x := 0, modified := 1 } := by
  have h1 : ¬ (st.buffer.count ≥ st.buffer.capacity) := Nat.not_le.mpr hroom
  have h2 : ¬ (st.cursor_x > l.data.length) := Nat.not_lt.mpr hk
  have h4 : ¬ (st.cursor_x ≥ l.capacity) := Nat.not_le.mpr hcap
  have h3 : (l.data.drop st.cursor_x).take (l.data.length - st.cursor_x)
      = l.data.drop st.cursor_x := by
    apply List.take_of_length_le
    simp
  simp only [insert_char, hview, hline, h1, h2, h3, h4, ne_eq, not_true_eq_false, if_false,
    if_true]

theorem insert_char_newline_full (st : Editor) (l : Line) (hview : st.view_mode = 0)
    (hline : st.buffer.lines[st.cursor_y]? = some l)
    (hfull : st.buffer.count ≥ st.buffer.capacity) :
    insert_char 10 st = none := by
  simp [insert_char, hview, hline, hfull]

/-! ## `load_file` on a source that fits one chunk -/

theorem chunk_getD (A cur rest junk : List Nat) (b : Nat) :
    (A ++ cur ++ (b :: rest) ++ junk).getD (A.length + cur.length) 0 = b := by
  have h : A ++ cur ++ (b :: rest) ++ junk = (A ++ cur) ++ (b :: (rest ++ junk)) := by simp
  rw [h, List.getD_eq_getElem?_getD, List.getElem?_append_right (by simp)]
  simp

theorem slice_cur (A cur rest junk : List Nat) (n : Nat) (h : A.length + cur.length ≤ n) :
    slice (A ++ cur ++ rest ++ junk) n A.length cur.length = some cur := by
  simp [slice, h, List.append_assoc]

theorem scan_chunk_small (file : List Nat) (file_size n : Nat) (hn : n < MAX_LINE_SIZE)
    (rest : List Nat) :
    ∀ (fuel : Nat) (A cur junk : List Nat) (s : Loader),
      rest.length < fuel →
      s.chunk = A ++ cur ++ rest ++ junk →
      s.line_start = A.length → s.line_len = cur.length →
      s.bytes = A.length + cur.length + rest.length →
      s.bytes ≤ n → file_size ≤ s.offset + s.bytes →
      ∃ s1, scan_chunk file file_size n fuel (A.length + cur.length) s = some s1
        ∧ s1.buffer = (scan_spec cur rest).1.foldl add_line s.buffer
        ∧ s1.line_len = (scan_spec cur rest).2.length
        ∧ slice s1.chunk n s1.line_start s1.line_len = some (scan_spec cur rest).2
        ∧ s1.offset = s.offset ∧ s1.bytes = s.bytes := by
  induction rest with
  | nil =>
    intro fuel A cur junk s hfuel hchunk hls hll hbytes hle hsize
    obtain ⟨f, rfl⟩ : ∃ f, fuel = f + 1 := ⟨fuel - 1, by simp at hfuel; omega⟩
    refine ⟨s, ?_, rfl, ?_, ?_, rfl, rfl⟩
    · have : ¬ (A.length + cur.length < s.bytes) := by simp at hbytes; omega
      simp [scan_chunk, this]
    · simp [scan_spec, hll]
    · simp only [scan_spec]
      rw [hchunk, hls, hll]
      exact slice_cur A cur [] junk n (by simp at hbytes; omega)
  | cons b rest ih =>
    intro fuel A cur junk s hfuel hchunk hls hll hbytes hle hsize
    obtain ⟨f, rfl⟩ : ∃ f, fuel = f + 1 := ⟨fuel - 1, by simp at hfuel; omega⟩
    simp only [List.length_cons] at hfuel hbytes
    have hi : A.length + cur.length < s.bytes := by omega
    have hget : s.chunk.getD (A.length + cur.length) 0 = b := by
      rw [hchunk]; exact chunk_getD A cur rest junk b
    have hslice : slice s.chunk n s.line_start s.line_len = some cur := by
      rw [hchunk, hls, hll]; exact slice_cur A cur (b :: rest) junk n (by omega)
    by_cases hb : b = 10
    · subst hb
      by_cases hlast : rest = []
      · subst hlast
        have hend : A.length + cur.length = s.bytes - 1 := by simp at hbytes; omega
        refine ⟨{ s with buffer := add_line s.buffer cur, line_start := 0, line_len := 0 },
          ?_, ?_, ?_, ?_, ?_, ?_⟩
        · simp only [scan_chunk, if_pos hi, hget, hslice, if_pos hend, if_true, true_or]
        · simp [scan_spec]
        · simp [scan_spec]
        · simp [scan_spec, slice]
        · rfl
        · rfl
      · have hnotend : ¬ (A.length + cur.length = s.bytes - 1) := by
          have : 0 < rest.length := List.length_pos.mpr hlast
          omega
        obtain ⟨s1, h1, h2, h3, h4, h5, h6⟩ :=
          ih f (A ++ cur ++ [10]) [] junk
            { s with buffer := add_line s.buffer cur,
                     line_start := A.length + cur.length + 1, line_len := 0 }
            (by omega) (by simp [hchunk])
            (by simp only [List.length_append, List.length_singleton])
            (by simp)
            (by simp only [List.length_append, List.length_singleton, List.length_nil]; omega)
            (by simpa using hle) (by simpa using hsize)
        refine ⟨s1, ?_, ?_, ?_, ?_, ?_, ?_⟩
        · simp only [scan_chunk, if_pos hi, hget, hslice, if_neg hnotend, if_true, true_or]
          simpa using h1
        · simp [scan_spec, h2]
        · simp [scan_spec, h3]
        · simpa [scan_spec] using h4
        · simpa using h5
        · simpa using h6
    · have hmax : ¬ (s.line_len ≥ MAX_LINE_SIZE) := by omega
      have hcond : ¬ (s.chunk.getD (A.length + cur.length) 0 = 10 ∨ s.line_len ≥ MAX_LINE_SIZE) := by
        rw [hget]; simp [hb, hmax]
      have hcarry : ¬ (A.length + cur.length = s.bytes - 1 ∧ s.offset + s.bytes < file_size) := by
        omega
      obtain ⟨s1, h1, h2, h3, h4, h5, h6⟩ :=
        ih f A (cur ++ [b]) junk { s with line_len := s.line_len + 1 }
          (by omega) (by simp [hchunk]) (by simpa using hls) (by simp [hll])
          (by simp only [List.length_append, List.length_singleton]; omega)
          (by simpa using hle) (by simpa using hsize)
      refine ⟨s1, ?_, ?_, ?_, ?_, ?_, ?_⟩
      · simp only [scan_chunk, if_pos hi, if_neg hcond, if_neg hcarry]
        simpa [Nat.add_assoc] using h1
      · simp [scan_spec, hb, h2]
      · simp [scan_spec, hb, h3]
      · simpa [scan_spec, hb] using h4
      · simpa using h5
      · simpa using h6

theorem scan_spec_splitOnP (rest : List Nat) :
    ∀ cur : List Nat,
      (scan_spec cur rest).1 ++ (if (scan_spec cur rest).2 = [] then [] else [(scan_spec cur rest).2])
        = if cur = [] ∧ rest = [] then []
          else if rest.getLast? = some 10
            then ((rest.splitOnP (· == 10)).modifyHead (cur ++ ·)).dropLast
            else (rest.splitOnP (· == 10)).modifyHead (cur ++ ·) := by
  induction rest with
  | nil =>
    intro cur
    by_cases hc : cur = [] <;> simp [scan_spec, hc]
  | cons b rest ih =>
    intro cur
    by_cases hb : b = 10
    · subst hb
      have h := ih []
      simp only [scan_spec, if_true, List.cons_append, h]
      cases hS : rest.splitOnP (· == 10) with
      | nil => exact absurd hS (List.splitOnP_ne_nil _ _)
      | cons s0 ss =>
        cases rest with
        | nil => simp at hS ⊢
        | cons r0 rs =>
          simp only [List.splitOnP_cons (· == 10) 10, beq_self_eq_true, if_true, hS,
            List.modifyHead_cons, List.nil_append, List.append_nil, List.getLast?_cons_cons,
            true_and, and_false, if_false, reduceCtorEq]
          by_cases hl : (r0 :: rs).getLast? = some 10
          · simp [hl]
          · simp [hl]
    · have h := ih (cur ++ [b])
      have hbeq : (b == 10) = false := by simpa using hb
      simp only [scan_spec, if_neg hb, h]
      have hlast : ((b :: rest).getLast? = some 10) ↔ (rest.getLast? = some 10) := by
        cases rest with
        | nil => simp [hb]
        | cons r0 rs => simp
      have hT : ((b :: rest).splitOnP (· == 10)).modifyHead (cur ++ ·)
          = (rest.splitOnP (· == 10)).modifyHead ((cur ++ [b]) ++ ·) := by
        rw [List.splitOnP_cons]
        simp only [hbeq, Bool.false_eq_true, if_false, List.modifyHead_modifyHead]
        congr 1
        funext x
        simp
      simp only [hT, hlast]
      simp

theorem two_le_length_splitOnP (p : Nat → Bool) (l : List Nat) (x : Nat) (hx : x ∈ l)
    (hp : p x = true) : 2 ≤ (l.splitOnP p).length := by
  induction l with
  | nil => cases hx
  | cons a l ih =>
    rw [List.splitOnP_cons]
    by_cases ha : p a = true
    · have hne := List.splitOnP_ne_nil p l
      have : 0 < (l.splitOnP p).length := List.length_pos.mpr hne
      simp only [ha, if_true, List.length_cons]
      omega
    · have hxl : x ∈ l := by
        rcases List.mem_cons.mp hx with h | h
        · subst h; exact absurd hp ha
        · exact h
      have := ih hxl
      simp only [ha, Bool.false_eq_true, if_false]
      cases hS : l.splitOnP p with
      | nil => exact absurd hS (List.splitOnP_ne_nil p l)
      | cons s0 ss =>
        rw [hS] at this
        simpa using this

theorem loaded_lines_eq_splitOn (src : List Nat) :
    loaded_lines src
      = if src.getLast? = some 10 then (src.splitOn 10).dropLast else src.splitOn 10 := by
  have h := scan_spec_splitOnP src []
  have hid : ∀ l : List (List Nat), List.modifyHead (fun x => [] ++ x) l = l := by
    intro l; cases l <;> simp
  simp only [hid, true_and] at h
  simp only [loaded_lines, h, List.splitOn]
  by_cases hs : src = []
  · subst hs; simp
  · simp only [if_neg hs]
    by_cases hl : src.getLast? = some 10
    · simp only [if_pos hl]
      have h2 := two_le_length_splitOnP (· == 10) src 10 (List.mem_of_getLast?_eq_some hl) (by simp)
      have : (src.splitOnP (· == 10)).dropLast ≠ [] := by
        intro hnil
        have := congrArg List.length hnil
        simp only [List.length_dropLast, List.length_nil] at this
        omega
      simp only [if_neg this]
    · simp only [if_neg hl]
      simp [List.splitOnP_ne_nil]

theorem add_line_contents (b : LineBuffer) (d : List Nat) :
    (add_line b d).contents = b.contents ++ [d] := by
  unfold add_line LineBuffer.contents
  by_cases h : b.count ≥ b.capacity <;> simp [h, grow_buffer]

theorem foldl_add_line_contents (segs : List (List Nat)) :
    ∀ b : LineBuffer, (segs.foldl add_line b).contents = b.contents ++ segs := by
  induction segs with
  | nil => intro b; simp
  | cons d segs ih => intro b; simp [ih, add_line_contents]

theorem count_eq_zero_iff (b : LineBuffer) : b.count = 0 ↔ b.contents = [] := by
  simp [LineBuffer.count, LineBuffer.contents]

theorem pread_whole (src chunk : List Nat) (n : Nat) (h : src.length ≤ n) :
    pread src chunk n 0 = (src ++ chunk.drop src.length, src.length) := by
  simp [pread, List.take_of_length_le h]

theorem load_file_chunked_small (n : Nat) (src : List Nat) (hlen : src.length ≤ n)
    (hn : n < MAX_LINE_SIZE) :
    (load_file_chunked n src src.length).map LineBuffer.contents = some (loaded_lines src) := by
  cases src with
  | nil =>
    simp [load_file_chunked, load_loop, loaded_lines, scan_spec, LineBuffer.count,
      add_line, init_buffer, LineBuffer.contents]
  | cons b t =>
    obtain ⟨s1, h1, h2, h3, h4, h5, h6⟩ :=
      scan_chunk_small (b :: t) (b :: t).length n hn (b :: t)
        (((b :: t).length + 1) * (n + 1) + 1) [] [] ((List.replicate n 0).drop (b :: t).length)
        { chunk := (b :: t) ++ (List.replicate n 0).drop (b :: t).length, offset := 0,
          bytes := (b :: t).length, line_start := 0, line_len := 0, buffer := init_buffer }
        (by
          have : (b :: t).length < ((b :: t).length + 1) * (n + 1) := by
            calc (b :: t).length < ((b :: t).length + 1) * 1 := by omega
              _ ≤ ((b :: t).length + 1) * (n + 1) := Nat.mul_le_mul_left _ (by omega)
          omega)
        (by simp) rfl rfl (by simp) hlen (by simp)
    simp only [List.length_nil, Nat.add_zero] at h1
    simp only at h2 h5 h6
    have hpos : (0 : Nat) < (b :: t).length := by simp
    have hfuel : (b :: t).length + 1 = (t.length + 1) + 1 := by simp
    unfold load_file_chunked
    rw [hfuel]
    simp only [load_loop, hpos, if_true, pread_whole (b :: t) _ n hlen, Nat.le_zero_eq,
      Nat.ne_of_gt hpos, if_false, h1]
    simp only [h5, h6, Nat.zero_add, ge_iff_le, Nat.le_refl, and_true]
    have hcomp : s1.buffer.contents = (scan_spec [] (b :: t)).1 := by
      rw [h2, foldl_add_line_contents]; simp [init_buffer, LineBuffer.contents]
    by_cases hfin : (scan_spec [] (b :: t)).2 = []
    · have hll : ¬ (0 < s1.line_len) := by rw [h3, hfin]; simp
      simp only [if_neg hll, Nat.lt_irrefl, if_false, Option.map_some']
      by_cases he : (scan_spec [] (b :: t)).1 = []
      · have hz : s1.buffer.count = 0 := by rw [count_eq_zero_iff, hcomp, he]
        simp only [loaded_lines, hfin, he, if_pos hz, add_line_contents, hcomp]
        simp
      · have hz : ¬ s1.buffer.count = 0 := by rw [count_eq_zero_iff, hcomp]; exact he
        simp only [loaded_lines, hfin, if_neg hz, hcomp]
        simp [he]
    · have hll : 0 < s1.line_len := by
        rw [h3]; exact List.length_pos.mpr hfin
      simp only [if_pos hll, h4, Nat.lt_irrefl, if_false, Option.map_some']
      have hc : (add_line s1.buffer (scan_spec [] (b :: t)).2).contents
          = (scan_spec [] (b :: t)).1 ++ [(scan_spec [] (b :: t)).2] := by
        rw [add_line_contents, hcomp]
      have hz : ¬ (add_line s1.buffer (scan_spec [] (b :: t)).2).count = 0 := by
        rw [count_eq_zero_iff, hc]; simp
      simp only [loaded_lines, if_neg hfin, if_neg hz, hc]
      simp

/-! ## `load_file` on a source one byte longer than the chunk -/

theorem scan_chunk_plain_step (file : List Nat) (file_size n f i : Nat) (s : Loader)
    (hi : i + 1 < s.bytes) (hb : s.chunk.getD i 0 ≠ 10) (hm : s.line_len < MAX_LINE_SIZE) :
    scan_chunk file file_size n (f + 1) i s
      = scan_chunk file file_size n f (i + 1) { s with line_len := s.line_len + 1 } := by
  have h1 : i < s.bytes := by omega
  have h2 : ¬ (s.chunk.getD i 0 = 10 ∨ s.line_len ≥ MAX_LINE_SIZE) := by
    intro h; rcases h with h | h
    · exact hb h
    · omega
  have h3 : ¬ (i = s.bytes - 1 ∧ s.offset + s.bytes < file_size) := by omega
  simp only [scan_chunk, if_pos h1, if_neg h2, if_neg h3]

theorem scan_chunk_plain_run (file : List Nat) (file_size n : Nat) :
    ∀ (k f i : Nat) (s : Loader), i + k < s.bytes →
      (∀ j, i ≤ j → j < i + k → s.chunk.getD j 0 ≠ 10) →
      s.line_len + k ≤ MAX_LINE_SIZE →
      scan_chunk file file_size n (f + k) i s
        = scan_chunk file file_size n f (i + k) { s with line_len := s.line_len + k } := by
  intro k
  induction k with
  | zero => intro f i s _ _ _; rfl
  | succ k ih =>
    intro f i s hi hb hm
    have hstep := scan_chunk_plain_step file file_size n (f + k) i s (by omega)
      (hb i (Nat.le_refl _) (by omega)) (by omega)
    have hrec := ih f (i + 1) { s with line_len := s.line_len + 1 } (by simpa using (by omega : i + 1 + k < s.bytes))
      (fun j h1 h2 => hb j (by omega) (by omega)) (by simpa using (by omega : s.line_len + 1 + k ≤ MAX_LINE_SIZE))
    rw [show f + (k + 1) = (f + k) + 1 by omega, hstep, hrec]
    simp only [Nat.add_assoc, Nat.add_comm 1 k]

theorem load_loop_done (file : List Nat) (file_size n f : Nat) (s : Loader)
    (h : ¬ s.offset < file_size) : load_loop file file_size n (f + 1) s = some s := by
  simp only [load_loop, if_neg h]

theorem load_loop_step_no_line (file : List Nat) (file_size n f : Nat) (s s1 : Loader)
    (h : s.offset < file_size) (hr : ¬ (pread file s.chunk n s.offset).2 ≤ 0)
    (hscan : scan_chunk file file_size n ((file_size + 1) * (n + 1) + 1) 0
        { s with chunk := (pread file s.chunk n s.offset).1,
                 bytes := (pread file s.chunk n s.offset).2 } = some s1)
    (hll : s1.line_len = 0) :
    load_loop file file_size n (f + 1) s
      = load_loop file file_size n f { s1 with offset := s1.offset + s1.bytes } := by
  have hno : ¬ (0 < s1.line_len ∧ s1.offset + s1.bytes ≥ file_size) := by omega
  simp only [load_loop, if_pos h, if_neg hr, hscan, if_neg hno]

/-- A file of `n` bytes `a` (not a newline) followed by one byte `b`, read in chunks of `n`
bytes, loads as a single empty line. -/
theorem load_file_chunked_one_byte_over (n a b : Nat) (hn1 : 1 ≤ n) (hn : n < MAX_LINE_SIZE)
    (ha : a ≠ 10) :
    (load_file_chunked n (List.replicate n a ++ [b]) (n + 1)).map LineBuffer.contents
      = some [[]] := by
  obtain ⟨m, hm⟩ : ∃ m, n = m + 1 := ⟨n - 1, by omega⟩
  subst hm
  have hpread0 : pread (List.replicate (m + 1) a ++ [b]) (List.replicate (m + 1) 0) (m + 1) 0
      = (List.replicate (m + 1) a, m + 1) := by
    simp [pread, List.take_append_eq_append_take]
  have hpread1 : ∀ chunk : List Nat,
      pread (List.replicate (m + 1) a ++ [b]) chunk (m + 1) (0 + (m + 1))
      = (b :: chunk.drop 1, 1) := by
    intro chunk
    simp [pread, List.drop_append_eq_append_drop]
  have hget : ∀ j, j < m + 1 → (List.replicate (m + 1) a).getD j 0 = a := by
    intro j hj
    simp [List.getD_eq_getElem?_getD, List.getElem?_replicate, hj]
  -- the scan of the first chunk up to its last byte
  have hrun := scan_chunk_plain_run (List.replicate (m + 1) a ++ [b]) (m + 1 + 1) (m + 1) m
    ((m + 1 + 1 + 1) * (m + 1 + 1) + 1 - m) 0
    { chunk := List.replicate (m + 1) a, offset := 0, bytes := m + 1, line_start := 0,
      line_len := 0, buffer := init_buffer }
    (by simp) (fun j _ h2 => by rw [hget j (by omega)]; exact ha) (by simp; omega)
  have hfuel : (m + 1 + 1 + 1) * (m + 1 + 1) + 1 - m + m = (m + 1 + 1 + 1) * (m + 1 + 1) + 1 := by
    have : m ≤ (m + 1 + 1 + 1) * (m + 1 + 1) := by nlinarith
    omega
  rw [hfuel] at hrun
  obtain ⟨g, hg⟩ : ∃ g, (m + 1 + 1 + 1) * (m + 1 + 1) + 1 - m = g + 1 + 1 :=
    ⟨(m + 1 + 1 + 1) * (m + 1 + 1) + 1 - m - 2, by
      have : m + 2 ≤ (m + 1 + 1 + 1) * (m + 1 + 1) := by nlinarith
      omega⟩
  rw [hg] at hrun
  simp only [Nat.zero_add] at hrun
  -- the last byte of the first chunk: the carry-over branch
  have hc : ¬ ((List.replicate (m + 1) a).getD m 0 = 10 ∨ m ≥ MAX_LINE_SIZE) := by
    rw [hget m (by omega)]
    intro h; rcases h with h | h
    · exact ha h
    · omega
  have hslice : slice (List.replicate (m + 1) a) (m + 1) 0 (m + 1)
      = some (List.replicate (m + 1) a) := by
    simp [slice]
  have hcarry : (m = m + 1 - 1 ∧ 0 + (m + 1) < m + 1 + 1) := by omega
  have hnot : ¬ (m + 1 - 1 + 1 < 1) := by omega
  have hlast : scan_chunk (List.replicate (m + 1) a ++ [b]) (m + 1 + 1) (m + 1) (g + 1 + 1) m
      { chunk := List.replicate (m + 1) a, offset := 0, bytes := m + 1, line_start := 0,
        line_len := m, buffer := init_buffer }
      = some { chunk := List.replicate (m + 1) a
                  ++ (b :: (List.replicate (m + 1) a).drop 1).drop (m + 1),
               offset := 0 + (m + 1), bytes := 1, line_start := m + 1, line_len := 0,
               buffer := init_buffer } := by
    simp only [scan_chunk, Nat.lt_succ_self, if_true, if_neg hc, if_pos hcarry, hslice,
      hpread1, Nat.zero_lt_one, List.length_replicate, Nat.le_refl, if_neg hnot]
  rw [hlast] at hrun
  unfold load_file_chunked
  rw [load_loop_step_no_line _ _ _ _ _ _ (Nat.zero_lt_succ _) (by rw [hpread0]; simp)
        (by rw [hpread0]; exact hrun) rfl,
      load_loop_done _ _ _ _ _ (by simp)]
  simp [LineBuffer.count, add_line, init_buffer, LineBuffer.contents]

/-- A source without newline bytes, read in one chunk, loads as the single line holding it. -/
theorem load_file_chunked_one_line (n : Nat) (src : List Nat) (hlen : src.length ≤ n)
    (hn : n < MAX_LINE_SIZE) (hnl : ∀ x ∈ src, x ≠ 10) :
    (load_file_chunked n src src.length).map LineBuffer.contents = some [src] := by
  rw [load_file_chunked_small n src hlen hn, loaded_lines_eq_splitOn]
  have hlast : ¬ src.getLast? = some 10 := by
    intro h
    exact hnl 10 (List.mem_of_getLast?_eq_some h) rfl
  rw [if_neg hlast, List.splitOn, List.splitOnP_eq_single]
  intro y hy
  simpa using hnl y hy

/-! ## Load and save -/

/-- C1 (code defect): loading the six bytes `"ab\ncd\n"` gives the lines `ab`, `cd`, and
saving them unedited leaves the file holding all six bytes, trailing newline included,
where the round-trip law asks for the five bytes `"ab\ncd"`: `save_file` resizes the file
to the size recorded at startup, not to the number of bytes written. -/
theorem C1_roundtrip_keeps_trailing_newline :
    (load_file (startup [97, 98, 10, 99, 100, 10] 24 80)).map
        (fun st => (st.buffer.contents, (save_file st).file))
      = some ([[97, 98], [99, 100]], [97, 98, 10, 99, 100, 10]) := by
  decide

/-- C2 (code defect): the two bytes `"ab"` load as the single line `ab` with the chunk size
64000 or 17, and as a single empty line with chunk size 1; the seven bytes `"a\nbcd\ne"`
load as `a`, `bcd`, `e` with chunk size 64000 and as `a`, `d`, `e` with chunk size 3; and
the 64001 bytes made of 64000 times `a` and one `b` load as one empty line with the chunk
size 64000 of the program, and as the one line of 64001 bytes with chunk size 64001.  The
bytes carried over from one chunk to the next are dropped together with as many bytes of the
next chunk. -/
theorem C2_chunk_size_changes_buffer :
    (load_file_chunked 1 [97, 98] 2).map LineBuffer.contents = some [[]]
    ∧ (load_file_chunked 17 [97, 98] 2).map LineBuffer.contents = some [[97, 98]]
    ∧ (load_file_chunked CHUNK_SIZE [97, 98] 2).map LineBuffer.contents = some [[97, 98]]
    ∧ (load_file_chunked 3 [97, 10, 98, 99, 100, 10, 101] 7).map LineBuffer.contents
        = some [[97], [100], [101]]
    ∧ (load_file_chunked CHUNK_SIZE [97, 10, 98, 99, 100, 10, 101] 7).map LineBuffer.contents
        = some [[97], [98, 99, 100], [101]]
    ∧ (load_file_chunked CHUNK_SIZE (List.replicate CHUNK_SIZE 97 ++ [98])
          (CHUNK_SIZE + 1)).map LineBuffer.contents = some [[]]
    ∧ (load_file_chunked (CHUNK_SIZE + 1) (List.replicate CHUNK_SIZE 97 ++ [98])
          (CHUNK_SIZE + 1)).map LineBuffer.contents
        = some [List.replicate CHUNK_SIZE 97 ++ [98]] := by
  refine ⟨by decide, by decide, by decide, by decide, by decide, ?_, ?_⟩
  · exact load_file_chunked_one_byte_over CHUNK_SIZE 97 98 (by decide) (by decide) (by decide)
  · have hlen : (List.replicate CHUNK_SIZE 97 ++ [98]).length = CHUNK_SIZE + 1 := by
      rw [List.length_append, List.length_replicate, List.length_singleton]
    have h := load_file_chunked_one_line (CHUNK_SIZE + 1) (List.replicate CHUNK_SIZE 97 ++ [98])
      (Nat.le_of_eq hlen) (by decide)
      (by
        intro x hx
        rcases List.mem_append.mp hx with h | h
        · rw [List.eq_of_mem_replicate h]; decide
        · rw [List.mem_singleton.mp h]; decide)
    rw [hlen] at h
    exact h

/-- C3 (code defect): `save_file` resizes the file to the size recorded at startup after it
has written the buffer.  Load `"abc"` and press Enter at offset 1: the buffer holds `a` and
`bc`, the four bytes `a\nbc` are written, yet the file ends up as the three bytes `a\nb`.
Load `"abc"` and delete the first byte: the buffer holds `bc`, two bytes are written, yet
the file ends up as the three bytes `bcc`.  The edit of the example in the claim, `X`
entered at offset 1 of the loaded line, has no defined result, because its terminator is
stored outside the 4-byte block of the line. -/
theorem C3_save_after_growth_loses_tail :
    ((load_file (startup [97, 98, 99] 24 80)).bind
        (fun st => insert_char 10 { st with cursor_x := 1 })).map
        (fun st => (st.buffer.contents, (write_lines st.buffer.lines (st.file, 0)).2,
                    (save_file st).file))
      = some ([[97], [98, 99]], 4, [97, 10, 98])
    ∧ ((load_file (startup [97, 98, 99] 24 80)).bind delete_char).map
        (fun st => (st.buffer.contents, (write_lines st.buffer.lines (st.file, 0)).2,
                    (save_file st).file))
      = some ([[98, 99]], 2, [98, 99, 99])
    ∧ (load_file (startup [97, 98, 99] 24 80)).bind
        (fun st => insert_char 88 { st with cursor_x := 1 }) = none := by
  decide

/-- C4: for every source of at most 64000 bytes (one read chunk), `load_file` succeeds and
the buffer holds the newline-delimited segments of the source in order: the result of
splitting on the newline byte, without the final empty segment when the source ends with
a newline.  A source without trailing newline keeps its final partial line, and the empty
source gives one empty line. -/
theorem C4_load_file_single_chunk (src : List Nat) (rows cols : Int)
    (hlen : src.length ≤ 64000) :
    (load_file (startup src rows cols)).map (fun st => st.buffer.contents)
      = some (if src.getLast? = some 10 then (src.splitOn 10).dropLast else src.splitOn 10) := by
  have h := load_file_chunked_small CHUNK_SIZE src hlen (by decide)
  rw [loaded_lines_eq_splitOn] at h
  simp only [load_file, startup]
  cases hl : load_file_chunked CHUNK_SIZE src src.length with
  | none => rw [hl] at h; cases h
  | some b => rw [hl] at h; simpa using h

/-- C4 at `"ab\ncd\n"`, at `"ab"` and at the empty source: two lines `ab`, `cd`; the one
line `ab`; one empty line. -/
theorem C4_load_file_single_chunk_witness :
    [97, 98, 10, 99, 100, 10].length ≤ 64000
    ∧ (load_file (startup [97, 98, 10, 99, 100, 10] 24 80)).map (fun st => st.buffer.contents)
        = some (if [97, 98, 10, 99, 100, 10].getLast? = some 10
                then ([97, 98, 10, 99, 100, 10].splitOn 10).dropLast
                else [97, 98, 10, 99, 100, 10].splitOn 10)
    ∧ (if [97, 98, 10, 99, 100, 10].getLast? = some 10
        then ([97, 98, 10, 99, 100, 10].splitOn 10).dropLast
        else [97, 98, 10, 99, 100, 10].splitOn 10) = [[97, 98], [99, 100]]
    ∧ (load_file (startup [97, 98] 24 80)).map (fun st => st.buffer.contents)
        = some [[97, 98]]
    ∧ (load_file (startup [] 24 80)).map (fun st => st.buffer.contents) = some [[]] :=
  ⟨by decide, C4_load_file_single_chunk [97, 98, 10, 99, 100, 10] 24 80 (by decide),
    by decide,
    (C4_load_file_single_chunk [97, 98] 24 80 (by decide)).trans (by decide),
    (C4_load_file_single_chunk [] 24 80 (by decide)).trans (by decide)⟩

/-- C5: in edit mode with an open file and at least one line, the write loop of `save_file`
puts at offset 0 the first line's content followed, for each further line, by one newline
byte and that line's content, with nothing after the last line; bytes of the old file past
the written length stay; the file is then resized to `file_size`, and `modified` is reset
to 0. -/
theorem C5_save_file_writes_joined_lines (st : Editor) (hfd : st.fd ≠ -1)
    (hview : st.view_mode = 0) (hcount : 1 ≤ st.buffer.count) :
    ∃ (l0 : List Nat) (rest : List (List Nat)) (W : List Nat),
      st.buffer.contents = l0 :: rest
      ∧ W = l0 ++ (rest.map (fun l => 10 :: l)).flatten
      ∧ W = List.intercalate [10] st.buffer.contents
      ∧ write_lines st.buffer.lines (st.file, 0) = (W ++ st.file.drop W.length, W.length)
      ∧ (save_file st).file = ftruncate (W ++ st.file.drop W.length) st.file_size
      ∧ (save_file st).modified = 0 := by
  have hw := write_lines_after st.file st.buffer.lines []
  simp only [List.nil_append, List.length_nil, List.drop_zero] at hw
  have hcont : st.buffer.contents = st.buffer.lines.map Line.data := rfl
  cases hlines : st.buffer.lines with
  | nil => simp [LineBuffer.count, hlines] at hcount
  | cons l ls =>
    refine ⟨l.data, ls.map Line.data, List.intercalate [10] st.buffer.contents, ?_, ?_, rfl,
      ?_, ?_, ?_⟩
    · simp [hcont, hlines]
    · rw [hcont, hlines]
      clear hw hlines hcount
      induction ls generalizing l with
      | nil => simp [List.intercalate]
      | cons l2 ls2 ih =>
        simp only [List.map] at ih ⊢
        rw [intercalate_cons_cons, ih l2]
        simp
    · rw [hcont, ← hlines]; exact hw
    · have hne : ¬ (st.fd = -1 ∨ st.view_mode ≠ 0) := by simp [hfd, hview]
      simp only [save_file, if_neg hne]
      rw [hw, hcont]
    · have hne : ¬ (st.fd = -1 ∨ st.view_mode ≠ 0) := by simp [hfd, hview]
      simp only [save_file, if_neg hne]

/-- C5 at the two-line text `ab`, `cd` over the old file `"ab\ncd\n"`: the five bytes
`"ab\ncd"` are written and `modified` is 0. -/
theorem C5_save_file_writes_joined_lines_witness :
    two_line_editor.fd ≠ -1 ∧ two_line_editor.view_mode = 0
    ∧ 1 ≤ two_line_editor.buffer.count
    ∧ ∃ (l0 : List Nat) (rest : List (List Nat)) (W : List Nat),
      two_line_editor.buffer.contents = l0 :: rest
      ∧ W = l0 ++ (rest.map (fun l => 10 :: l)).flatten
      ∧ W = List.intercalate [10] two_line_editor.buffer.contents
      ∧ write_lines two_line_editor.buffer.lines (two_line_editor.file, 0)
          = (W ++ two_line_editor.file.drop W.length, W.length)
      ∧ (save_file two_line_editor).file
          = ftruncate (W ++ two_line_editor.file.drop W.length) two_line_editor.file_size
      ∧ (save_file two_line_editor).modified = 0 :=
  ⟨by decide, by decide, by decide,
    C5_save_file_writes_joined_lines two_line_editor (by decide) (by decide) (by decide)⟩

/-! ## Editing -/

/-- C6 (code defect): with the lines `ab`, `cd`, `ef` and the cursor at the start of line 1,
the backspace handler leaves `ab`, `cdef` with the cursor at line 0, offset 2.  Line 1 was
not merged into line 0: `delete_char` runs before `cursor_y` is decremented, so it works on
line 1 with the offset of line 0 and joins line 2 onto line 1. -/
theorem C6_backspace_at_line_start_joins_wrong_lines :
    (key_backspace (editor_of [[97, 98], [99, 100], [101, 102]] 0 1)).map
        (fun st => (st.buffer.contents, st.cursor_x, st.cursor_y))
      = some ([[97, 98], [99, 100, 101, 102]], 2, 0) := by
  decide

/-- The entry of a byte in insert mode when the block of the line has room for the byte and
the terminator: the current line becomes its first `k` bytes, `c`, then its remaining
bytes; the cursor moves to offset `k + 1`; every other line and the count are unchanged. -/
theorem insert_mode_entry_with_room (st : Editor) (l : Line) (c : Nat)
    (hview : st.view_mode = 0) (hins : st.insert_mode = 1)
    (hline : st.buffer.lines[st.cursor_y]? = some l)
    (hk : st.cursor_x ≤ l.data.length) (hc : c ≠ 10)
    (hroom : l.data.length + 1 < (if l.data.length ≥ l.capacity
        then (if l.capacity ≠ 0 then l.capacity * 2 else 16) else l.capacity)) :
    ∃ (st1 : Editor) (l1 : Line), insert_char c st = some st1
      ∧ st1.buffer.lines[st.cursor_y]? = some l1
      ∧ l1.data = l.data.take st.cursor_x ++ [c] ++ l.data.drop st.cursor_x
      ∧ l1.data.length = l.data.length + 1
      ∧ l1.data.length < l1.capacity
      ∧ st1.cursor_x = st.cursor_x + 1 ∧ st1.cursor_y = st.cursor_y
      ∧ (∀ j, j ≠ st.cursor_y → st1.buffer.lines[j]? = st.buffer.lines[j]?)
      ∧ st1.buffer.count = st.buffer.count := by
  have hlt : st.cursor_y < st.buffer.lines.length := by
    rcases Nat.lt_or_ge st.cursor_y st.buffer.lines.length with h | h
    · exact h
    · rw [List.getElem?_eq_none h] at hline; cases hline
  have hres := insert_char_insert_mode st l c hview hins hline hk hc hroom
  have hlen : (l.data.take st.cursor_x ++ [c] ++ l.data.drop st.cursor_x).length
      = l.data.length + 1 := by
    simp only [List.length_append, List.length_take, List.length_drop, List.length_singleton]
    omega
  refine ⟨_, { l with data := l.data.take st.cursor_x ++ [c] ++ l.data.drop st.cursor_x,
                      capacity := if l.data.length ≥ l.capacity
                        then (if l.capacity ≠ 0 then l.capacity * 2 else 16) else l.capacity },
    hres, ?_, rfl, hlen, ?_, rfl, rfl, ?_, ?_⟩
  · simp [List.getElem?_set_self hlt]
  · show (l.data.take st.cursor_x ++ [c] ++ l.data.drop st.cursor_x).length < _
    rw [hlen]; exact hroom
  · intro j hj
    simp [List.getElem?_set_ne (Ne.symm hj)]
  · simp [LineBuffer.count]

/-- C7 (code defect): a line that `load_file` builds has `capacity = len + 1`, and
`insert_char` grows the block only when `len >= capacity` holds before the entry.  For the
loaded line `abc` (`len = 3`, `capacity = 4`) with the cursor at offset 1, the entry of `X`
in insert mode builds `aXbc` with `len = 4`, `capacity = 4` and the cursor at offset 2, and
then stores the terminator at `data[4]`, outside the block, so `insert_char` has no defined
result.  Where the block has room for the byte and the terminator the entry is as
described: after Enter has split `abcdefg` behind `abc`, the entry of `X` at offset 1 of the
first line gives `aXbc` with the cursor at offset 2 and leaves the second line alone; and in
every state in which `len + 1` is below the capacity that the growth step leaves, the
current line becomes its first `k` bytes, `c`, then its remaining bytes, one byte longer,
the cursor moves to offset `k + 1` on the same line, and every other line and the line
count are unchanged. -/
theorem C7_insert_mode_entry_overruns_block :
    (load_file (startup [97, 98, 99] 24 80)).map
        (fun st => (st.view_mode, st.insert_mode, st.buffer.lines))
      = some (0, 1, [{ data := [97, 98, 99], capacity := 4, freed := false }])
    ∧ (insert_char_store 88 1 1 { data := [97, 98, 99], capacity := 4, freed := false }).map
        (fun r => (r.1.data, r.1.data.length, r.1.capacity, r.2))
      = some ([97, 88, 98, 99], 4, 4, 2)
    ∧ (load_file (startup [97, 98, 99] 24 80)).bind
        (fun st => insert_char 88 { st with cursor_x := 1 }) = none
    ∧ (run [KEY_ENTER, KEY_UP, KEY_RIGHT, 88]
          (session_of (editor_of [[97, 98, 99, 100, 101, 102, 103]] 3 0))).map
          (fun s => (s.ed.buffer.contents, s.ed.cursor_x, s.ed.cursor_y,
                     s.ed.buffer.lines.map (fun l => (l.data.length, l.capacity))))
        = some ([[97, 88, 98, 99], [100, 101, 102, 103]], 2, 0, [(4, 8), (4, 5)])
    ∧ (∀ (st : Editor) (l : Line) (c : Nat),
        st.view_mode = 0 → st.insert_mode = 1 →
        st.buffer.lines[st.cursor_y]? = some l →
        st.cursor_x ≤ l.data.length → c ≠ 10 →
        l.data.length + 1 < (if l.data.length ≥ l.capacity
          then (if l.capacity ≠ 0 then l.capacity * 2 else 16) else l.capacity) →
        ∃ (st1 : Editor) (l1 : Line), insert_char c st = some st1
          ∧ st1.buffer.lines[st.cursor_y]? = some l1
          ∧ l1.data = l.data.take st.cursor_x ++ [c] ++ l.data.drop st.cursor_x
          ∧ l1.data.length = l.data.length + 1
          ∧ l1.data.length < l1.capacity
          ∧ st1.cursor_x = st.cursor_x + 1 ∧ st1.cursor_y = st.cursor_y
          ∧ (∀ j, j ≠ st.cursor_y → st1.buffer.lines[j]? = st.buffer.lines[j]?)
          ∧ st1.buffer.count = st.buffer.count) := by
  refine ⟨by decide, by decide, by decide, by decide, ?_⟩
  intro st l c hview hins hline hk hc hroom
  exact insert_mode_entry_with_room st l c hview hins hline hk hc hroom

/-- C8 (code defect): with 1024 lines in a slot array of 1024 slots, Enter has no defined
result: `insert_char` takes the address of the current line, then `grow_buffer`
reallocates the slot array, and the split reads and truncates the line through the old
address. -/
theorem C8_newline_on_full_buffer_undefined :
    full_buffer_editor.view_mode = 0
    ∧ full_buffer_editor.buffer.count = 1024
    ∧ full_buffer_editor.buffer.capacity = 1024
    ∧ full_buffer_editor.buffer.lines[full_buffer_editor.cursor_y]?
        = some { data := [], capacity := 1, freed := false }
    ∧ insert_char 10 full_buffer_editor = none := by
  have hcount : full_buffer_editor.buffer.count = 1024 := by
    show (List.replicate 1024 _).length = 1024
    rw [List.length_replicate]
  have hline : full_buffer_editor.buffer.lines[full_buffer_editor.cursor_y]?
      = some { data := [], capacity := 1, freed := false } := by
    show (List.replicate 1024 _)[0]? = _
    rw [List.getElem?_replicate]
    rfl
  exact ⟨rfl, hcount, rfl, hline,
    insert_char_newline_full _ _ rfl hline (by rw [hcount]; exact Nat.le_refl _)⟩

/-- C9 (code defect): with the lines `ab`, `cd`, `ef` and the cursor at the end of line 0,
`delete_char` joins `cd` onto line 0 and removes it, and then releases the storage of the
line `ef`, which stays in the buffer: `free(next->data)` runs after the slots were shifted,
when `next` addresses the line that followed. -/
theorem C9_join_releases_following_line :
    (delete_char (editor_of [[97, 98], [99, 100], [101, 102]] 2 0)).map
        (fun st => (st.buffer.lines, st.cursor_x, st.cursor_y, st.modified))
      = some ([{ data := [97, 98, 99, 100], capacity := 5, freed := false },
               { data := [101, 102], capacity := 3, freed := true }], 2, 0, 1) := by
  decide

/-- C10 (code defect): in replace mode on the line holding the two bytes `C3 A9` (the single
character U+00E9) with the cursor at offset 0, `insert_char 'X'` leaves the bytes `58 A9`
and the cursor at offset 1: only the lead byte was overwritten, the continuation byte `A9`
is left behind and the line is no longer UTF-8. -/
theorem C10_replace_overwrites_one_byte :
    (insert_char 88 { editor_of [[0xC3, 0xA9]] 0 0 with insert_mode := 0 }).map
        (fun st => (st.buffer.contents, st.cursor_x, st.cursor_y))
      = some ([[88, 0xA9]], 1, 0)
    ∧ utf8_char_bytes [0xC3, 0xA9] 0 2 = 2
    ∧ (0xA9 &&& 0xC0 = 0x80) := by
  decide

/-! ## Unicode metrics: decoding and the width table -/

set_option maxRecDepth 100000 in
theorem byte_classes :
    ∀ c, c < 256 →
      ((c &&& 0x80 = 0 ↔ c < 0x80)
      ∧ (c &&& 0xE0 = 0xC0 ↔ (0xC0 ≤ c ∧ c < 0xE0))
      ∧ (c &&& 0xF0 = 0xE0 ↔ (0xE0 ≤ c ∧ c < 0xF0))
      ∧ (c &&& 0xF8 = 0xF0 ↔ (0xF0 ≤ c ∧ c < 0xF8))
      ∧ (c &&& 0xC0 = 0x80 ↔ (0x80 ≤ c ∧ c < 0xC0))) := by
  decide

theorem utf8_to_codepoint_malformed (data : List Nat) (pos len : Nat)
    (h : (0x80 ≤ data.getD pos 0 ∧ data.getD pos 0 ≤ 0xBF)
          ∨ (0xF8 ≤ data.getD pos 0 ∧ data.getD pos 0 ≤ 0xFF)) :
    utf8_to_codepoint data pos len = (0, 1) := by
  have hc := byte_classes (data.getD pos 0) (by omega)
  obtain ⟨h1, h2, h3, h4, _⟩ := hc
  have n1 : ¬ (data.getD pos 0 &&& 0x80 = 0) := by rw [h1]; omega
  have n2 : ¬ (data.getD pos 0 &&& 0xE0 = 0xC0) := by rw [h2]; omega
  have n3 : ¬ (data.getD pos 0 &&& 0xF0 = 0xE0) := by rw [h3]; omega
  have n4 : ¬ (data.getD pos 0 &&& 0xF8 = 0xF0) := by rw [h4]; omega
  have m2 : ¬ (data.getD pos 0 &&& 0xE0 = 0xC0 ∧ pos + 1 < len) := fun h => n2 h.1
  have m3 : ¬ (data.getD pos 0 &&& 0xF0 = 0xE0 ∧ pos + 2 < len) := fun h => n3 h.1
  have m4 : ¬ (data.getD pos 0 &&& 0xF8 = 0xF0 ∧ pos + 3 < len) := fun h => n4 h.1
  unfold utf8_to_codepoint
  by_cases hp : pos ≥ len
  · simp only [if_pos hp]
  · simp only [if_neg hp, if_neg n1, if_neg m2, if_neg m3, if_neg m4]

theorem utf8_to_codepoint_truncated (data : List Nat) (pos len : Nat)
    (h : (0xC0 ≤ data.getD pos 0 ∧ data.getD pos 0 ≤ 0xDF ∧ len ≤ pos + 1)
          ∨ (0xE0 ≤ data.getD pos 0 ∧ data.getD pos 0 ≤ 0xEF ∧ len ≤ pos + 2)
          ∨ (0xF0 ≤ data.getD pos 0 ∧ data.getD pos 0 ≤ 0xF7 ∧ len ≤ pos + 3)) :
    utf8_to_codepoint data pos len = (0, 1) := by
  have hc := byte_classes (data.getD pos 0) (by omega)
  obtain ⟨h1, h2, h3, h4, _⟩ := hc
  have n1 : ¬ (data.getD pos 0 &&& 0x80 = 0) := by rw [h1]; omega
  have n2 : ¬ (data.getD pos 0 &&& 0xE0 = 0xC0 ∧ pos + 1 < len) := by rw [h2]; omega
  have n3 : ¬ (data.getD pos 0 &&& 0xF0 = 0xE0 ∧ pos + 2 < len) := by rw [h3]; omega
  have n4 : ¬ (data.getD pos 0 &&& 0xF8 = 0xF0 ∧ pos + 3 < len) := by rw [h4]; omega
  unfold utf8_to_codepoint
  by_cases hp : pos ≥ len
  · simp only [if_pos hp]
  · simp only [if_neg hp, if_neg n1, if_neg n2, if_neg n3, if_neg n4]

theorem utf8_to_codepoint_length (data : List Nat) (pos len : Nat) :
    (0xC0 ≤ data.getD pos 0 ∧ data.getD pos 0 ≤ 0xDF ∧ pos + 1 < len →
        (utf8_to_codepoint data pos len).2 = 2)
    ∧ (0xE0 ≤ data.getD pos 0 ∧ data.getD pos 0 ≤ 0xEF ∧ pos + 2 < len →
        (utf8_to_codepoint data pos len).2 = 3)
    ∧ (0xF0 ≤ data.getD pos 0 ∧ data.getD pos 0 ≤ 0xF7 ∧ pos + 3 < len →
        (utf8_to_codepoint data pos len).2 = 4) := by
  refine ⟨?_, ?_, ?_⟩
  · intro h
    obtain ⟨h1, h2, _, _, _⟩ := byte_classes (data.getD pos 0) (by omega)
    have n0 : ¬ pos ≥ len := by omega
    have n1 : ¬ (data.getD pos 0 &&& 0x80 = 0) := by rw [h1]; omega
    have p2 : data.getD pos 0 &&& 0xE0 = 0xC0 ∧ pos + 1 < len := by rw [h2]; omega
    unfold utf8_to_codepoint
    simp only [if_neg n0, if_neg n1, if_pos p2]
  · intro h
    obtain ⟨h1, h2, h3, _, _⟩ := byte_classes (data.getD pos 0) (by omega)
    have n0 : ¬ pos ≥ len := by omega
    have n1 : ¬ (data.getD pos 0 &&& 0x80 = 0) := by rw [h1]; omega
    have n2 : ¬ (data.getD pos 0 &&& 0xE0 = 0xC0 ∧ pos + 1 < len) := by rw [h2]; omega
    have p3 : data.getD pos 0 &&& 0xF0 = 0xE0 ∧ pos + 2 < len := by rw [h3]; omega
    unfold utf8_to_codepoint
    simp only [if_neg n0, if_neg n1, if_neg n2, if_pos p3]
  · intro h
    obtain ⟨h1, h2, h3, h4, _⟩ := byte_classes (data.getD pos 0) (by omega)
    have n0 : ¬ pos ≥ len := by omega
    have n1 : ¬ (data.getD pos 0 &&& 0x80 = 0) := by rw [h1]; omega
    have n2 : ¬ (data.getD pos 0 &&& 0xE0 = 0xC0 ∧ pos + 1 < len) := by rw [h2]; omega
    have n3 : ¬ (data.getD pos 0 &&& 0xF0 = 0xE0 ∧ pos + 2 < len) := by rw [h3]; omega
    have p4 : data.getD pos 0 &&& 0xF8 = 0xF0 ∧ pos + 3 < len := by rw [h4]; omega
    unfold utf8_to_codepoint
    simp only [if_neg n0, if_neg n1, if_neg n2, if_neg n3, if_pos p4]

theorem utf8_to_codepoint_bytes (data : List Nat) (pos len : Nat) :
    1 ≤ (utf8_to_codepoint data pos len).2 ∧ (utf8_to_codepoint data pos len).2 ≤ 4
    ∧ (pos < len → pos + (utf8_to_codepoint data pos len).2 ≤ len) := by
  unfold utf8_to_codepoint
  by_cases h0 : pos ≥ len
  · simp only [if_pos h0]; omega
  · simp only [if_neg h0]
    by_cases h1 : data.getD pos 0 &&& 0x80 = 0
    · simp only [if_pos h1]; omega
    · simp only [if_neg h1]
      by_cases h2 : data.getD pos 0 &&& 0xE0 = 0xC0 ∧ pos + 1 < len
      · simp only [if_pos h2]; omega
      · simp only [if_neg h2]
        by_cases h3 : data.getD pos 0 &&& 0xF0 = 0xE0 ∧ pos + 2 < len
        · simp only [if_pos h3]; omega
        · simp only [if_neg h3]
          by_cases h4 : data.getD pos 0 &&& 0xF8 = 0xF0 ∧ pos + 3 < len
          · simp only [if_pos h4]; omega
          · simp only [if_neg h4]; omega

theorem ite_le_two (P : Prop) [Decidable P] (a b : Nat) (ha : a ≤ 2) (hb : b ≤ 2) :
    (if P then a else b) ≤ 2 := by
  split <;> assumption

theorem utf8_char_width_le_two (cp : Nat) : utf8_char_width cp ≤ 2 := by
  unfold utf8_char_width
  repeat' (first | apply ite_le_two | decide)

theorem utf8_char_width_values (cp : Nat) :
    utf8_char_width cp = 0 ∨ utf8_char_width cp = 1 ∨ utf8_char_width cp = 2 := by
  have := utf8_char_width_le_two cp
  omega

theorem utf8_char_width_zero_blocks (cp : Nat)
    (h : (0x0300 ≤ cp ∧ cp ≤ 0x036F) ∨ (0xFE00 ≤ cp ∧ cp ≤ 0xFE0F)) :
    utf8_char_width cp = 0 := by
  rcases h with h | h <;>
    (unfold utf8_char_width
     repeat (first | rw [if_pos (by omega)] | rw [if_neg (by omega)]))

theorem utf8_char_width_wide_blocks (cp : Nat)
    (h : (0x1100 ≤ cp ∧ cp ≤ 0x11FF) ∨ (0x3400 ≤ cp ∧ cp ≤ 0x4DBF)
          ∨ (0x4E00 ≤ cp ∧ cp ≤ 0x9FFF) ∨ (0xAC00 ≤ cp ∧ cp ≤ 0xD7AF)
          ∨ (0x1F300 ≤ cp ∧ cp ≤ 0x1F64F)) :
    utf8_char_width cp = 2 := by
  rcases h with h | h | h | h | h <;> rcases Nat.lt_or_ge cp 0x1F600 with h2 | h2 <;>
    first
    | (exfalso; omega)
    | (unfold utf8_char_width
       repeat (first | rw [if_pos (by omega)] | rw [if_neg (by omega)]))

theorem utf8_char_width_unlisted (cp : Nat)
    (h : ∀ b ∈ listed_blocks, ¬ (b.1 ≤ cp ∧ cp ≤ b.2)) :
    utf8_char_width cp = 1 := by
  simp only [listed_blocks, List.forall_mem_cons] at h
  unfold utf8_char_width
  simp only [h, if_false]

/-! ## The width walks -/

theorem display_length_loop_exit (data : List Nat) (len : Nat) :
    ∀ (fuel i disp : Nat), len ≤ fuel + i →
      len ≤ (display_length_loop data len fuel i disp).1 := by
  intro fuel
  induction fuel with
  | zero => intro i disp h; simpa [display_length_loop] using h
  | succ f ih =>
    intro i disp h
    by_cases hi : i < len
    · simp only [display_length_loop, if_pos hi]
      apply ih
      have := (utf8_to_codepoint_bytes data i len).1
      omega
    · simp only [display_length_loop, if_neg hi]
      omega

theorem byte_to_display_loop_exit (data : List Nat) (byte_pos len : Nat) :
    ∀ (fuel i disp : Nat), len ≤ fuel + i →
      ¬ ((byte_to_display_loop data byte_pos len fuel i disp).1 < byte_pos
          ∧ (byte_to_display_loop data byte_pos len fuel i disp).1 < len) := by
  intro fuel
  induction fuel with
  | zero =>
    intro i disp h
    simp only [byte_to_display_loop]
    omega
  | succ f ih =>
    intro i disp h
    by_cases hi : i < byte_pos ∧ i < len
    · simp only [byte_to_display_loop, if_pos hi]
      apply ih
      have := (utf8_to_codepoint_bytes data i len).1
      omega
    · simp only [byte_to_display_loop, if_neg hi]
      exact hi

theorem byte_to_display_loop_ge (data : List Nat) (byte_pos len : Nat) :
    ∀ (fuel i disp : Nat), disp ≤ (byte_to_display_loop data byte_pos len fuel i disp).2 := by
  intro fuel
  induction fuel with
  | zero => intro i disp; simp [byte_to_display_loop]
  | succ f ih =>
    intro i disp
    by_cases hi : i < byte_pos ∧ i < len
    · simp only [byte_to_display_loop, if_pos hi]
      exact Nat.le_trans (Nat.le_add_right _ _) (ih _ _)
    · simp only [byte_to_display_loop, if_neg hi]
      exact Nat.le_refl _

theorem byte_to_display_loop_mono (data : List Nat) (p q len : Nat) (hpq : p ≤ q) :
    ∀ (fuel i disp : Nat),
      (byte_to_display_loop data p len fuel i disp).2
        ≤ (byte_to_display_loop data q len fuel i disp).2 := by
  intro fuel
  induction fuel with
  | zero => intro i disp; simp [byte_to_display_loop]
  | succ f ih =>
    intro i disp
    by_cases hp : i < p ∧ i < len
    · have hq : i < q ∧ i < len := ⟨by omega, hp.2⟩
      simp only [byte_to_display_loop, if_pos hp, if_pos hq]
      exact ih _ _
    · by_cases hq : i < q ∧ i < len
      · simp only [byte_to_display_loop, if_neg hp, if_pos hq]
        exact Nat.le_trans (Nat.le_add_right _ _) (byte_to_display_loop_ge data q len f _ _)
      · simp only [byte_to_display_loop, if_neg hp, if_neg hq]
        exact Nat.le_refl _

theorem byte_to_display_loop_past_end (data : List Nat) (p len : Nat) (hp : len ≤ p) :
    ∀ (fuel i disp : Nat),
      byte_to_display_loop data p len fuel i disp = display_length_loop data len fuel i disp := by
  intro fuel
  induction fuel with
  | zero => intro i disp; rfl
  | succ f ih =>
    intro i disp
    by_cases hi : i < len
    · have h2 : i < p ∧ i < len := ⟨by omega, hi⟩
      simp only [byte_to_display_loop, display_length_loop, if_pos hi, if_pos h2]
      exact ih _ _
    · have h2 : ¬ (i < p ∧ i < len) := fun h => hi h.2
      simp only [byte_to_display_loop, display_length_loop, if_neg hi, if_neg h2]

theorem byte_to_display_le_display_length (data : List Nat) (p len : Nat) :
    byte_to_display data p len ≤ utf8_display_length data len := by
  have h1 := byte_to_display_loop_mono data p (max p len) len (Nat.le_max_left _ _) len 0 0
  have h2 := byte_to_display_loop_past_end data (max p len) len (Nat.le_max_right _ _) len 0 0
  unfold byte_to_display utf8_display_length
  rw [← h2]
  exact h1

/-- The re-clamp of the vertical moves never changes `cursor_x`. -/
theorem reclamp_cursor_x_eq (l : Line) (x : Nat) : reclamp_cursor_x l x = x := by
  unfold reclamp_cursor_x
  have := byte_to_display_le_display_length l.data x l.data.length
  rw [if_neg (by omega)]

/-- C14: at every position inside the line `utf8_to_codepoint` reports an encoded length
between 1 and 4 that stays inside the line; a 2-, 3- or 4-byte lead byte without enough
bytes after it decodes as length 1, codepoint 0, whose width is 1; the line `C2` has display
length 1; and the loops of `utf8_display_length` and `byte_to_display`, run for `len`
iterations, end in a state where the loop condition is false. -/
theorem C14_decoding_advances_in_bounds (data : List Nat) (len pos : Nat) (hpos : pos < len) :
    (1 ≤ (utf8_to_codepoint data pos len).2 ∧ (utf8_to_codepoint data pos len).2 ≤ 4
      ∧ pos + (utf8_to_codepoint data pos len).2 ≤ len)
    ∧ ((0xC0 ≤ data.getD pos 0 ∧ data.getD pos 0 ≤ 0xDF ∧ len ≤ pos + 1)
        ∨ (0xE0 ≤ data.getD pos 0 ∧ data.getD pos 0 ≤ 0xEF ∧ len ≤ pos + 2)
        ∨ (0xF0 ≤ data.getD pos 0 ∧ data.getD pos 0 ≤ 0xF7 ∧ len ≤ pos + 3) →
      utf8_to_codepoint data pos len = (0, 1)
        ∧ utf8_char_width (utf8_to_codepoint data pos len).1 = 1)
    ∧ utf8_display_length [0xC2] 1 = 1
    ∧ ¬ ((display_length_loop data len len 0 0).1 < len)
    ∧ (∀ byte_pos,
        ¬ ((byte_to_display_loop data byte_pos len len 0 0).1 < byte_pos
            ∧ (byte_to_display_loop data byte_pos len len 0 0).1 < len)) := by
  refine ⟨?_, ?_, by decide, ?_, ?_⟩
  · have h := utf8_to_codepoint_bytes data pos len
    exact ⟨h.1, h.2.1, h.2.2 hpos⟩
  · intro h
    have h1 := utf8_to_codepoint_truncated data pos len h
    refine ⟨h1, ?_⟩
    rw [h1]
    decide
  · have := display_length_loop_exit data len len 0 0 (by omega)
    omega
  · intro byte_pos
    exact byte_to_display_loop_exit data byte_pos len len 0 0 (by omega)

/-- C14 at the line `C2`, position 0. -/
theorem C14_decoding_advances_in_bounds_witness :
    0 < 1 ∧ utf8_to_codepoint [0xC2] 0 1 = (0, 1) ∧ utf8_display_length [0xC2] 1 = 1
    ∧ ¬ ((display_length_loop [0xC2] 1 1 0 0).1 < 1) :=
  ⟨by decide,
    ((C14_decoding_advances_in_bounds [0xC2] 1 0 (by decide)).2.1 (by decide)).1,
    (C14_decoding_advances_in_bounds [0xC2] 1 0 (by decide)).2.2.1,
    (C14_decoding_advances_in_bounds [0xC2] 1 0 (by decide)).2.2.2.1⟩

/-- C18: for every line and all byte offsets `p ≤ q`, the column of `p` is at most the
column of `q`; and for every offset at or past the end of the line the column is the display
length of the line. -/
theorem C18_byte_to_display_monotone (data : List Nat) (len p q : Nat) (hpq : p ≤ q) :
    byte_to_display data p len ≤ byte_to_display data q len
    ∧ (len ≤ q → byte_to_display data q len = utf8_display_length data len) := by
  refine ⟨byte_to_display_loop_mono data p q len hpq len 0 0, ?_⟩
  intro hq
  unfold byte_to_display utf8_display_length
  rw [byte_to_display_loop_past_end data q len hq]

/-- C18 at the line `a`, U+1F600, `b` (6 bytes): columns 1 and 3 at offsets 1 and 5, and
column 4, the display length, at offset 9. -/
theorem C18_byte_to_display_monotone_witness :
    (1 ≤ 5 ∧ byte_to_display [97, 240, 159, 152, 128, 98] 1 6
        ≤ byte_to_display [97, 240, 159, 152, 128, 98] 5 6)
    ∧ byte_to_display [97, 240, 159, 152, 128, 98] 1 6 = 1
    ∧ byte_to_display [97, 240, 159, 152, 128, 98] 5 6 = 3
    ∧ byte_to_display [97, 240, 159, 152, 128, 98] 9 6
        = utf8_display_length [97, 240, 159, 152, 128, 98] 6 :=
  ⟨⟨by decide, (C18_byte_to_display_monotone [97, 240, 159, 152, 128, 98] 6 1 5 (by decide)).1⟩,
    by decide, by decide,
    (C18_byte_to_display_monotone [97, 240, 159, 152, 128, 98] 6 5 9 (by decide)).2 (by decide)⟩

/-! ## Claims C11 to C20 -/

/-- C11 (code defect): with the lines `abcdef`, `ab` and the cursor at the end of line 0
(offset 6), the down key moves the cursor to line 1 and leaves `cursor_x` at 6, beyond the
2 bytes of that line; the up key from line 1 of `ab`, `abcdef` at offset 6 does the same.
The re-clamp compares `byte_to_display` of the new line with the display length of the same
line, which it never exceeds, so the assignment `cursor_x = len` is never run. -/
theorem C11_vertical_move_keeps_cursor_x :
    (key_down (editor_of [[97, 98, 99, 100, 101, 102], [97, 98]] 6 0)).map
        (fun st => (st.cursor_x, st.cursor_y, (st.buffer.contents.getD st.cursor_y []).length))
      = some (6, 1, 2)
    ∧ (key_up (editor_of [[97, 98], [97, 98, 99, 100, 101, 102]] 6 1)).map
        (fun st => (st.cursor_x, st.cursor_y, (st.buffer.contents.getD st.cursor_y []).length))
      = some (6, 0, 2) := by
  decide

/-- C12 (code defect): with 30 lines on a 24-row terminal, `scroll_y = 1` and the cursor on
line 1 (on screen), page-up sets `scroll_y` to 0 and takes 22 from the unsigned `cursor_y`,
which wraps to 2^64 - 21; the test `cursor_y < 0` never holds for a `size_t`, `cursor_y` is
left outside the buffer, and the handler then indexes `buffer.lines` with it. -/
theorem C12_page_up_wraps_cursor_y :
    (page_up_editor.cursor_y < page_up_editor.buffer.count)
    ∧ (page_up_editor.scroll_y ≤ page_up_editor.cursor_y
        ∧ (page_up_editor.cursor_y : Int) < page_up_editor.scroll_y + page_up_editor.rows - 2)
    ∧ pgup_shift page_up_editor = (0, 2 ^ 64 - 21)
    ∧ ¬ ((pgup_shift page_up_editor).2 < page_up_editor.buffer.count)
    ∧ key_pgup page_up_editor = none := by
  decide

/-- C13 (as amended): at a position inside the line, `utf8_to_codepoint` returns encoded
length 1 and codepoint 0 for every malformed lead byte (a stray continuation byte `80..BF`
or `F8..FF`) and for every 2-, 3- or 4-byte lead byte that has fewer than 1, 2 or 3 bytes
after it in the line; when enough bytes follow, the encoded length is the one the lead byte
announces, whatever the following bytes are. -/
theorem C13_decode_malformed_or_truncated (data : List Nat) (pos len : Nat)
    (hpos : pos < len) :
    ((0x80 ≤ data.getD pos 0 ∧ data.getD pos 0 ≤ 0xBF)
        ∨ (0xF8 ≤ data.getD pos 0 ∧ data.getD pos 0 ≤ 0xFF) →
      utf8_to_codepoint data pos len = (0, 1))
    ∧ ((0xC0 ≤ data.getD pos 0 ∧ data.getD pos 0 ≤ 0xDF ∧ len ≤ pos + 1)
        ∨ (0xE0 ≤ data.getD pos 0 ∧ data.getD pos 0 ≤ 0xEF ∧ len ≤ pos + 2)
        ∨ (0xF0 ≤ data.getD pos 0 ∧ data.getD pos 0 ≤ 0xF7 ∧ len ≤ pos + 3) →
      utf8_to_codepoint data pos len = (0, 1))
    ∧ (0xC0 ≤ data.getD pos 0 ∧ data.getD pos 0 ≤ 0xDF ∧ pos + 1 < len →
        (utf8_to_codepoint data pos len).2 = 2)
    ∧ (0xE0 ≤ data.getD pos 0 ∧ data.getD pos 0 ≤ 0xEF ∧ pos + 2 < len →
        (utf8_to_codepoint data pos len).2 = 3)
    ∧ (0xF0 ≤ data.getD pos 0 ∧ data.getD pos 0 ≤ 0xF7 ∧ pos + 3 < len →
        (utf8_to_codepoint data pos len).2 = 4) := by
  have _ := hpos
  exact ⟨utf8_to_codepoint_malformed data pos len, utf8_to_codepoint_truncated data pos len,
    utf8_to_codepoint_length data pos len⟩

/-- C13 at the line `C2` (a lead byte alone): the decoder returns length 1, codepoint 0. -/
theorem C13_decode_malformed_or_truncated_witness :
    0 < 1 ∧ utf8_to_codepoint [0xC2] 0 1 = (0, 1)
    ∧ utf8_to_codepoint [0xA9, 0x41] 0 2 = (0, 1) :=
  ⟨by decide,
    (C13_decode_malformed_or_truncated [0xC2] 0 1 (by decide)).2.1 (by decide),
    (C13_decode_malformed_or_truncated [0xA9, 0x41] 0 2 (by decide)).1 (by decide)⟩

/-- C13 as stated fails: in the line `C3 41` the byte after the 2-byte lead `C3` is not a
continuation byte, and the decoder returns length 2 and codepoint U+00C1, not length 1 and
codepoint 0. -/
theorem C13_continuation_not_checked :
    (0xC0 ≤ [0xC3, 0x41].getD 0 0 ∧ [0xC3, 0x41].getD 0 0 ≤ 0xDF)
    ∧ ¬ ([0xC3, 0x41].getD 1 0 &&& 0xC0 = 0x80)
    ∧ utf8_to_codepoint [0xC3, 0x41] 0 2 = (0xC1, 2)
    ∧ utf8_to_codepoint [0xC3, 0x41] 0 2 ≠ (0, 1) := by
  decide

/-- C15 (code defect): `utf8_display_length` gives the line `"\t"` the length 1 and the line
`"ab\tc"` the length 4: a tab counts as one column like any ASCII byte.  For the same tabs
`get_utf8_char_at` reports the widths 4 and 2, that is `4 - (column mod 4)`. -/
theorem C15_display_length_does_not_expand_tabs :
    utf8_display_length [9] 1 = 1
    ∧ utf8_display_length [97, 98, 9, 99] 4 = 4
    ∧ get_utf8_char_at [9] 0 1 = (9, 1, 4)
    ∧ get_utf8_char_at [97, 98, 9, 99] 2 4 = (9, 1, 2)
    ∧ byte_to_display [97, 98, 9, 99] 3 4 = 3 := by
  decide

/-- C17: `utf8_char_width` returns 0, 1 or 2 on every codepoint; 0 on U+0300..U+036F and
U+FE00..U+FE0F; 2 on U+1100..U+11FF, U+3400..U+4DBF, U+4E00..U+9FFF, U+AC00..U+D7AF and
U+1F300..U+1F64F; and 1 on every codepoint outside all the blocks the table lists, such as
U+0750, U+10000 and U+110000. -/
theorem C17_char_width_table :
    (∀ cp, utf8_char_width cp = 0 ∨ utf8_char_width cp = 1 ∨ utf8_char_width cp = 2)
    ∧ (∀ cp, (0x0300 ≤ cp ∧ cp ≤ 0x036F) ∨ (0xFE00 ≤ cp ∧ cp ≤ 0xFE0F) →
        utf8_char_width cp = 0)
    ∧ (∀ cp, (0x1100 ≤ cp ∧ cp ≤ 0x11FF) ∨ (0x3400 ≤ cp ∧ cp ≤ 0x4DBF)
          ∨ (0x4E00 ≤ cp ∧ cp ≤ 0x9FFF) ∨ (0xAC00 ≤ cp ∧ cp ≤ 0xD7AF)
          ∨ (0x1F300 ≤ cp ∧ cp ≤ 0x1F64F) →
        utf8_char_width cp = 2)
    ∧ (∀ cp, (∀ b ∈ listed_blocks, ¬ (b.1 ≤ cp ∧ cp ≤ b.2)) → utf8_char_width cp = 1)
    ∧ (∀ b ∈ listed_blocks, ¬ (b.1 ≤ 0x0750 ∧ 0x0750 ≤ b.2))
    ∧ (∀ b ∈ listed_blocks, ¬ (b.1 ≤ 0x10000 ∧ 0x10000 ≤ b.2))
    ∧ (∀ b ∈ listed_blocks, ¬ (b.1 ≤ 0x110000 ∧ 0x110000 ≤ b.2))
    ∧ utf8_char_width 0x0750 = 1 ∧ utf8_char_width 0x10000 = 1
    ∧ utf8_char_width 0x110000 = 1 := by
  refine ⟨utf8_char_width_values, utf8_char_width_zero_blocks, utf8_char_width_wide_blocks,
    utf8_char_width_unlisted, by decide, by decide, by decide, by decide, by decide,
    by decide⟩


/-! ## `display_to_byte` after `byte_to_display` -/

theorem display_length_loop_stuck (data : List Nat) (len : Nat) (k i d : Nat)
    (hi : ¬ i < len) : display_length_loop data len k i d = (i, d) := by
  cases k with
  | zero => rfl
  | succ k => simp only [display_length_loop, if_neg hi]

theorem display_length_loop_step (data : List Nat) (len : Nat) (k i d : Nat) (hi : i < len) :
    display_length_loop data len (k + 1) i d
      = display_length_loop data len k (i + (utf8_to_codepoint data i len).2)
          (d + utf8_char_width (utf8_to_codepoint data i len).1) := by
  simp only [display_length_loop, if_pos hi]

theorem display_length_loop_ge (data : List Nat) (len : Nat) :
    ∀ (k i d : Nat), i ≤ (display_length_loop data len k i d).1
      ∧ d ≤ (display_length_loop data len k i d).2 := by
  intro k
  induction k with
  | zero => intro i d; exact ⟨Nat.le_refl _, Nat.le_refl _⟩
  | succ k ih =>
    intro i d
    by_cases hi : i < len
    · rw [display_length_loop_step data len k i d hi]
      have := ih (i + (utf8_to_codepoint data i len).2)
        (d + utf8_char_width (utf8_to_codepoint data i len).1)
      omega
    · rw [display_length_loop_stuck data len (k + 1) i d hi]
      exact ⟨Nat.le_refl _, Nat.le_refl _⟩

theorem display_length_loop_advance (data : List Nat) (len : Nat) :
    ∀ (k i d : Nat), (display_length_loop data len k i d).1 < len →
      i + k ≤ (display_length_loop data len k i d).1 := by
  intro k
  induction k with
  | zero => intro i d _; exact Nat.le_refl _
  | succ k ih =>
    intro i d h
    by_cases hi : i < len
    · rw [display_length_loop_step data len k i d hi] at h ⊢
      have := ih _ _ h
      have := (utf8_to_codepoint_bytes data i len).1
      omega
    · rw [display_length_loop_stuck data len (k + 1) i d hi] at h
      exact absurd h hi

theorem byte_to_display_loop_reaches (data : List Nat) (len : Nat) :
    ∀ (k i d fuel : Nat), len ≤ fuel + i →
      byte_to_display_loop data (display_length_loop data len k i d).1 len fuel i d
        = display_length_loop data len k i d := by
  intro k
  induction k with
  | zero =>
    intro i d fuel _
    have hn : ¬ (i < i ∧ i < len) := by omega
    cases fuel with
    | zero => rfl
    | succ f => simp only [display_length_loop, byte_to_display_loop, if_neg hn]
  | succ k ih =>
    intro i d fuel hfuel
    by_cases hi : i < len
    · rw [display_length_loop_step data len k i d hi]
      obtain ⟨f, rfl⟩ : ∃ f, fuel = f + 1 := ⟨fuel - 1, by omega⟩
      have hb := (utf8_to_codepoint_bytes data i len).1
      have hge := (display_length_loop_ge data len k (i + (utf8_to_codepoint data i len).2)
        (d + utf8_char_width (utf8_to_codepoint data i len).1)).1
      have hc : i < (display_length_loop data len k (i + (utf8_to_codepoint data i len).2)
          (d + utf8_char_width (utf8_to_codepoint data i len).1)).1 ∧ i < len :=
        ⟨by omega, hi⟩
      rw [byte_to_display_loop, if_pos hc]
      exact ih _ _ f (by omega)
    · rw [display_length_loop_stuck data len (k + 1) i d hi]
      have hn : ¬ (i < i ∧ i < len) := by omega
      cases fuel with
      | zero => rfl
      | succ f => simp only [byte_to_display_loop, if_neg hn]

theorem display_to_byte_loop_done (data : List Nat) (disp_pos len : Nat) (fuel bp cd : Nat)
    (h : ¬ (bp < len ∧ cd < disp_pos)) :
    display_to_byte_loop data disp_pos len fuel bp cd = (bp, cd) := by
  cases fuel with
  | zero => rfl
  | succ f => simp only [display_to_byte_loop, if_neg h]

theorem display_length_loop_succ (data : List Nat) (len : Nat) :
    ∀ (k i d : Nat), display_length_loop data len (k + 1) i d
      = if (display_length_loop data len k i d).1 < len then
          ((display_length_loop data len k i d).1
              + (utf8_to_codepoint data (display_length_loop data len k i d).1 len).2,
           (display_length_loop data len k i d).2
              + utf8_char_width
                  (utf8_to_codepoint data (display_length_loop data len k i d).1 len).1)
        else display_length_loop data len k i d := by
  intro k
  induction k with
  | zero =>
    intro i d
    by_cases hi : i < len
    · simp only [display_length_loop, if_pos hi]
    · simp only [display_length_loop, if_neg hi]
  | succ k ih =>
    intro i d
    by_cases hi : i < len
    · rw [display_length_loop_step data len (k + 1) i d hi,
        display_length_loop_step data len k i d hi]
      exact ih _ _
    · rw [display_length_loop_stuck data len (k + 1 + 1) i d hi,
        display_length_loop_stuck data len (k + 1) i d hi]
      rw [if_neg hi]

theorem walk_succ (data : List Nat) (len k : Nat) (h : walk_index data len k < len) :
    walk_index data len (k + 1)
        = walk_index data len k + (utf8_to_codepoint data (walk_index data len k) len).2
      ∧ walk_column data len (k + 1)
        = walk_column data len k
            + utf8_char_width (utf8_to_codepoint data (walk_index data len k) len).1 := by
  unfold walk_index walk_column at *
  rw [display_length_loop_succ, if_pos h]
  exact ⟨rfl, rfl⟩

theorem walk_stuck (data : List Nat) (len k : Nat) (h : ¬ walk_index data len k < len) :
    ∀ n, display_length_loop data len (k + n) 0 0 = display_length_loop data len k 0 0 := by
  unfold walk_index at h
  intro n
  induction n with
  | zero => rfl
  | succ n ih =>
    rw [← Nat.add_assoc, display_length_loop_succ, ih, if_neg h]

theorem walk_mono (data : List Nat) (len : Nat) :
    ∀ (n k : Nat), walk_index data len k ≤ walk_index data len (k + n)
      ∧ walk_column data len k ≤ walk_column data len (k + n) := by
  intro n
  induction n with
  | zero => intro k; exact ⟨Nat.le_refl _, Nat.le_refl _⟩
  | succ n ih =>
    intro k
    have h1 := ih k
    rw [← Nat.add_assoc]
    by_cases h : walk_index data len (k + n) < len
    · have h2 := walk_succ data len (k + n) h
      omega
    · have h2 := walk_stuck data len (k + n) h 1
      have e1 : walk_index data len (k + n + 1) = walk_index data len (k + n) := by
        unfold walk_index; rw [h2]
      have e2 : walk_column data len (k + n + 1) = walk_column data len (k + n) := by
        unfold walk_column; rw [h2]
      rw [e1, e2]
      exact h1

theorem walk_column_first (data : List Nat) (len : Nat) :
    ∀ k, ∃ j, j ≤ k ∧ walk_column data len j = walk_column data len k
      ∧ ∀ i, i < j → walk_column data len i < walk_column data len k := by
  intro k
  induction k with
  | zero => exact ⟨0, Nat.le_refl _, rfl, fun i hi => absurd hi (Nat.not_lt_zero i)⟩
  | succ k ih =>
    obtain ⟨j, h1, h2, h3⟩ := ih
    have hm := (walk_mono data len 1 k).2
    by_cases he : walk_column data len (k + 1) = walk_column data len k
    · refine ⟨j, by omega, by omega, ?_⟩
      intro i hi
      have := h3 i hi
      omega
    · refine ⟨k + 1, Nat.le_refl _, rfl, ?_⟩
      intro i hi
      have := (walk_mono data len (k - i) i).2
      have e : i + (k - i) = k := by omega
      rw [e] at this
      omega

theorem display_to_byte_loop_walk (data : List Nat) (D len : Nat) :
    ∀ (m j fuel : Nat), m ≤ fuel →
      (∀ i, j ≤ i → i < j + m → walk_index data len i < len ∧ walk_column data len i < D
          ∧ walk_column data len (i + 1) ≤ D) →
      display_to_byte_loop data D len fuel (walk_index data len j) (walk_column data len j)
        = display_to_byte_loop data D len (fuel - m) (walk_index data len (j + m))
            (walk_column data len (j + m)) := by
  intro m
  induction m with
  | zero => intro j fuel _ _; rfl
  | succ m ih =>
    intro j fuel hf h
    obtain ⟨f, rfl⟩ : ∃ f, fuel = f + 1 := ⟨fuel - 1, by omega⟩
    obtain ⟨h1, h2, h3⟩ := h j (Nat.le_refl _) (by omega)
    obtain ⟨e1, e2⟩ := walk_succ data len j h1
    have hstep : display_to_byte_loop data D len (f + 1) (walk_index data len j)
        (walk_column data len j)
        = display_to_byte_loop data D len f (walk_index data len (j + 1))
            (walk_column data len (j + 1)) := by
      rw [display_to_byte_loop, if_pos ⟨h1, h2⟩]
      dsimp only
      rw [← e2, if_pos h3, ← e1]
    rw [hstep, ih (j + 1) f (by omega) (fun i hi1 hi2 => h i (by omega) (by omega))]
    have ea : j + 1 + m = j + (m + 1) := by omega
    have eb : f - m = f + 1 - (m + 1) := by omega
    rw [ea, eb]

/-- C19 (as amended): for every line and every character boundary `p` (the offset reached
after `k` decoding steps), `display_to_byte` applied to the column of `p` gives the first
character boundary whose column equals that of `p`: a boundary reached after `j ≤ k` steps,
with the column of `p`, such that every boundary reached in fewer steps has a smaller
column.  It is `p` itself when `p = 0` or the character that ends at `p` has a nonzero
display width, and it lies before `p` when the character that ends at `p` has display
width zero. -/
theorem C19_display_to_byte_gives_first_boundary_of_column (data : List Nat) (len k : Nat) :
    ∃ j, j ≤ k
      ∧ display_to_byte data (byte_to_display data (walk_index data len k) len) len
          = walk_index data len j
      ∧ byte_to_display data (walk_index data len j) len
          = byte_to_display data (walk_index data len k) len
      ∧ (∀ i, i < j → byte_to_display data (walk_index data len i) len
          < byte_to_display data (walk_index data len k) len)
      ∧ ((walk_index data len k = 0 ∨ (walk_index data len (k - 1) < len
            ∧ 0 < utf8_char_width
                  (utf8_to_codepoint data (walk_index data len (k - 1)) len).1))
          → walk_index data len j = walk_index data len k)
      ∧ ((0 < k ∧ walk_index data len (k - 1) < len
            ∧ utf8_char_width (utf8_to_codepoint data (walk_index data len (k - 1)) len).1 = 0)
          → walk_index data len j < walk_index data len k) := by
  have hcol : ∀ i, byte_to_display data (walk_index data len i) len
      = walk_column data len i := by
    intro i
    have := byte_to_display_loop_reaches data len i 0 0 len (by omega)
    unfold byte_to_display walk_index walk_column
    rw [this]
  obtain ⟨j, hjk, hje, hjlt⟩ := walk_column_first data len k
  have hlive : ∀ i, i < j → walk_index data len i < len := by
    intro i hi
    by_contra hn
    have hs := walk_stuck data len i hn (k - i)
    have e : i + (k - i) = k := by omega
    rw [e] at hs
    have := hjlt i hi
    unfold walk_column at this
    rw [hs] at this
    exact Nat.lt_irrefl _ this
  have hfuel : j ≤ len + 1 := by
    rcases Nat.eq_zero_or_pos j with h0 | hpos
    · omega
    · have h1 := hlive (j - 1) (by omega)
      have := display_length_loop_advance data len (j - 1) 0 0 h1
      unfold walk_index at h1
      omega
  have hrun := display_to_byte_loop_walk data (walk_column data len k) len j 0 (len + 1) hfuel
    (by
      intro i _ hi
      have hi2 : i < j := by omega
      refine ⟨hlive i hi2, hjlt i hi2, ?_⟩
      have := (walk_mono data len (k - (i + 1)) (i + 1)).2
      have e : i + 1 + (k - (i + 1)) = k := by omega
      rw [e] at this
      exact this)
  rw [Nat.zero_add] at hrun
  have hdone := display_to_byte_loop_done data (walk_column data len k) len (len + 1 - j)
    (walk_index data len j) (walk_column data len j) (by omega)
  refine ⟨j, hjk, ?_, ?_, ?_, ?_, ?_⟩
  · rw [hcol]
    show (display_to_byte_loop data (walk_column data len k) len (len + 1)
      (walk_index data len 0) (walk_column data len 0)).1 = _
    rw [hrun, hdone]
  · rw [hcol, hcol, hje]
  · intro i hi
    rw [hcol, hcol]
    exact hjlt i hi
  · intro h
    rcases h with h | ⟨h1, h2⟩
    · have := (walk_mono data len (k - j) j).1
      have e : j + (k - j) = k := by omega
      rw [e] at this
      omega
    · rcases Nat.eq_zero_or_pos k with h0 | hpos
      · have : j = 0 := by omega
        rw [this, h0]
      · have hs := (walk_succ data len (k - 1) h1).2
        have e : k - 1 + 1 = k := by omega
        rw [e] at hs
        have hj : j = k := by
          by_contra hne
          have hlt : j ≤ k - 1 := by omega
          have := (walk_mono data len (k - 1 - j) j).2
          have e2 : j + (k - 1 - j) = k - 1 := by omega
          rw [e2] at this
          omega
        rw [hj]
  · intro ⟨hpos, h1, h2⟩
    obtain ⟨hs1, hs2⟩ := walk_succ data len (k - 1) h1
    have e : k - 1 + 1 = k := by omega
    rw [e] at hs1 hs2
    have hb := (utf8_to_codepoint_bytes data (walk_index data len (k - 1)) len).1
    have hj : j ≤ k - 1 := by
      by_contra hne
      have := hjlt (k - 1) (by omega)
      omega
    have := (walk_mono data len (k - 1 - j) j).1
    have e2 : j + (k - 1 - j) = k - 1 := by omega
    rw [e2] at this
    omega

/-- C19 as stated fails: in the line `a`, U+0301, `b` (bytes `61 CC 81 62`) the offset 3 is
the character boundary after the zero-width U+0301; its column is 1, and `display_to_byte`
maps column 1 to offset 1, not 3. -/
theorem C19_zero_width_boundary_not_recovered :
    walk_index [97, 0xCC, 0x81, 98] 4 2 = 3
    ∧ utf8_to_codepoint [97, 0xCC, 0x81, 98] 1 4 = (0x301, 2)
    ∧ utf8_char_width 0x301 = 0
    ∧ byte_to_display [97, 0xCC, 0x81, 98] 3 4 = 1
    ∧ display_to_byte [97, 0xCC, 0x81, 98] (byte_to_display [97, 0xCC, 0x81, 98] 3 4) 4 = 1
    ∧ display_to_byte [97, 0xCC, 0x81, 98] (byte_to_display [97, 0xCC, 0x81, 98] 3 4) 4 ≠ 3 := by
  decide


/-! ## Encoding and decoding -/

theorem getD_append_right (P Q : List Nat) (j : Nat) :
    (P ++ Q).getD (P.length + j) 0 = Q.getD j 0 := by
  rw [List.getD_eq_getElem?_getD, List.getD_eq_getElem?_getD,
    List.getElem?_append_right (Nat.le_add_right _ _), Nat.add_sub_cancel_left]

set_option maxRecDepth 100000 in
theorem lead2_facts : ∀ a, a < 32 →
    ((0xC0 ||| a) &&& 0x80 ≠ 0 ∧ (0xC0 ||| a) &&& 0xE0 = 0xC0 ∧ (0xC0 ||| a) &&& 0x1F = a
      ∧ (0xC0 ||| a) &&& 0xC0 ≠ 0x80) := by
  decide

set_option maxRecDepth 100000 in
theorem lead3_facts : ∀ a, a < 16 →
    ((0xE0 ||| a) &&& 0x80 ≠ 0 ∧ (0xE0 ||| a) &&& 0xE0 ≠ 0xC0 ∧ (0xE0 ||| a) &&& 0xF0 = 0xE0
      ∧ (0xE0 ||| a) &&& 0x0F = a ∧ (0xE0 ||| a) &&& 0xC0 ≠ 0x80) := by
  decide

set_option maxRecDepth 100000 in
theorem lead4_facts : ∀ a, a < 8 →
    ((0xF0 ||| a) &&& 0x80 ≠ 0 ∧ (0xF0 ||| a) &&& 0xE0 ≠ 0xC0 ∧ (0xF0 ||| a) &&& 0xF0 ≠ 0xE0
      ∧ (0xF0 ||| a) &&& 0xF8 = 0xF0 ∧ (0xF0 ||| a) &&& 0x07 = a
      ∧ (0xF0 ||| a) &&& 0xC0 ≠ 0x80) := by
  decide

set_option maxRecDepth 100000 in
theorem cont_facts : ∀ d, d < 64 →
    ((0x80 ||| d) &&& 0x3F = d ∧ (0x80 ||| d) &&& 0xC0 = 0x80) := by
  decide

theorem and_63 (x : Nat) : x &&& 0x3F = x % 64 :=
  Nat.and_pow_two_sub_one_eq_mod x 6

theorem shift_or (a d : Nat) (i : Nat) (hd : d < 2 ^ i) : (a <<< i) ||| d = a * 2 ^ i + d := by
  rw [Nat.shiftLeft_eq, Nat.mul_comm, ← Nat.mul_add_lt_is_or hd]

theorem shift6_or (a d : Nat) (hd : d < 64) : (a <<< 6) ||| d = a * 64 + d :=
  shift_or a d 6 hd

theorem shift12_or (a d : Nat) (hd : d < 4096) : (a <<< 12) ||| d = a * 4096 + d :=
  shift_or a d 12 hd

theorem shift18_or (a d : Nat) (hd : d < 262144) : (a <<< 18) ||| d = a * 262144 + d :=
  shift_or a d 18 hd

theorem combine2 (c : Nat) : ((c >>> 6) <<< 6) ||| (c &&& 0x3F) = c := by
  rw [and_63, shift6_or _ _ (Nat.mod_lt _ (by decide)), Nat.shiftRight_eq_div_pow]
  have := Nat.div_add_mod c 64
  norm_num
  omega

theorem combine3 (c : Nat) :
    (((c >>> 12) <<< 12) ||| (((c >>> 6) &&& 0x3F) <<< 6)) ||| (c &&& 0x3F) = c := by
  have hm := Nat.mod_lt (c >>> 6) (by decide : 0 < 64)
  have h1 : (((c >>> 6) &&& 0x3F) <<< 6) < 4096 := by
    rw [and_63, Nat.shiftLeft_eq]
    norm_num
    omega
  rw [shift12_or _ _ h1]
  have h2 : (c >>> 12) * 4096 + (((c >>> 6) &&& 0x3F) <<< 6)
      = (((c >>> 12) * 64 + ((c >>> 6) &&& 0x3F)) <<< 6) := by
    rw [Nat.shiftLeft_eq, Nat.shiftLeft_eq]
    ring
  rw [h2, and_63 c, shift6_or _ _ (Nat.mod_lt _ (by decide)), and_63,
    Nat.shiftRight_eq_div_pow, Nat.shiftRight_eq_div_pow]
  norm_num
  omega

theorem combine4 (c : Nat) :
    ((((c >>> 18) <<< 18) ||| (((c >>> 12) &&& 0x3F) <<< 12))
      ||| (((c >>> 6) &&& 0x3F) <<< 6)) ||| (c &&& 0x3F) = c := by
  have hm1 := Nat.mod_lt (c >>> 12) (by decide : 0 < 64)
  have hm2 := Nat.mod_lt (c >>> 6) (by decide : 0 < 64)
  have h1 : (((c >>> 12) &&& 0x3F) <<< 12) < 262144 := by
    rw [and_63, Nat.shiftLeft_eq]
    norm_num
    omega
  rw [shift18_or _ _ h1]
  have h2 : (c >>> 18) * 262144 + (((c >>> 12) &&& 0x3F) <<< 12)
      = (((c >>> 18) * 64 + ((c >>> 12) &&& 0x3F)) <<< 12) := by
    rw [Nat.shiftLeft_eq, Nat.shiftLeft_eq]
    ring
  have h3 : (((c >>> 6) &&& 0x3F) <<< 6) < 4096 := by
    rw [and_63, Nat.shiftLeft_eq]
    norm_num
    omega
  rw [h2, shift12_or _ _ h3]
  have h4 : ((c >>> 18) * 64 + ((c >>> 12) &&& 0x3F)) * 4096 + (((c >>> 6) &&& 0x3F) <<< 6)
      = ((((c >>> 18) * 64 + ((c >>> 12) &&& 0x3F)) * 64 + ((c >>> 6) &&& 0x3F)) <<< 6) := by
    rw [Nat.shiftLeft_eq, Nat.shiftLeft_eq]
    ring
  rw [h4, and_63 c, shift6_or _ _ (Nat.mod_lt _ (by decide)), and_63, and_63,
    Nat.shiftRight_eq_div_pow, Nat.shiftRight_eq_div_pow, Nat.shiftRight_eq_div_pow]
  norm_num
  omega

theorem decode1 (data : List Nat) (pos len c : Nat) (h0 : data.getD pos 0 = c)
    (hlen : pos < len) (hc : c < 0x80) : utf8_to_codepoint data pos len = (c, 1) := by
  have h1 : c &&& 0x80 = 0 := (byte_classes c (by omega)).1.mpr hc
  unfold utf8_to_codepoint
  rw [if_neg (by omega)]
  simp only [h0, if_pos h1]

theorem decode2 (data : List Nat) (pos len a d : Nat)
    (h0 : data.getD pos 0 = 0xC0 ||| a) (h1 : data.getD (pos + 1) 0 = 0x80 ||| d)
    (hlen : pos + 1 < len) (ha : a < 32) (hd : d < 64) :
    utf8_to_codepoint data pos len = ((a <<< 6) ||| d, 2) := by
  obtain ⟨f1, f2, f3, _⟩ := lead2_facts a ha
  obtain ⟨g1, _⟩ := cont_facts d hd
  unfold utf8_to_codepoint
  rw [if_neg (by omega)]
  simp only [h0, h1, if_neg f1, f2, f3, g1, hlen, and_self, if_true]

theorem decode3 (data : List Nat) (pos len a d1 d2 : Nat)
    (h0 : data.getD pos 0 = 0xE0 ||| a) (h1 : data.getD (pos + 1) 0 = 0x80 ||| d1)
    (h2 : data.getD (pos + 2) 0 = 0x80 ||| d2)
    (hlen : pos + 2 < len) (ha : a < 16) (hd1 : d1 < 64) (hd2 : d2 < 64) :
    utf8_to_codepoint data pos len = (((a <<< 12) ||| (d1 <<< 6)) ||| d2, 3) := by
  obtain ⟨f1, f2, f3, f4, _⟩ := lead3_facts a ha
  obtain ⟨g1, _⟩ := cont_facts d1 hd1
  obtain ⟨g2, _⟩ := cont_facts d2 hd2
  have n2 : ¬ ((0xE0 ||| a) &&& 0xE0 = 0xC0 ∧ pos + 1 < len) := fun h => f2 h.1
  unfold utf8_to_codepoint
  rw [if_neg (by omega)]
  simp only [h0, h1, h2, if_neg f1, if_neg n2, f3, f4, g1, g2, hlen, and_self, if_true]

theorem decode4 (data : List Nat) (pos len a d1 d2 d3 : Nat)
    (h0 : data.getD pos 0 = 0xF0 ||| a) (h1 : data.getD (pos + 1) 0 = 0x80 ||| d1)
    (h2 : data.getD (pos + 2) 0 = 0x80 ||| d2) (h3 : data.getD (pos + 3) 0 = 0x80 ||| d3)
    (hlen : pos + 3 < len) (ha : a < 8) (hd1 : d1 < 64) (hd2 : d2 < 64) (hd3 : d3 < 64) :
    utf8_to_codepoint data pos len
      = ((((a <<< 18) ||| (d1 <<< 12)) ||| (d2 <<< 6)) ||| d3, 4) := by
  obtain ⟨f1, f2, f3, f4, f5, _⟩ := lead4_facts a ha
  obtain ⟨g1, _⟩ := cont_facts d1 hd1
  obtain ⟨g2, _⟩ := cont_facts d2 hd2
  obtain ⟨g3, _⟩ := cont_facts d3 hd3
  have n2 : ¬ ((0xF0 ||| a) &&& 0xE0 = 0xC0 ∧ pos + 1 < len) := fun h => f2 h.1
  have n3 : ¬ ((0xF0 ||| a) &&& 0xF0 = 0xE0 ∧ pos + 2 < len) := fun h => f3 h.1
  unfold utf8_to_codepoint
  rw [if_neg (by omega)]
  simp only [h0, h1, h2, h3, if_neg f1, if_neg n2, if_neg n3, f4, f5, g1, g2, g3, hlen,
    and_self, if_true]

theorem shr6_lt (c : Nat) (h : c ≤ 0x7FF) : c >>> 6 < 32 := by
  rw [Nat.shiftRight_eq_div_pow]; norm_num; omega

theorem shr12_lt (c : Nat) (h : c ≤ 0xFFFF) : c >>> 12 < 16 := by
  rw [Nat.shiftRight_eq_div_pow]; norm_num; omega

theorem shr18_lt (c : Nat) (h : c ≤ 0x10FFFF) : c >>> 18 < 8 := by
  rw [Nat.shiftRight_eq_div_pow]; norm_num; omega

theorem and_63_lt (x : Nat) : x &&& 0x3F < 64 := by
  rw [and_63]; exact Nat.mod_lt _ (by decide)

theorem utf8_encode_length_pos (c : Nat) (hc : c ≤ 0x10FFFF) : 1 ≤ (utf8_encode c).length := by
  unfold utf8_encode
  split_ifs <;> simp

/-- Decoding at the start of an encoded codepoint gives the codepoint and the number of bytes
of its encoding. -/
theorem decode_encode (P R : List Nat) (c : Nat) (hc : c ≤ 0x10FFFF) :
    utf8_to_codepoint (P ++ (utf8_encode c ++ R)) P.length
        (P.length + ((utf8_encode c).length + R.length))
      = (c, (utf8_encode c).length) := by
  have g0 := getD_append_right P (utf8_encode c ++ R) 0
  have g1 := getD_append_right P (utf8_encode c ++ R) 1
  have g2 := getD_append_right P (utf8_encode c ++ R) 2
  have g3 := getD_append_right P (utf8_encode c ++ R) 3
  rw [Nat.add_zero] at g0
  unfold utf8_encode at *
  by_cases h1 : c ≤ 0x7F
  · simp only [if_pos h1] at *
    rw [decode1 _ _ _ c (by rw [g0]; rfl) (by simp only [List.length_append, List.length_cons, List.length_nil]; omega) (by omega)]
    rfl
  · by_cases h2 : c ≤ 0x7FF
    · simp only [if_neg h1, if_pos h2] at *
      rw [decode2 _ _ _ (c >>> 6) (c &&& 0x3F) (by rw [g0]; rfl) (by rw [g1]; rfl)
        (by simp only [List.length_append, List.length_cons, List.length_nil]; omega) (shr6_lt c h2) (and_63_lt c), combine2]
      rfl
    · by_cases h3 : c ≤ 0xFFFF
      · simp only [if_neg h1, if_neg h2, if_pos h3] at *
        rw [decode3 _ _ _ (c >>> 12) ((c >>> 6) &&& 0x3F) (c &&& 0x3F) (by rw [g0]; rfl)
          (by rw [g1]; rfl) (by rw [g2]; rfl) (by simp only [List.length_append, List.length_cons, List.length_nil]; omega) (shr12_lt c h3) (and_63_lt _)
          (and_63_lt c), combine3]
        rfl
      · simp only [if_neg h1, if_neg h2, if_neg h3, if_pos hc] at *
        rw [decode4 _ _ _ (c >>> 18) ((c >>> 12) &&& 0x3F) ((c >>> 6) &&& 0x3F) (c &&& 0x3F)
          (by rw [g0]; rfl) (by rw [g1]; rfl) (by rw [g2]; rfl) (by rw [g3]; rfl) (by simp only [List.length_append, List.length_cons, List.length_nil]; omega)
          (shr18_lt c hc) (and_63_lt _) (and_63_lt _) (and_63_lt c), combine4]
        rfl

/-! ## The width walks on a line of encoded codepoints -/

theorem encode_line_nil : encode_line [] = [] := rfl

theorem encode_line_cons (c : Nat) (cs : List Nat) :
    encode_line (c :: cs) = utf8_encode c ++ encode_line cs := by
  simp [encode_line]

theorem encode_line_append (xs ys : List Nat) :
    encode_line (xs ++ ys) = encode_line xs ++ encode_line ys := by
  simp [encode_line]

theorem length_le_encode_line (cs : List Nat) (hv : ∀ c ∈ cs, c ≤ 0x10FFFF) :
    cs.length ≤ (encode_line cs).length := by
  induction cs with
  | nil => simp
  | cons c cs ih =>
    have h1 := utf8_encode_length_pos c (hv c (List.mem_cons_self _ _))
    have h2 := ih (fun x hx => hv x (List.mem_cons_of_mem _ hx))
    rw [encode_line_cons, List.length_append, List.length_cons]
    omega

/-- Decoding at the boundary that follows the encoded prefix `P`. -/
theorem decode_at_boundary (P : List Nat) (c : Nat) (cs : List Nat) (data : List Nat)
    (len i : Nat) (hdata : data = P ++ encode_line (c :: cs)) (hlen : len = data.length)
    (hi : i = P.length) (hc : c ≤ 0x10FFFF) :
    utf8_to_codepoint data i len = (c, (utf8_encode c).length) := by
  subst hi
  rw [hlen, hdata, encode_line_cons, List.length_append, List.length_append]
  exact decode_encode P (encode_line cs) c hc

theorem display_length_loop_encoded :
    ∀ (cs P data : List Nat) (len i fuel d : Nat),
      data = P ++ encode_line cs → len = data.length → i = P.length →
      (∀ c ∈ cs, c ≤ 0x10FFFF) → cs.length ≤ fuel →
      display_length_loop data len fuel i d = (len, d + (cs.map utf8_char_width).sum) := by
  intro cs
  induction cs with
  | nil =>
    intro P data len i fuel d hdata hlen hi _ _
    have hn : ¬ i < len := by
      rw [hlen, hdata, hi]; simp [encode_line_nil]
    rw [display_length_loop_stuck data len fuel i d hn]
    have : i = len := by rw [hlen, hdata, hi]; simp [encode_line_nil]
    simp [this]
  | cons c cs ih =>
    intro P data len i fuel d hdata hlen hi hv hfuel
    obtain ⟨f, rfl⟩ : ∃ f, fuel = f + 1 := ⟨fuel - 1, by simp at hfuel; omega⟩
    have hc := hv c (List.mem_cons_self _ _)
    have hpos := utf8_encode_length_pos c hc
    have hil : i < len := by
      rw [hlen, hdata, hi, encode_line_cons]
      simp only [List.length_append]
      omega
    rw [display_length_loop_step data len f i d hil,
      decode_at_boundary P c cs data len i hdata hlen hi hc]
    rw [ih (P ++ utf8_encode c) data len (i + (utf8_encode c).length) f
      (d + utf8_char_width c)
      (by rw [hdata, encode_line_cons, List.append_assoc]) hlen
      (by rw [hi, List.length_append])
      (fun x hx => hv x (List.mem_cons_of_mem _ hx))
      (by simp at hfuel; omega)]
    simp only [List.map_cons, List.sum_cons, Nat.add_assoc]

theorem byte_to_display_loop_encoded :
    ∀ (k : Nat) (cs P data : List Nat) (len i fuel d : Nat),
      data = P ++ encode_line cs → len = data.length → i = P.length →
      (∀ c ∈ cs, c ≤ 0x10FFFF) → k ≤ fuel →
      byte_to_display_loop data (i + (encode_line (cs.take k)).length) len fuel i d
        = (i + (encode_line (cs.take k)).length,
           d + ((cs.take k).map utf8_char_width).sum) := by
  intro k
  induction k with
  | zero =>
    intro cs P data len i fuel d _ _ _ _ _
    have hn : ¬ (i < i + (encode_line (cs.take 0)).length ∧ i < len) := by
      simp [encode_line_nil]
    cases fuel with
    | zero => simp [byte_to_display_loop, encode_line_nil]
    | succ f =>
      simp only [byte_to_display_loop, if_neg hn]
      simp [encode_line_nil]
  | succ k ih =>
    intro cs P data len i fuel d hdata hlen hi hv hfuel
    cases cs with
    | nil =>
      have hn : ¬ (i < i + (encode_line (([] : List Nat).take (k + 1))).length ∧ i < len) := by
        simp [encode_line_nil]
      cases fuel with
      | zero => simp [byte_to_display_loop, encode_line_nil]
      | succ f =>
        simp only [byte_to_display_loop, if_neg hn]
        simp [encode_line_nil]
    | cons c cs =>
      obtain ⟨f, rfl⟩ : ∃ f, fuel = f + 1 := ⟨fuel - 1, by omega⟩
      have hc := hv c (List.mem_cons_self _ _)
      have hpos := utf8_encode_length_pos c hc
      have hil : i < len := by
        rw [hlen, hdata, hi, encode_line_cons]
        simp only [List.length_append]
        omega
      have htake : encode_line ((c :: cs).take (k + 1))
          = utf8_encode c ++ encode_line (cs.take k) := by
        rw [List.take_succ_cons, encode_line_cons]
      have hcond : i < i + (encode_line ((c :: cs).take (k + 1))).length ∧ i < len := by
        rw [htake, List.length_append]
        exact ⟨by omega, hil⟩
      rw [byte_to_display_loop, if_pos hcond,
        decode_at_boundary P c cs data len i hdata hlen hi hc]
      have h := ih cs (P ++ utf8_encode c) data len (i + (utf8_encode c).length) f
        (d + utf8_char_width c)
        (by rw [hdata, encode_line_cons, List.append_assoc]) hlen
        (by rw [hi, List.length_append])
        (fun x hx => hv x (List.mem_cons_of_mem _ hx)) (by omega)
      rw [htake, List.length_append, ← Nat.add_assoc, h]
      simp only [List.take_succ_cons, List.map_cons, List.sum_cons, Nat.add_assoc]

/-- C16: for every sequence of codepoints up to U+10FFFF and the line made of their UTF-8
encodings, the display length of the line is the sum of the widths `utf8_char_width` gives
the codepoints, and the column of the byte offset just after the `k`-th character is the sum
of the widths of the first `k` codepoints.  (No codepoint is excluded; a tab counts with its
`utf8_char_width`, which is 1.) -/
theorem C16_widths_of_encoded_line (cs : List Nat) (hv : ∀ c ∈ cs, c ≤ 0x10FFFF) :
    utf8_display_length (encode_line cs) (encode_line cs).length
      = (cs.map utf8_char_width).sum
    ∧ (∀ k, k ≤ cs.length →
        byte_to_display (encode_line cs) (encode_line (cs.take k)).length
            (encode_line cs).length
          = ((cs.take k).map utf8_char_width).sum) := by
  constructor
  · unfold utf8_display_length
    rw [display_length_loop_encoded cs [] (encode_line cs) (encode_line cs).length 0
      (encode_line cs).length 0 (by simp) rfl rfl hv (length_le_encode_line cs hv)]
    simp
  · intro k hk
    unfold byte_to_display
    have h := byte_to_display_loop_encoded k cs [] (encode_line cs) (encode_line cs).length 0
      (encode_line cs).length 0 (by simp) rfl rfl hv
      (Nat.le_trans hk (length_le_encode_line cs hv))
    simp only [Nat.zero_add] at h
    rw [h]

/-- C16 at `a`, U+1F600, `b`: the line is `61 F0 9F 98 80 62`, its display length is
1 + 2 + 1 = 4, and the column at byte offset 5, just after U+1F600, is 3. -/
theorem C16_widths_of_encoded_line_witness :
    (∀ c ∈ [97, 0x1F600, 98], c ≤ 0x10FFFF)
    ∧ encode_line [97, 0x1F600, 98] = [0x61, 0xF0, 0x9F, 0x98, 0x80, 0x62]
    ∧ utf8_display_length (encode_line [97, 0x1F600, 98]) (encode_line [97, 0x1F600, 98]).length
        = ([97, 0x1F600, 98].map utf8_char_width).sum
    ∧ ([97, 0x1F600, 98].map utf8_char_width).sum = 4
    ∧ (encode_line ([97, 0x1F600, 98].take 2)).length = 5
    ∧ byte_to_display (encode_line [97, 0x1F600, 98])
          (encode_line ([97, 0x1F600, 98].take 2)).length
          (encode_line [97, 0x1F600, 98]).length
        = (([97, 0x1F600, 98].take 2).map utf8_char_width).sum
    ∧ (([97, 0x1F600, 98].take 2).map utf8_char_width).sum = 3 :=
  ⟨by decide, by decide,
    (C16_widths_of_encoded_line [97, 0x1F600, 98] (by decide)).1, by decide, by decide,
    (C16_widths_of_encoded_line [97, 0x1F600, 98] (by decide)).2 2 (by decide), by decide⟩


/-! ## Character boundaries of a line of encoded codepoints -/

/-- The first byte of an encoding is not a continuation byte; all its other bytes are. -/
theorem utf8_encode_bytes (c : Nat) (hc : c ≤ 0x10FFFF) :
    ¬ ((utf8_encode c).getD 0 0 &&& 0xC0 = 0x80)
    ∧ (∀ j, 1 ≤ j → j < (utf8_encode c).length → (utf8_encode c).getD j 0 &&& 0xC0 = 0x80) := by
  unfold utf8_encode
  by_cases h1 : c ≤ 0x7F
  · simp only [if_pos h1]
    constructor
    · show ¬ (c &&& 0xC0 = 0x80)
      rw [(byte_classes c (by omega)).2.2.2.2]
      omega
    · intro j hj1 hj2
      simp only [List.length_cons, List.length_nil] at hj2
      omega
  · by_cases h2 : c ≤ 0x7FF
    · simp only [if_neg h1, if_pos h2]
      constructor
      · exact (lead2_facts (c >>> 6) (shr6_lt c h2)).2.2.2
      · intro j hj1 hj2
        simp only [List.length_cons, List.length_nil] at hj2
        obtain rfl : j = 1 := by omega
        exact (cont_facts _ (and_63_lt c)).2
    · by_cases h3 : c ≤ 0xFFFF
      · simp only [if_neg h1, if_neg h2, if_pos h3]
        constructor
        · exact (lead3_facts (c >>> 12) (shr12_lt c h3)).2.2.2.2
        · intro j hj1 hj2
          simp only [List.length_cons, List.length_nil] at hj2
          rcases (by omega : j = 1 ∨ j = 2) with rfl | rfl
          · exact (cont_facts _ (and_63_lt _)).2
          · exact (cont_facts _ (and_63_lt c)).2
      · simp only [if_neg h1, if_neg h2, if_neg h3, if_pos hc]
        constructor
        · exact (lead4_facts (c >>> 18) (shr18_lt c hc)).2.2.2.2.2
        · intro j hj1 hj2
          simp only [List.length_cons, List.length_nil] at hj2
          rcases (by omega : j = 1 ∨ j = 2 ∨ j = 3) with rfl | rfl | rfl
          · exact (cont_facts _ (and_63_lt _)).2
          · exact (cont_facts _ (and_63_lt _)).2
          · exact (cont_facts _ (and_63_lt c)).2

/-- On the first byte of an encoding `utf8_char_bytes` gives the length of the encoding. -/
theorem utf8_char_bytes_encode (P R : List Nat) (c : Nat) (hc : c ≤ 0x10FFFF) :
    utf8_char_bytes (P ++ (utf8_encode c ++ R)) P.length
        (P.length + ((utf8_encode c).length + R.length))
      = (utf8_encode c).length := by
  have g0 := getD_append_right P (utf8_encode c ++ R) 0
  rw [Nat.add_zero] at g0
  have hpos := utf8_encode_length_pos c hc
  unfold utf8_char_bytes
  rw [if_neg (by omega)]
  simp only [g0]
  unfold utf8_encode
  by_cases h1 : c ≤ 0x7F
  · simp only [if_pos h1]
    have : c &&& 0x80 = 0 := (byte_classes c (by omega)).1.mpr (by omega)
    show (if c &&& 0x80 ≠ 0 then _ else 1) = 1
    rw [if_neg (by rw [this]; decide)]
  · by_cases h2 : c ≤ 0x7FF
    · simp only [if_neg h1, if_pos h2]
      obtain ⟨f1, f2, _⟩ := lead2_facts (c >>> 6) (shr6_lt c h2)
      show (if (0xC0 ||| (c >>> 6)) &&& 0x80 ≠ 0 then
          (if (0xC0 ||| (c >>> 6)) &&& 0xE0 = 0xC0 then 2
           else if (0xC0 ||| (c >>> 6)) &&& 0xF0 = 0xE0 then 3 else 4) else 1) = 2
      rw [if_pos f1, if_pos f2]
    · by_cases h3 : c ≤ 0xFFFF
      · simp only [if_neg h1, if_neg h2, if_pos h3]
        obtain ⟨f1, f2, f3, _⟩ := lead3_facts (c >>> 12) (shr12_lt c h3)
        show (if (0xE0 ||| (c >>> 12)) &&& 0x80 ≠ 0 then
            (if (0xE0 ||| (c >>> 12)) &&& 0xE0 = 0xC0 then 2
             else if (0xE0 ||| (c >>> 12)) &&& 0xF0 = 0xE0 then 3 else 4) else 1) = 3
        rw [if_pos f1, if_neg f2, if_pos f3]
      · simp only [if_neg h1, if_neg h2, if_neg h3, if_pos hc]
        obtain ⟨f1, f2, f3, _⟩ := lead4_facts (c >>> 18) (shr18_lt c hc)
        show (if (0xF0 ||| (c >>> 18)) &&& 0x80 ≠ 0 then
            (if (0xF0 ||| (c >>> 18)) &&& 0xE0 = 0xC0 then 2
             else if (0xF0 ||| (c >>> 18)) &&& 0xF0 = 0xE0 then 3 else 4) else 1) = 4
        rw [if_pos f1, if_neg f2, if_neg f3]

/-- The backward scan stops at the first byte that is not a continuation byte. -/
theorem scan_back_run (data : List Nat) (q : Nat) (hq : ¬ (data.getD q 0 &&& 0xC0 = 0x80)) :
    ∀ m, (∀ j, 1 ≤ j → j ≤ m → data.getD (q + j) 0 &&& 0xC0 = 0x80) →
      scan_back data (q + m) = q := by
  intro m
  induction m with
  | zero =>
    intro _
    cases q with
    | zero => rfl
    | succ q' =>
      show scan_back data (q' + 1) = q' + 1
      rw [scan_back, if_neg hq]
  | succ m ih =>
    intro h
    show scan_back data (q + m + 1) = q
    have hc : data.getD (q + m + 1) 0 &&& 0xC0 = 0x80 := h (m + 1) (by omega) (by omega)
    rw [scan_back, if_pos hc]
    exact ih (fun j h1 h2 => h j h1 (by omega))

theorem display_to_byte_loop_encoded (dp : Nat) :
    ∀ (fuel : Nat) (cs P data : List Nat) (len i cd : Nat),
      data = P ++ encode_line cs → len = data.length → i = P.length →
      (∀ c ∈ cs, c ≤ 0x10FFFF) → cd ≤ dp →
      ∃ j, j ≤ cs.length
        ∧ (display_to_byte_loop data dp len fuel i cd).1 = i + (encode_line (cs.take j)).length
        ∧ cd + ((cs.take j).map utf8_char_width).sum ≤ dp := by
  intro fuel
  induction fuel with
  | zero =>
    intro cs P data len i cd _ _ _ _ hcd
    exact ⟨0, Nat.zero_le _, by simp [display_to_byte_loop, encode_line_nil], by simpa using hcd⟩
  | succ f ih =>
    intro cs P data len i cd hdata hlen hi hv hcd
    by_cases hcond : i < len ∧ cd < dp
    · cases cs with
      | nil =>
        exfalso
        have : i = len := by rw [hlen, hdata, hi]; simp [encode_line_nil]
        omega
      | cons c cs =>
        have hc := hv c (List.mem_cons_self _ _)
        rw [display_to_byte_loop, if_pos hcond,
          decode_at_boundary P c cs data len i hdata hlen hi hc]
        by_cases hfit : cd + utf8_char_width c ≤ dp
        · simp only [if_pos hfit]
          obtain ⟨j, hj1, hj2, hj3⟩ := ih cs (P ++ utf8_encode c) data len
            (i + (utf8_encode c).length) (cd + utf8_char_width c)
            (by rw [hdata, encode_line_cons, List.append_assoc]) hlen
            (by rw [hi, List.length_append])
            (fun x hx => hv x (List.mem_cons_of_mem _ hx)) hfit
          refine ⟨j + 1, by simpa using hj1, ?_, ?_⟩
          · rw [hj2, List.take_succ_cons, encode_line_cons, List.length_append]
            omega
          · simp only [List.take_succ_cons, List.map_cons, List.sum_cons]
            omega
        · simp only [if_neg hfit]
          have hdone : ¬ (i < len ∧ cd + utf8_char_width c < dp) := by omega
          rw [display_to_byte_loop_done data dp len f i _ hdone]
          exact ⟨0, Nat.zero_le _, by simp [encode_line_nil], by simpa using hcd⟩
    · rw [display_to_byte_loop, if_neg hcond]
      exact ⟨0, Nat.zero_le _, by simp [encode_line_nil], by simpa using hcd⟩

theorem encode_line_take_drop (cs : List Nat) (j : Nat) :
    encode_line cs = encode_line (cs.take j) ++ encode_line (cs.drop j) := by
  rw [← encode_line_append, List.take_append_drop]

/-- The loop of `display_to_byte` has left its condition after `len + 1` iterations. -/
theorem display_to_byte_loop_exit (data : List Nat) (disp_pos len : Nat) :
    ∀ (fuel i cd : Nat), len + 1 ≤ fuel + i →
      ¬ ((display_to_byte_loop data disp_pos len fuel i cd).1 < len
          ∧ (display_to_byte_loop data disp_pos len fuel i cd).2 < disp_pos) := by
  intro fuel
  induction fuel with
  | zero =>
    intro i cd h
    simp only [display_to_byte_loop]
    omega
  | succ f ih =>
    intro i cd h
    by_cases hcond : i < len ∧ cd < disp_pos
    · rw [display_to_byte_loop, if_pos hcond]
      by_cases hfit : cd + utf8_char_width (utf8_to_codepoint data i len).1 ≤ disp_pos
      · simp only [if_pos hfit]
        have hb := (utf8_to_codepoint_bytes data i len).1
        exact ih _ _ (by omega)
      · simp only [if_neg hfit]
        rw [display_to_byte_loop_done data disp_pos len f i _ (by omega)]
        simp only
        omega
    · rw [display_to_byte_loop, if_neg hcond]
      exact hcond

theorem encode_line_split :
    ∀ (cs : List Nat) (j : Nat), j < cs.length →
      ∃ c, c ∈ cs
        ∧ encode_line (cs.take (j + 1)) = encode_line (cs.take j) ++ utf8_encode c
        ∧ encode_line cs
            = encode_line (cs.take j) ++ (utf8_encode c ++ encode_line (cs.drop (j + 1))) := by
  intro cs
  induction cs with
  | nil => intro j hj; simp at hj
  | cons x xs ih =>
    intro j hj
    cases j with
    | zero =>
      refine ⟨x, List.mem_cons_self _ _, ?_, ?_⟩
      · simp [encode_line_cons, encode_line_nil]
      · simp [encode_line_cons, encode_line_nil]
    | succ j =>
      obtain ⟨c, hc, h1, h2⟩ := ih j (by simpa using hj)
      refine ⟨c, List.mem_cons_of_mem _ hc, ?_, ?_⟩
      · rw [List.take_succ_cons, encode_line_cons, h1, List.take_succ_cons, encode_line_cons,
          List.append_assoc]
      · rw [encode_line_cons, List.take_succ_cons, encode_line_cons, List.drop_succ_cons,
          List.append_assoc, ← h2]

/-- The cursor offset `KEY_LEFT` leaves on a one-line buffer is the result of the backward
scan. -/
theorem key_left_cursor_x (line : List Nat) (p : Nat) (hp : 0 < p) (hle : p ≤ line.length) :
    (key_left (editor_of [line] p 0)).map (fun e => e.cursor_x)
      = some (scan_back line (p - 1)) := by
  have h1 : (editor_of [line] p 0).cursor_x = p := rfl
  have h2 : (editor_of [line] p 0).cursor_y = 0 := rfl
  have h3 : (editor_of [line] p 0).buffer.lines[0]?
      = some { data := line, capacity := line.length + 1, freed := false } := rfl
  unfold key_left
  rw [h1, h2, if_pos hp, h3]
  simp only
  rw [if_neg (by omega)]
  rfl

/-- C20: for every line that is the concatenation of the UTF-8 encodings of codepoints up
to U+10FFFF (every valid UTF-8 line is one), (a) for every column `d` the offset
`display_to_byte` returns is at most the length, is the length or the offset of a byte that
is not a continuation byte, and has a column of at most `d`; (b) for every `k` from 1 to
the number of characters, with `p` the offset just after the `k`-th character and `q` the
offset just after the `k - 1`-th, the backward scan entered at `p - 1` returns `q`,
`q < p`, the byte at `q` is not a continuation byte, `q` plus the sequence length
`utf8_char_bytes` reads at `q` is `p`, and `KEY_LEFT` with the cursor at `p` leaves it at
`q`. -/
theorem C20_utf8_boundary_safety (cs : List Nat) (hv : ∀ c ∈ cs, c ≤ 0x10FFFF) :
    (∀ d,
      display_to_byte (encode_line cs) d (encode_line cs).length ≤ (encode_line cs).length
      ∧ (display_to_byte (encode_line cs) d (encode_line cs).length = (encode_line cs).length
          ∨ ¬ ((encode_line cs).getD
                  (display_to_byte (encode_line cs) d (encode_line cs).length) 0 &&& 0xC0
                = 0x80))
      ∧ byte_to_display (encode_line cs)
            (display_to_byte (encode_line cs) d (encode_line cs).length)
            (encode_line cs).length ≤ d)
    ∧ (∀ k, 1 ≤ k → k ≤ cs.length →
      scan_back (encode_line cs) ((encode_line (cs.take k)).length - 1)
          = (encode_line (cs.take (k - 1))).length
      ∧ (encode_line (cs.take (k - 1))).length < (encode_line (cs.take k)).length
      ∧ ¬ ((encode_line cs).getD (encode_line (cs.take (k - 1))).length 0 &&& 0xC0 = 0x80)
      ∧ (encode_line (cs.take (k - 1))).length
          + utf8_char_bytes (encode_line cs) (encode_line (cs.take (k - 1))).length
              (encode_line cs).length
          = (encode_line (cs.take k)).length
      ∧ (key_left (editor_of [encode_line cs] (encode_line (cs.take k)).length 0)).map
            (fun e => e.cursor_x)
          = some (encode_line (cs.take (k - 1))).length) := by
  constructor
  · intro d
    obtain ⟨j, hj, hq, hsum⟩ := display_to_byte_loop_encoded d ((encode_line cs).length + 1)
      cs [] (encode_line cs) (encode_line cs).length 0 0 (by simp) rfl rfl hv (Nat.zero_le _)
    have hq2 : display_to_byte (encode_line cs) d (encode_line cs).length
        = (encode_line (cs.take j)).length := by
      unfold display_to_byte
      rw [hq, Nat.zero_add]
    rw [hq2]
    refine ⟨?_, ?_, ?_⟩
    · have h := congrArg List.length (encode_line_take_drop cs j)
      rw [List.length_append] at h
      omega
    · rcases Nat.lt_or_ge j cs.length with hlt | hge
      · right
        obtain ⟨c, hc, _, h2⟩ := encode_line_split cs j hlt
        have hpos := utf8_encode_length_pos c (hv c hc)
        have g : (encode_line cs).getD (encode_line (cs.take j)).length 0
            = (utf8_encode c ++ encode_line (cs.drop (j + 1))).getD 0 0 := by
          rw [h2]
          exact getD_append_right _ _ 0
        rw [g, List.getD_append _ _ _ _ (by omega)]
        exact (utf8_encode_bytes c (hv c hc)).1
      · left
        rw [List.take_of_length_le hge]
    · have h := byte_to_display_loop_encoded j cs [] (encode_line cs) (encode_line cs).length 0
        (encode_line cs).length 0 (by simp) rfl rfl hv
        (Nat.le_trans hj (length_le_encode_line cs hv))
      simp only [Nat.zero_add] at h
      unfold byte_to_display
      rw [h]
      simpa using hsum
  · intro k hk1 hk2
    obtain ⟨j, rfl⟩ : ∃ j, k = j + 1 := ⟨k - 1, by omega⟩
    obtain ⟨c, hc, h1, h2⟩ := encode_line_split cs j (by omega)
    have hcv := hv c hc
    have hpos := utf8_encode_length_pos c hcv
    have hb := utf8_encode_bytes c hcv
    have g0 : (encode_line cs).getD (encode_line (cs.take j)).length 0
        = (utf8_encode c).getD 0 0 := by
      rw [h2, ← List.getD_append (utf8_encode c) (encode_line (cs.drop (j + 1))) 0 0
        (by omega)]
      exact getD_append_right _ _ 0
    have hlead : ¬ ((encode_line cs).getD (encode_line (cs.take j)).length 0 &&& 0xC0 = 0x80) := by
      rw [g0]; exact hb.1
    have hlen : (encode_line (cs.take (j + 1))).length
        = (encode_line (cs.take j)).length + (utf8_encode c).length := by
      rw [h1, List.length_append]
    have hscan : scan_back (encode_line cs) ((encode_line (cs.take (j + 1))).length - 1)
        = (encode_line (cs.take j)).length := by
      have hidx : (encode_line (cs.take (j + 1))).length - 1
          = (encode_line (cs.take j)).length + ((utf8_encode c).length - 1) := by omega
      rw [hidx]
      apply scan_back_run _ _ hlead
      intro i hi1 hi2
      have g : (encode_line cs).getD ((encode_line (cs.take j)).length + i) 0
          = (utf8_encode c).getD i 0 := by
        rw [h2, ← List.getD_append (utf8_encode c) (encode_line (cs.drop (j + 1))) 0 i
          (by omega)]
        exact getD_append_right _ _ i
      rw [g]
      exact hb.2 i hi1 (by omega)
    have hline : (encode_line cs).length
        = (encode_line (cs.take j)).length
            + ((utf8_encode c).length + (encode_line (cs.drop (j + 1))).length) := by
      have h := congrArg List.length h2
      simpa only [List.length_append] using h
    simp only [Nat.add_sub_cancel]
    refine ⟨hscan, ?_, hlead, ?_, ?_⟩
    · show (encode_line (cs.take j)).length < _
      omega
    · show (encode_line (cs.take j)).length + _ = _
      have h : utf8_char_bytes (encode_line cs) (encode_line (cs.take j)).length
          (encode_line cs).length = (utf8_encode c).length := by
        rw [hline, h2]
        exact utf8_char_bytes_encode _ _ c hcv
      rw [h, hlen]
    · rw [key_left_cursor_x _ _ (by omega) (by omega), hscan]

/-- C20 at `a`, U+00E9, U+1F600: the line is `61 C3 A9 F0 9F 98 80`; column 2 maps to offset
3, the start of U+1F600, and column 3, inside the two-column U+1F600, maps to offset 3 as
well; from offset 7 the backward scan returns 3 and from offset 3 it returns 1. -/
theorem C20_utf8_boundary_safety_witness :
    (∀ c ∈ [97, 0xE9, 0x1F600], c ≤ 0x10FFFF)
    ∧ encode_line [97, 0xE9, 0x1F600] = [0x61, 0xC3, 0xA9, 0xF0, 0x9F, 0x98, 0x80]
    ∧ display_to_byte (encode_line [97, 0xE9, 0x1F600]) 3 7 = 3
    ∧ (display_to_byte (encode_line [97, 0xE9, 0x1F600]) 3
          (encode_line [97, 0xE9, 0x1F600]).length ≤ (encode_line [97, 0xE9, 0x1F600]).length
      ∧ (display_to_byte (encode_line [97, 0xE9, 0x1F600]) 3
            (encode_line [97, 0xE9, 0x1F600]).length = (encode_line [97, 0xE9, 0x1F600]).length
          ∨ ¬ ((encode_line [97, 0xE9, 0x1F600]).getD
                  (display_to_byte (encode_line [97, 0xE9, 0x1F600]) 3
                    (encode_line [97, 0xE9, 0x1F600]).length) 0 &&& 0xC0
                = 0x80))
      ∧ byte_to_display (encode_line [97, 0xE9, 0x1F600])
            (display_to_byte (encode_line [97, 0xE9, 0x1F600]) 3
              (encode_line [97, 0xE9, 0x1F600]).length)
            (encode_line [97, 0xE9, 0x1F600]).length ≤ 3)
    ∧ (encode_line ([97, 0xE9, 0x1F600].take 3)).length = 7
    ∧ (encode_line ([97, 0xE9, 0x1F600].take (3 - 1))).length = 3
    ∧ scan_back (encode_line [97, 0xE9, 0x1F600])
          ((encode_line ([97, 0xE9, 0x1F600].take 3)).length - 1)
        = (encode_line ([97, 0xE9, 0x1F600].take (3 - 1))).length
    ∧ scan_back (encode_line [97, 0xE9, 0x1F600])
          ((encode_line ([97, 0xE9, 0x1F600].take 2)).length - 1)
        = (encode_line ([97, 0xE9, 0x1F600].take (2 - 1))).length
    ∧ (encode_line ([97, 0xE9, 0x1F600].take (2 - 1))).length = 1 :=
  ⟨by decide, by decide, by decide,
    (C20_utf8_boundary_safety [97, 0xE9, 0x1F600] (by decide)).1 3, by decide, by decide,
    ((C20_utf8_boundary_safety [97, 0xE9, 0x1F600] (by decide)).2 3 (by decide) (by decide)).1,
    ((C20_utf8_boundary_safety [97, 0xE9, 0x1F600] (by decide)).2 2 (by decide) (by decide)).1,
    by decide⟩



/-! ## Claims C21 to C29 -/

/-- C27 (code defect): `utf8_char_width` returns 1 for every codepoint of the Thai block
U+0E00..U+0E7F, the combining marks U+0E31, U+0E34..U+0E3A, U+0E46 and U+0E47..U+0E4E
included: the test `0x00E00 <= cp <= 0x00E7F` that returns 1 stands before the branch that
lists the combining marks, which no codepoint reaches. -/
theorem C27_thai_combining_marks_have_width_one :
    utf8_char_width 0x0E31 = 1 ∧ utf8_char_width 0x0E34 = 1 ∧ utf8_char_width 0x0E3A = 1
    ∧ utf8_char_width 0x0E46 = 1 ∧ utf8_char_width 0x0E47 = 1 ∧ utf8_char_width 0x0E4E = 1
    ∧ (∀ cp, 0x0E00 ≤ cp ∧ cp ≤ 0x0E7F → utf8_char_width cp = 1) := by
  refine ⟨by decide, by decide, by decide, by decide, by decide, by decide, ?_⟩
  intro cp h
  unfold utf8_char_width
  repeat (first | rw [if_pos (by omega)] | rw [if_neg (by omega)])

/-- C25 (code defect): on the one-byte line `C2` (a lead byte without its continuation)
`utf8_char_bytes` gives 2 where `utf8_to_codepoint` reports the encoded length 1; the right
arrow then moves `cursor_x` to 2, past the length 1, and forward delete asks `memmove` to
move `len - cursor_x - bytes`, a negative count, and has no defined result.  On the line
`80 61 62 63` (a stray continuation byte, then `abc`) `utf8_char_bytes` gives 4 where the
decoder reports 1, and forward delete at offset 0 removes all four bytes. -/
theorem C25_stepping_disagrees_with_decoding :
    utf8_char_bytes [0xC2] 0 1 = 2
    ∧ (utf8_to_codepoint [0xC2] 0 1).2 = 1
    ∧ (key_right (editor_of [[0xC2]] 0 0)).map (fun st => st.cursor_x) = some 2
    ∧ delete_char (editor_of [[0xC2]] 0 0) = none
    ∧ utf8_char_bytes [0x80, 97, 98, 99] 0 4 = 4
    ∧ (utf8_to_codepoint [0x80, 97, 98, 99] 0 4).2 = 1
    ∧ (delete_char (editor_of [[0x80, 97, 98, 99]] 0 0)).map (fun st => st.buffer.contents)
        = some [[]] := by
  decide

/-- C29 (code defect): the line `abc` is loaded with `len = 3`, `capacity = 4`, and
`insert_char` grows the block only when `len >= capacity` holds before the entry.  The
entry of one byte in insert mode builds a line with `len = 4` and `capacity` still 4, and
so does replace mode with the cursor at the end of the line; the terminator is then stored
at `data[4]`, one byte past the allocated block, which is why `insert_char` has no defined
result in either state. -/
theorem C29_insert_fills_terminator_room :
    (load_file (startup [97, 98, 99] 24 80)).map
        (fun st => st.buffer.lines.map (fun l => (l.data.length, l.capacity)))
      = some [(3, 4)]
    ∧ (insert_char_store 88 1 0 { data := [97, 98, 99], capacity := 4, freed := false }).map
        (fun r => (r.1.data, r.1.data.length, r.1.capacity))
      = some ([88, 97, 98, 99], 4, 4)
    ∧ (load_file (startup [97, 98, 99] 24 80)).bind (insert_char 88) = none
    ∧ (insert_char_store 88 0 3 { data := [97, 98, 99], capacity := 4, freed := false }).map
        (fun r => (r.1.data, r.1.data.length, r.1.capacity))
      = some ([97, 98, 99, 88], 4, 4)
    ∧ insert_char 88 { editor_of [[97, 98, 99]] 3 0 with insert_mode := 0 } = none := by
  decide

/-- C23 (code defect): for the line holding only U+1F600 (two columns wide) with
`scroll_x = 0` and `cols = 1`, `update_line` selects the bytes `[0, 4)` of display width 2;
for a line of 79 letters followed by U+1F600 and `b` with `cols = 80` it selects `[0, 83)`
of display width 81.  The loop tests `disp_len < cols` before it adds the width of the next
character, so a wide character that starts in the last column is taken. -/
theorem C23_wide_character_overshoots_budget :
    update_line_range [0xF0, 0x9F, 0x98, 0x80] 0 1 = (0, 4, 2)
    ∧ update_line_range (List.replicate 79 97 ++ [0xF0, 0x9F, 0x98, 0x80, 98]) 0 80
        = (0, 83, 81)
    ∧ update_line 0 (editor_of [List.replicate 79 97 ++ [0xF0, 0x9F, 0x98, 0x80, 98]] 0 0)
        = some (0, 83, 81) := by
  decide

/-- C21 (code defect): with 22 lines on a 24-row terminal (22 text rows) and the cursor
visible on the last row, Enter moves the cursor to line 22 and leaves `scroll_y` at 0; with
a line of 80 letters on an 80-column terminal and the cursor on the last one, Delete leaves
79 letters with the cursor visible at their end, and typing a letter then moves the cursor
to column 80 and leaves `scroll_x` at 0; with the cursor in column 79 in front of U+1F600
(two columns wide), the right arrow moves it to column 81 and raises `scroll_x` to 1 only.
In all three states the cursor is not visible afterwards. -/
theorem C21_edit_leaves_cursor_off_screen :
    cursor_visible (editor_of (List.replicate 22 [97]) 0 21) = true
    ∧ (step KEY_ENTER (session_of (editor_of (List.replicate 22 [97]) 0 21))).map
          (fun s => (s.ed.cursor_y, s.ed.scroll_y, cursor_visible s.ed))
        = some (22, 0, false)
    ∧ (run [KEY_DELETE] (session_of (editor_of [List.replicate 80 97] 79 0))).map
          (fun s => (s.ed.buffer.contents, s.ed.cursor_x, s.ed.scroll_x, cursor_visible s.ed))
        = some ([List.replicate 79 97], 79, 0, true)
    ∧ (run [KEY_DELETE, 98] (session_of (editor_of [List.replicate 80 97] 79 0))).map
          (fun s => (s.ed.cursor_x, s.ed.scroll_x, cursor_visible s.ed))
        = some (80, 0, false)
    ∧ cursor_visible
          (editor_of [List.replicate 79 97 ++ [0xF0, 0x9F, 0x98, 0x80, 98]] 79 0) = true
    ∧ (step KEY_RIGHT (session_of
          (editor_of [List.replicate 79 97 ++ [0xF0, 0x9F, 0x98, 0x80, 98]] 79 0))).map
          (fun s => (s.ed.cursor_x, s.ed.scroll_x, cursor_visible s.ed))
        = some (83, 1, false) := by
  decide

/-! ## The scroll adjustment of `move_cursor_word` -/

theorem size_t_of_int_natCast (n : Nat) (h : n < 2 ^ 64) : size_t_of_int (n : Int) = n := by
  unfold size_t_of_int
  omega

theorem int_of_size_t_small (n : Nat) (h : n < 2 ^ 31) : int_of_size_t n = (n : Int) := by
  unfold int_of_size_t
  have h1 : n % 2 ^ 32 = n := Nat.mod_eq_of_lt (by omega)
  rw [h1, if_pos h]

/-- The adjustment on values that fit the types: `scroll_x` and `cols` non-negative with a
sum below 2^63, the column below 2^31. -/
theorem scroll_to_column_small (column sx w : Nat) (hw : 1 ≤ w) (hs : sx + w < 2 ^ 63)
    (hc : column < 2 ^ 31) :
    scroll_to_column column (sx : Int) (w : Int)
      = if column < sx then (column : Int)
        else if column ≥ sx + w then ((column - w + 1 : Nat) : Int)
        else (sx : Int) := by
  unfold scroll_to_column
  have e1 : size_t_of_int (sx : Int) = sx := size_t_of_int_natCast sx (by omega)
  have e2 : size_t_of_int ((sx : Int) + (w : Int)) = sx + w := by
    have := size_t_of_int_natCast (sx + w) (by omega)
    rwa [Nat.cast_add] at this
  have e3 : size_t_of_int (w : Int) = w := size_t_of_int_natCast w (by omega)
  rw [e1, e2, e3]
  by_cases h1 : column < sx
  · rw [if_pos h1, if_pos h1, int_of_size_t_small column hc]
  · rw [if_neg h1, if_neg h1]
    by_cases h2 : column ≥ sx + w
    · rw [if_pos h2, if_pos h2]
      have e4 : (column + 2 ^ 64 - w + 1) % 2 ^ 64 = column - w + 1 := by omega
      rw [e4, int_of_size_t_small _ (by omega)]
    · rw [if_neg h2, if_neg h2]

/-- C24 (as amended): for every column, every `scroll_x >= 0` and every `cols >= 1` such that
`scroll_x + cols` and `column + 1` are below 2^31 (so that no `int` of the computation leaves
its range), the scroll adjustment at the end of `move_cursor_word` yields a `scroll_x` with
`0 <= scroll_x <= column < scroll_x + cols`, and applying it again to the result leaves
`scroll_x` unchanged. -/
theorem C24_scroll_to_column_within_int_range (column : Nat) (scroll_x cols : Int)
    (h0 : 0 ≤ scroll_x) (h1 : 1 ≤ cols) (h2 : scroll_x + cols < 2 ^ 31)
    (h3 : (column : Int) + 1 < 2 ^ 31) :
    0 ≤ scroll_to_column column scroll_x cols
    ∧ scroll_to_column column scroll_x cols ≤ (column : Int)
    ∧ (column : Int) < scroll_to_column column scroll_x cols + cols
    ∧ scroll_to_column column (scroll_to_column column scroll_x cols) cols
        = scroll_to_column column scroll_x cols := by
  obtain ⟨sx, rfl⟩ := Int.eq_ofNat_of_zero_le h0
  obtain ⟨w, rfl⟩ := Int.eq_ofNat_of_zero_le (by omega : 0 ≤ cols)
  have hw : 1 ≤ w := by omega
  have hc : column < 2 ^ 31 := by omega
  have hs : sx + w < 2 ^ 63 := by omega
  rw [scroll_to_column_small column sx w hw hs hc]
  by_cases c1 : column < sx
  · simp only [if_pos c1]
    rw [scroll_to_column_small column column w hw (by omega) hc]
    have n1 : ¬ column < column := by omega
    have n2 : ¬ column ≥ column + w := by omega
    rw [if_neg n1, if_neg n2]
    omega
  · simp only [if_neg c1]
    by_cases c2 : column ≥ sx + w
    · simp only [if_pos c2]
      rw [scroll_to_column_small column (column - w + 1) w hw (by omega) hc]
      have n1 : ¬ column < column - w + 1 := by omega
      have n2 : ¬ column ≥ column - w + 1 + w := by omega
      rw [if_neg n1, if_neg n2]
      omega
    · simp only [if_neg c2]
      rw [scroll_to_column_small column sx w hw hs hc, if_neg c1, if_neg c2]
      omega

/-- C24 (as amended) at column 100, `scroll_x = 0`, `cols = 80`: the adjustment gives
`scroll_x = 21`, and column 100 is the last visible column. -/
theorem C24_scroll_to_column_within_int_range_witness :
    scroll_to_column 100 0 80 = 21
    ∧ (0 ≤ scroll_to_column 100 0 80
      ∧ scroll_to_column 100 0 80 ≤ ((100 : Nat) : Int)
      ∧ ((100 : Nat) : Int) < scroll_to_column 100 0 80 + 80
      ∧ scroll_to_column 100 (scroll_to_column 100 0 80) 80 = scroll_to_column 100 0 80) :=
  ⟨by decide,
    C24_scroll_to_column_within_int_range 100 0 80 (by decide) (by decide) (by decide)
      (by decide)⟩

/-- C24 as stated fails: at the column 2^31 + 100 with `scroll_x = 0` and `cols = 80` the
value `disp_x - cols + 1` is 2147483669, which an `int` cannot hold; stored into `scroll_x`
it becomes -2147483627, for which `column < scroll_x + cols` does not hold, and a second
application gives another value, -2147483548. -/
theorem C24_column_beyond_int_range :
    scroll_to_column (2 ^ 31 + 100) 0 80 = -2147483627
    ∧ ¬ (((2 ^ 31 + 100 : Nat) : Int) < scroll_to_column (2 ^ 31 + 100) 0 80 + 80)
    ∧ scroll_to_column (2 ^ 31 + 100) (scroll_to_column (2 ^ 31 + 100) 0 80) 80 = -2147483548
    ∧ scroll_to_column (2 ^ 31 + 100) (scroll_to_column (2 ^ 31 + 100) 0 80) 80
        ≠ scroll_to_column (2 ^ 31 + 100) 0 80 := by
  decide



/-! ## Word movement on a line of encoded codepoints -/

set_option maxRecDepth 100000 in
theorem high_bytes :
    (∀ a, a < 32 → 0x80 ≤ (0xC0 ||| a)) ∧ (∀ a, a < 16 → 0x80 ≤ (0xE0 ||| a))
    ∧ (∀ a, a < 8 → 0x80 ≤ (0xF0 ||| a)) ∧ (∀ d, d < 64 → 0x80 ≤ (0x80 ||| d)) := by
  decide

theorem isspace_high (b : Nat) (h : 0x80 ≤ b) : isspace b = false := by
  unfold isspace
  rw [decide_eq_false_iff_not]
  omega

theorem isspace_lt (b : Nat) (h : isspace b = true) : b < 0x80 := by
  unfold isspace at h
  rw [decide_eq_true_eq] at h
  omega

/-- Every byte of the encoding of a codepoint beyond U+007F is at least `0x80`. -/
theorem utf8_encode_high (c : Nat) (hc : c ≤ 0x10FFFF) (h1 : ¬ c ≤ 0x7F) :
    ∀ b ∈ utf8_encode c, 0x80 ≤ b := by
  unfold utf8_encode
  rw [if_neg h1]
  obtain ⟨f2, f3, f4, fc⟩ := high_bytes
  by_cases h2 : c ≤ 0x7FF
  · rw [if_pos h2]
    intro b hb
    simp only [List.mem_cons, List.mem_singleton, List.not_mem_nil, or_false] at hb
    rcases hb with rfl | rfl
    · exact f2 _ (shr6_lt c h2)
    · exact fc _ (and_63_lt c)
  · rw [if_neg h2]
    by_cases h3 : c ≤ 0xFFFF
    · rw [if_pos h3]
      intro b hb
      simp only [List.mem_cons, List.mem_singleton, List.not_mem_nil, or_false] at hb
      rcases hb with rfl | rfl | rfl
      · exact f3 _ (shr12_lt c h3)
      · exact fc _ (and_63_lt _)
      · exact fc _ (and_63_lt c)
    · rw [if_neg h3, if_pos hc]
      intro b hb
      simp only [List.mem_cons, List.mem_singleton, List.not_mem_nil, or_false] at hb
      rcases hb with rfl | rfl | rfl | rfl
      · exact f4 _ (shr18_lt c hc)
      · exact fc _ (and_63_lt _)
      · exact fc _ (and_63_lt _)
      · exact fc _ (and_63_lt c)

theorem utf8_encode_ascii (c : Nat) (h : c ≤ 0x7F) : utf8_encode c = [c] := by
  unfold utf8_encode
  rw [if_pos h]

/-- Every byte of the encoding of a codepoint is whitespace exactly when the codepoint is. -/
theorem isspace_encode_bytes (c : Nat) (hc : c ≤ 0x10FFFF) :
    ∀ b ∈ utf8_encode c, isspace b = isspace c := by
  intro b hb
  by_cases h1 : c ≤ 0x7F
  · rw [utf8_encode_ascii c h1, List.mem_singleton] at hb
    rw [hb]
  · rw [isspace_high b (utf8_encode_high c hc h1 b hb), isspace_high c (by omega)]

theorem isspace_encode_line (space : Bool) :
    ∀ cs : List Nat, (∀ c ∈ cs, c ≤ 0x10FFFF) → (∀ c ∈ cs, isspace c = space) →
      ∀ b ∈ encode_line cs, isspace b = space := by
  intro cs
  induction cs with
  | nil => intro _ _ b hb; simp [encode_line_nil] at hb
  | cons c cs ih =>
    intro hv hs b hb
    rw [encode_line_cons, List.mem_append] at hb
    rcases hb with hb | hb
    · rw [isspace_encode_bytes c (hv c (List.mem_cons_self _ _)) b hb]
      exact hs c (List.mem_cons_self _ _)
    · exact ih (fun x hx => hv x (List.mem_cons_of_mem _ hx))
        (fun x hx => hs x (List.mem_cons_of_mem _ hx)) b hb

theorem getD_mem (E : List Nat) (i : Nat) (h : i < E.length) : E.getD i 0 ∈ E := by
  rw [List.getD_eq_getElem _ _ h]
  exact List.getElem_mem h

/-- The bytes of a segment `E` of a line are those the line shows at the offsets of `E`. -/
theorem getD_segment (P E R : List Nat) (i : Nat) (h1 : P.length ≤ i)
    (h2 : i < P.length + E.length) :
    (P ++ (E ++ R)).getD i 0 = E.getD (i - P.length) 0 := by
  have h := getD_append_right P (E ++ R) (i - P.length)
  rw [Nat.add_sub_cancel' h1] at h
  rw [h, List.getD_append _ _ _ _ (by omega)]

theorem skip_fwd_stuck (space : Bool) (data : List Nat) (len fuel x : Nat)
    (h : ¬ (x < len ∧ isspace (data.getD x 0) = space)) :
    skip_fwd space data len fuel x = x := by
  cases fuel with
  | zero => rfl
  | succ f => rw [skip_fwd, if_neg h]

theorem utf8_char_bytes_pos (data : List Nat) (pos len : Nat) :
    1 ≤ utf8_char_bytes data pos len := by
  unfold utf8_char_bytes
  by_cases h : pos ≥ len
  · rw [if_pos h]
  · rw [if_neg h]
    show 1 ≤ (if data.getD pos 0 &&& 0x80 ≠ 0 then
        (if data.getD pos 0 &&& 0xE0 = 0xC0 then 2
         else if data.getD pos 0 &&& 0xF0 = 0xE0 then 3 else 4) else 1)
    split_ifs <;> decide

/-- The forward loops have left their condition after `len` iterations, and never move the
offset backwards. -/
theorem skip_fwd_exit (space : Bool) (data : List Nat) (len : Nat) :
    ∀ (fuel x : Nat), len ≤ fuel + x →
      x ≤ skip_fwd space data len fuel x
      ∧ ¬ (skip_fwd space data len fuel x < len
            ∧ isspace (data.getD (skip_fwd space data len fuel x) 0) = space) := by
  intro fuel
  induction fuel with
  | zero =>
    intro x h
    simp only [skip_fwd]
    exact ⟨Nat.le_refl _, by omega⟩
  | succ f ih =>
    intro x h
    by_cases hc : x < len ∧ isspace (data.getD x 0) = space
    · rw [skip_fwd, if_pos hc]
      have hb := utf8_char_bytes_pos data x len
      have := ih (x + utf8_char_bytes data x len) (by omega)
      exact ⟨by omega, this.2⟩
    · rw [skip_fwd, if_neg hc]
      exact ⟨Nat.le_refl _, hc⟩

theorem char_bytes_at_boundary (P : List Nat) (c : Nat) (cs : List Nat) (data : List Nat)
    (len i : Nat) (hdata : data = P ++ encode_line (c :: cs)) (hlen : len = data.length)
    (hi : i = P.length) (hc : c ≤ 0x10FFFF) :
    utf8_char_bytes data i len = (utf8_encode c).length
    ∧ data.getD i 0 = (utf8_encode c).getD 0 0 := by
  subst hi
  have hpos := utf8_encode_length_pos c hc
  constructor
  · rw [hlen, hdata, encode_line_cons, List.length_append, List.length_append]
    exact utf8_char_bytes_encode P (encode_line cs) c hc
  · rw [hdata, encode_line_cons, getD_segment P (utf8_encode c) (encode_line cs) P.length
      (Nat.le_refl _) (by omega), Nat.sub_self]

/-- A forward loop started at a character boundary of a line of encoded codepoints stops at
a character boundary, having passed only codepoints of the class it skips. -/
theorem skip_fwd_encoded (space : Bool) :
    ∀ (cs P data : List Nat) (len i fuel : Nat),
      data = P ++ encode_line cs → len = data.length → i = P.length →
      (∀ c ∈ cs, c ≤ 0x10FFFF) → cs.length ≤ fuel →
      ∃ j, j ≤ cs.length
        ∧ skip_fwd space data len fuel i = i + (encode_line (cs.take j)).length
        ∧ (∀ c ∈ cs.take j, isspace c = space) := by
  intro cs
  induction cs with
  | nil =>
    intro P data len i fuel hdata hlen hi _ _
    have hn : ¬ (i < len ∧ isspace (data.getD i 0) = space) := by
      have : i = len := by rw [hlen, hdata, hi]; simp [encode_line_nil]
      omega
    exact ⟨0, Nat.le_refl _, by rw [skip_fwd_stuck space data len fuel i hn]; simp [encode_line_nil],
      by simp⟩
  | cons c cs ih =>
    intro P data len i fuel hdata hlen hi hv hfuel
    obtain ⟨f, rfl⟩ : ∃ f, fuel = f + 1 := ⟨fuel - 1, by simp at hfuel; omega⟩
    have hc := hv c (List.mem_cons_self _ _)
    have hpos := utf8_encode_length_pos c hc
    obtain ⟨hbytes, hbyte⟩ := char_bytes_at_boundary P c cs data len i hdata hlen hi hc
    have hsp : isspace (data.getD i 0) = isspace c := by
      rw [hbyte]
      exact isspace_encode_bytes c hc _ (getD_mem _ 0 (by omega))
    have hil : i < len := by
      rw [hlen, hdata, hi, encode_line_cons]
      simp only [List.length_append]
      omega
    by_cases hs : isspace c = space
    · rw [skip_fwd, if_pos ⟨hil, by rw [hsp]; exact hs⟩, hbytes]
      obtain ⟨j, hj1, hj2, hj3⟩ := ih (P ++ utf8_encode c) data len
        (i + (utf8_encode c).length) f
        (by rw [hdata, encode_line_cons, List.append_assoc]) hlen
        (by rw [hi, List.length_append])
        (fun x hx => hv x (List.mem_cons_of_mem _ hx)) (by simp at hfuel; omega)
      refine ⟨j + 1, by simpa using hj1, ?_, ?_⟩
      · rw [hj2, List.take_succ_cons, encode_line_cons, List.length_append]
        omega
      · intro x hx
        rw [List.take_succ_cons, List.mem_cons] at hx
        rcases hx with rfl | hx
        · exact hs
        · exact hj3 x hx
    · have hn : ¬ (i < len ∧ isspace (data.getD i 0) = space) := by
        rw [hsp]; exact fun h => hs h.2
      exact ⟨0, Nat.zero_le _, by rw [skip_fwd_stuck space data len _ i hn]; simp [encode_line_nil],
        by simp⟩

/-- The backward loops stop at an offset not beyond the start, having passed only bytes of
the class they skip, and stop at 0 or after a byte of the other class. -/
theorem skip_back_spec (space : Bool) (data : List Nat) :
    ∀ x, skip_back space data x ≤ x
      ∧ (∀ i, skip_back space data x ≤ i → i < x → isspace (data.getD i 0) = space)
      ∧ (skip_back space data x = 0
          ∨ ¬ (isspace (data.getD (skip_back space data x - 1) 0) = space)) := by
  intro x
  induction x with
  | zero =>
    refine ⟨Nat.le_refl _, fun i _ h => absurd h (Nat.not_lt_zero _), Or.inl rfl⟩
  | succ x ih =>
    by_cases h : isspace (data.getD x 0) = space
    · rw [skip_back, if_pos h]
      refine ⟨by omega, ?_, ih.2.2⟩
      intro i h1 h2
      rcases Nat.lt_or_ge i x with hlt | hge
      · exact ih.2.1 i h1 hlt
      · have : i = x := by omega
        rw [this]; exact h
    · rw [skip_back, if_neg h]
      refine ⟨Nat.le_refl _, fun i h1 h2 => by omega, Or.inr ?_⟩
      simpa using h

/-- In a line of encoded codepoints, an offset that follows a byte below `0x80` is a
character boundary. -/
theorem boundary_after_ascii :
    ∀ cs : List Nat, (∀ c ∈ cs, c ≤ 0x10FFFF) →
      ∀ y, 0 < y → y ≤ (encode_line cs).length →
        (encode_line cs).getD (y - 1) 0 < 0x80 → char_boundary cs y := by
  intro cs
  induction cs with
  | nil =>
    intro _ y h1 h2 _
    simp [encode_line_nil] at h2
    omega
  | cons c cs ih =>
    intro hv y h1 h2 h3
    have hc := hv c (List.mem_cons_self _ _)
    have hpos := utf8_encode_length_pos c hc
    rw [encode_line_cons] at h2 h3
    rw [List.length_append] at h2
    rcases Nat.lt_or_ge (utf8_encode c).length y with hgt | hle
    · -- the byte lies in the rest of the line
      have hidx : y - 1 = (utf8_encode c).length + (y - (utf8_encode c).length - 1) := by omega
      rw [hidx, getD_append_right] at h3
      obtain ⟨j, hj1, hj2⟩ := ih (fun x hx => hv x (List.mem_cons_of_mem _ hx))
        (y - (utf8_encode c).length) (by omega) (by omega) h3
      refine ⟨j + 1, by simpa using hj1, ?_⟩
      rw [List.take_succ_cons, encode_line_cons, List.length_append, ← hj2]
      omega
    · -- the byte lies in the encoding of `c`
      rw [List.getD_append _ _ _ _ (by omega)] at h3
      have hmem := getD_mem (utf8_encode c) (y - 1) (by omega)
      by_cases hasc : c ≤ 0x7F
      · have hE := utf8_encode_ascii c hasc
        refine ⟨1, by simp, ?_⟩
        rw [List.take_succ_cons, List.take_zero, encode_line_cons, encode_line_nil,
          List.append_nil]
        rw [hE] at hle ⊢
        simp only [List.length_singleton] at hle ⊢
        omega
      · have := utf8_encode_high c hc hasc _ hmem
        omega



theorem word_target_fwd (line : List Nat) (x : Nat) :
    word_target line 1 x
      = skip_fwd true line line.length line.length
          (skip_fwd false line line.length line.length x) := by
  unfold word_target
  rw [if_neg (by decide)]

theorem word_target_back (line : List Nat) (x : Nat) :
    word_target line (-1) x = skip_back false line (skip_back true line x) := by
  unfold word_target
  rw [if_pos (by decide)]

/-- The cursor offset `move_cursor_word` leaves on a one-line buffer is `word_target`. -/
theorem move_cursor_word_cursor_x (line : List Nat) (d : Int) (x : Nat)
    (hx : x ≤ line.length) :
    (move_cursor_word d (editor_of [line] x 0)).map (fun e => e.cursor_x)
      = some (word_target line d x) := by
  have h1 : (editor_of [line] x 0).cursor_x = x := rfl
  have h2 : (editor_of [line] x 0).cursor_y = 0 := rfl
  have h3 : (editor_of [line] x 0).buffer.lines[0]?
      = some { data := line, capacity := line.length + 1, freed := false } := rfl
  unfold move_cursor_word
  rw [h1, h2, h3]
  simp only
  rw [if_neg (by omega)]
  rfl

/-- The two forward loops of `move_cursor_word` on a line of encoded codepoints, started at
the boundary behind `pre`. -/
theorem word_fwd_encoded (pre post line : List Nat) (x : Nat)
    (hv : ∀ c ∈ pre ++ post, c ≤ 0x10FFFF)
    (hline : line = encode_line (pre ++ post)) (hx : x = (encode_line pre).length) :
    x ≤ skip_fwd false line line.length line.length x
    ∧ skip_fwd false line line.length line.length x ≤ word_target line 1 x
    ∧ word_target line 1 x ≤ line.length
    ∧ (∀ i, x ≤ i → i < skip_fwd false line line.length line.length x →
        isspace (line.getD i 0) = false)
    ∧ (∀ i, skip_fwd false line line.length line.length x ≤ i → i < word_target line 1 x →
        isspace (line.getD i 0) = true)
    ∧ (word_target line 1 x = line.length
        ∨ (isspace (line.getD (word_target line 1 x) 0) = false
            ∧ skip_fwd false line line.length line.length x < word_target line 1 x))
    ∧ char_boundary (pre ++ post) (word_target line 1 x) := by
  have hvpost : ∀ c ∈ post, c ≤ 0x10FFFF := fun c hc => hv c (List.mem_append_right _ hc)
  have hdata : line = encode_line pre ++ encode_line post := by
    rw [hline, encode_line_append]
  have hlen0 := length_le_encode_line (pre ++ post) hv
  rw [← hline, List.length_append] at hlen0
  -- first loop
  obtain ⟨j1, hj1, hz, hall1⟩ := skip_fwd_encoded false post (encode_line pre) line
    line.length x line.length hdata rfl hx hvpost (by omega)
  have hex1 := skip_fwd_exit false line line.length line.length x (by omega)
  -- second loop
  have hdata2 : line = (encode_line pre ++ encode_line (post.take j1))
      ++ encode_line (post.drop j1) := by
    rw [hdata, List.append_assoc, ← encode_line_take_drop]
  have hvdrop : ∀ c ∈ post.drop j1, c ≤ 0x10FFFF :=
    fun c hc => hvpost c (List.mem_of_mem_drop hc)
  obtain ⟨j2, hj2, hy, hall2⟩ := skip_fwd_encoded true (post.drop j1)
    (encode_line pre ++ encode_line (post.take j1)) line line.length
    (skip_fwd false line line.length line.length x) line.length hdata2 rfl
    (by rw [hz, hx, List.length_append]) hvdrop
    (by rw [List.length_drop]; omega)
  have hex2 := skip_fwd_exit true line line.length line.length
    (skip_fwd false line line.length line.length x) (by omega)
  rw [← word_target_fwd] at hy hex2
  -- lengths
  have hsplit2 := encode_line_take_drop (post.drop j1) j2
  have hL : line.length = (encode_line pre).length + (encode_line (post.take j1)).length
      + ((encode_line ((post.drop j1).take j2)).length
          + (encode_line ((post.drop j1).drop j2)).length) := by
    have h := congrArg List.length hdata2
    rw [hsplit2] at h
    simpa only [List.length_append] using h
  have hdata3 : line = encode_line pre
      ++ (encode_line (post.take j1) ++ encode_line (post.drop j1)) := by
    rw [hdata2, List.append_assoc]
  have hdata4 : line = (encode_line pre ++ encode_line (post.take j1))
      ++ (encode_line ((post.drop j1).take j2) ++ encode_line ((post.drop j1).drop j2)) := by
    rw [← hsplit2]; exact hdata2
  refine ⟨hex1.1, hex2.1, by omega, ?_, ?_, ?_, ?_⟩
  · intro i h1 h2
    have hb := isspace_encode_line false (post.take j1)
      (fun c hc => hvpost c (List.mem_of_mem_take hc)) hall1
    have hg : line.getD i 0 = (encode_line (post.take j1)).getD (i - (encode_line pre).length) 0 := by
      rw [hdata3]
      exact getD_segment _ _ _ i (by omega) (by omega)
    rw [hg]
    exact hb _ (getD_mem _ _ (by omega))
  · intro i h1 h2
    have hb := isspace_encode_line true ((post.drop j1).take j2)
      (fun c hc => hvdrop c (List.mem_of_mem_take hc)) hall2
    have hg : line.getD i 0 = (encode_line ((post.drop j1).take j2)).getD
        (i - (encode_line pre ++ encode_line (post.take j1)).length) 0 := by
      rw [hdata4]
      exact getD_segment _ _ _ i (by rw [List.length_append]; omega)
        (by rw [List.length_append]; omega)
    rw [hg]
    exact hb _ (getD_mem _ _ (by rw [List.length_append]; omega))
  · rcases Nat.lt_or_ge (word_target line 1 x) line.length with hlt | hge
    · right
      have hns : isspace (line.getD (word_target line 1 x) 0) = false := by
        cases hb : isspace (line.getD (word_target line 1 x) 0) with
        | false => rfl
        | true => exact absurd ⟨hlt, hb⟩ hex2.2
      refine ⟨hns, ?_⟩
      rcases Nat.lt_or_ge (skip_fwd false line line.length line.length x)
        (word_target line 1 x) with h | h
      · exact h
      · exfalso
        have heq : skip_fwd false line line.length line.length x = word_target line 1 x := by
          have := hex2.1
          omega
        apply hex1.2
        rw [heq]
        exact ⟨hlt, hns⟩
    · left
      omega
  · refine ⟨pre.length + (j1 + j2), ?_, ?_⟩
    · rw [List.length_append]
      rw [List.length_drop] at hj2
      omega
    · rw [List.take_append, List.take_add, encode_line_append, encode_line_append,
        List.length_append, List.length_append, hy, hz, hx]
      omega

/-- The two backward loops of `move_cursor_word` on a line of encoded codepoints, started
at an offset inside the line. -/
theorem word_back_encoded (cs line : List Nat) (x : Nat)
    (hv : ∀ c ∈ cs, c ≤ 0x10FFFF)
    (hline : line = encode_line cs) (hx : x ≤ line.length) :
    word_target line (-1) x ≤ skip_back true line x
    ∧ skip_back true line x ≤ x
    ∧ (∀ i, skip_back true line x ≤ i → i < x → isspace (line.getD i 0) = true)
    ∧ (∀ i, word_target line (-1) x ≤ i → i < skip_back true line x →
        isspace (line.getD i 0) = false)
    ∧ (word_target line (-1) x = 0
        ∨ isspace (line.getD (word_target line (-1) x - 1) 0) = true)
    ∧ char_boundary cs (word_target line (-1) x) := by
  obtain ⟨a1, a2, _⟩ := skip_back_spec true line x
  obtain ⟨b1, b2, b3⟩ := skip_back_spec false line (skip_back true line x)
  rw [← word_target_back] at b1 b2 b3
  have hend : word_target line (-1) x = 0
      ∨ isspace (line.getD (word_target line (-1) x - 1) 0) = true := by
    rcases b3 with h | h
    · exact Or.inl h
    · right
      cases hb : isspace (line.getD (word_target line (-1) x - 1) 0) with
      | false => exact absurd hb h
      | true => rfl
  refine ⟨b1, a1, a2, b2, hend, ?_⟩
  rcases hend with h | h
  · exact ⟨0, Nat.zero_le _, by rw [h]; simp [encode_line_nil]⟩
  · rcases Nat.eq_zero_or_pos (word_target line (-1) x) with h0 | hpos
    · exact ⟨0, Nat.zero_le _, by rw [h0]; simp [encode_line_nil]⟩
    · apply boundary_after_ascii cs hv _ hpos
      · rw [← hline]; omega
      · rw [← hline]; exact isspace_lt _ h


/-- C26: for every line that encodes the codepoints `pre ++ post` (each up to U+10FFFF) and
the cursor offset `x` at the character boundary behind `pre`:
`move_cursor_word(+1)` leaves the cursor at `y = word_target line 1 x`, where, with `z` the
offset at which the first loop stops, `x <= z <= y <= len`, every byte in `[x, z)` is not
whitespace, every byte in `[z, y)` is whitespace, `y` is the line length or holds a
non-whitespace byte with `z < y`, and `y` is a character boundary;
`move_cursor_word(-1)` leaves the cursor at `y = word_target line (-1) x`, where, with `z`
the offset at which the first loop stops, `y <= z <= x`, every byte in `[z, x)` is
whitespace, every byte in `[y, z)` is not, `y = 0` or the byte at `y - 1` is whitespace, and
`y` is a character boundary. -/
theorem C26_word_movement (pre post line : List Nat) (x : Nat)
    (hv : ∀ c ∈ pre ++ post, c ≤ 0x10FFFF)
    (hline : line = encode_line (pre ++ post)) (hx : x = (encode_line pre).length) :
    ((move_cursor_word 1 (editor_of [line] x 0)).map (fun e => e.cursor_x)
        = some (word_target line 1 x)
      ∧ x ≤ skip_fwd false line line.length line.length x
      ∧ skip_fwd false line line.length line.length x ≤ word_target line 1 x
      ∧ word_target line 1 x ≤ line.length
      ∧ (∀ i, x ≤ i → i < skip_fwd false line line.length line.length x →
          isspace (line.getD i 0) = false)
      ∧ (∀ i, skip_fwd false line line.length line.length x ≤ i → i < word_target line 1 x →
          isspace (line.getD i 0) = true)
      ∧ (word_target line 1 x = line.length
          ∨ (isspace (line.getD (word_target line 1 x) 0) = false
              ∧ skip_fwd false line line.length line.length x < word_target line 1 x))
      ∧ char_boundary (pre ++ post) (word_target line 1 x))
    ∧ ((move_cursor_word (-1) (editor_of [line] x 0)).map (fun e => e.cursor_x)
        = some (word_target line (-1) x)
      ∧ word_target line (-1) x ≤ skip_back true line x
      ∧ skip_back true line x ≤ x
      ∧ (∀ i, skip_back true line x ≤ i → i < x → isspace (line.getD i 0) = true)
      ∧ (∀ i, word_target line (-1) x ≤ i → i < skip_back true line x →
          isspace (line.getD i 0) = false)
      ∧ (word_target line (-1) x = 0
          ∨ isspace (line.getD (word_target line (-1) x - 1) 0) = true)
      ∧ char_boundary (pre ++ post) (word_target line (-1) x)) := by
  have hxl : x ≤ line.length := by
    rw [hx, hline, encode_line_append, List.length_append]
    omega
  exact ⟨⟨move_cursor_word_cursor_x line 1 x hxl, word_fwd_encoded pre post line x hv hline hx⟩,
    ⟨move_cursor_word_cursor_x line (-1) x hxl,
      word_back_encoded (pre ++ post) line x hv hline hxl⟩⟩

/-- C26 at the line `a`, U+00E9, two spaces, `cd`, space, `e` (bytes
`61 C3 A9 20 20 63 64 20 65`) with the cursor at offset 7, behind `cd`: the forward move ends
at offset 8, on `e`, and the backward move at offset 5, on `c`. -/
theorem C26_word_movement_witness :
    (∀ c ∈ [97, 0xE9, 32, 32, 99, 100] ++ [32, 101], c ≤ 0x10FFFF)
    ∧ [0x61, 0xC3, 0xA9, 0x20, 0x20, 0x63, 0x64, 0x20, 0x65]
        = encode_line ([97, 0xE9, 32, 32, 99, 100] ++ [32, 101])
    ∧ 7 = (encode_line [97, 0xE9, 32, 32, 99, 100]).length
    ∧ word_target [0x61, 0xC3, 0xA9, 0x20, 0x20, 0x63, 0x64, 0x20, 0x65] 1 7 = 8
    ∧ word_target [0x61, 0xC3, 0xA9, 0x20, 0x20, 0x63, 0x64, 0x20, 0x65] (-1) 7 = 5
    ∧ (move_cursor_word 1
          (editor_of [[0x61, 0xC3, 0xA9, 0x20, 0x20, 0x63, 0x64, 0x20, 0x65]] 7 0)).map
          (fun e => e.cursor_x)
        = some (word_target [0x61, 0xC3, 0xA9, 0x20, 0x20, 0x63, 0x64, 0x20, 0x65] 1 7)
    ∧ char_boundary ([97, 0xE9, 32, 32, 99, 100] ++ [32, 101])
        (word_target [0x61, 0xC3, 0xA9, 0x20, 0x20, 0x63, 0x64, 0x20, 0x65] 1 7)
    ∧ char_boundary ([97, 0xE9, 32, 32, 99, 100] ++ [32, 101])
        (word_target [0x61, 0xC3, 0xA9, 0x20, 0x20, 0x63, 0x64, 0x20, 0x65] (-1) 7) :=
  ⟨by decide, by decide, by decide, by decide, by decide,
    (C26_word_movement [97, 0xE9, 32, 32, 99, 100] [32, 101]
      [0x61, 0xC3, 0xA9, 0x20, 0x20, 0x63, 0x64, 0x20, 0x65] 7
      (by decide) (by decide) (by decide)).1.1,
    (C26_word_movement [97, 0xE9, 32, 32, 99, 100] [32, 101]
      [0x61, 0xC3, 0xA9, 0x20, 0x20, 0x63, 0x64, 0x20, 0x65] 7
      (by decide) (by decide) (by decide)).1.2.2.2.2.2.2.2,
    (C26_word_movement [97, 0xE9, 32, 32, 99, 100] [32, 101]
      [0x61, 0xC3, 0xA9, 0x20, 0x20, 0x63, 0x64, 0x20, 0x65] 7
      (by decide) (by decide) (by decide)).2.2.2.2.2.2.2⟩


/-! ## Effect of the keys on the buffer and on `modified` -/

theorem mem_lines_of_getElem? (ls : List Line) (i : Nat) (l : Line) (h : ls[i]? = some l) :
    l ∈ ls := by
  obtain ⟨hi, rfl⟩ := List.getElem?_eq_some_iff.mp h
  exact List.getElem_mem hi

theorem free_data_at_length : ∀ (ls : List Line) (i : Nat), (free_data_at ls i).length = ls.length
  | [], _ => rfl
  | l :: rest, 0 => rfl
  | l :: rest, i + 1 => by simp [free_data_at, free_data_at_length rest i]

theorem free_data_at_mem : ∀ (ls : List Line) (i : Nat) (l1 : Line), l1 ∈ free_data_at ls i →
    ∃ l ∈ ls, l1.data = l.data ∧ l1.capacity = l.capacity
  | [], _, l1, h => by simp [free_data_at] at h
  | l :: rest, 0, l1, h => by
    simp only [free_data_at, List.mem_cons] at h
    rcases h with rfl | h
    · exact ⟨l, List.mem_cons_self _ _, rfl, rfl⟩
    · exact ⟨l1, List.mem_cons_of_mem _ h, rfl, rfl⟩
  | l :: rest, i + 1, l1, h => by
    simp only [free_data_at, List.mem_cons] at h
    rcases h with rfl | h
    · exact ⟨l1, List.mem_cons_self _ _, rfl, rfl⟩
    · obtain ⟨l2, h2, h3⟩ := free_data_at_mem rest i l1 h
      exact ⟨l2, List.mem_cons_of_mem _ h2, h3⟩

/-- A property of lines that holds for all lines of a buffer holds after one slot is replaced
by a line that has it. -/
theorem forall_mem_set (P : Line → Prop) (ls : List Line) (i : Nat) (l1 : Line)
    (h : ∀ l ∈ ls, P l) (h1 : P l1) : ∀ l ∈ ls.set i l1, P l := by
  intro l hl
  rcases List.mem_or_eq_of_mem_set hl with h2 | h2
  · exact h l h2
  · rw [h2]; exact h1

theorem forall_mem_split (P : Line → Prop) (ls : List Line) (i : Nat) (a b : Line)
    (h : ∀ l ∈ ls, P l) (ha : P a) (hb : P b) :
    ∀ l ∈ ls.take i ++ a :: b :: ls.drop (i + 1), P l := by
  intro l hl
  simp only [List.mem_append, List.mem_cons] at hl
  rcases hl with h1 | rfl | rfl | h1
  · exact h l (List.mem_of_mem_take h1)
  · exact ha
  · exact hb
  · exact h l (List.mem_of_mem_drop h1)

theorem forall_mem_join (P : Line → Prop) (ls : List Line) (i : Nat) (a : Line)
    (h : ∀ l ∈ ls, P l) (ha : P a) :
    ∀ l ∈ ls.take i ++ a :: ls.drop (i + 2), P l := by
  intro l hl
  simp only [List.mem_append, List.mem_cons] at hl
  rcases hl with h1 | rfl | h1
  · exact h l (List.mem_of_mem_take h1)
  · exact ha
  · exact h l (List.mem_of_mem_drop h1)

theorem not_mem_insert (d : List Nat) (x c : Nat) (hd : 10 ∉ d) (hc : ¬ c = 10) :
    10 ∉ d.take x ++ c :: d.drop x := by
  intro h
  simp only [List.mem_append, List.mem_cons] at h
  rcases h with h | h | h
  · exact hd (List.mem_of_mem_take h)
  · exact hc h.symm
  · exact hd (List.mem_of_mem_drop h)

theorem not_mem_set (d : List Nat) (x c : Nat) (hd : 10 ∉ d) (hc : ¬ c = 10) :
    10 ∉ d.set x c := by
  intro h
  rcases List.mem_or_eq_of_mem_set h with h | h
  · exact hd h
  · exact hc h.symm

theorem not_mem_snoc (d : List Nat) (c : Nat) (hd : 10 ∉ d) (hc : ¬ c = 10) :
    10 ∉ d ++ [c] := by
  intro h
  simp only [List.mem_append, List.mem_singleton] at h
  rcases h with h | h
  · exact hd h
  · exact hc h.symm

theorem insert_char_store_data (c m x : Nat) (l : Line) (r : Line × Nat)
    (h : insert_char_store c m x l = some r) (hc : ¬ c = 10) (hl : 10 ∉ l.data) :
    10 ∉ r.1.data := by
  unfold insert_char_store at h
  dsimp only at h
  repeat' (split at h)
  all_goals first | contradiction | skip
  all_goals cases h
  all_goals first
    | exact not_mem_insert _ _ _ hl hc
    | exact not_mem_set _ _ _ hl hc
    | exact not_mem_snoc _ _ hl hc

theorem insert_char_well_formed (c : Nat) (st st1 : Editor) (h : insert_char c st = some st1)
    (hw : well_formed st.buffer) : well_formed st1.buffer := by
  have hw0 := hw
  obtain ⟨hcount, hnl⟩ := hw
  unfold LineBuffer.count at hcount
  unfold insert_char at h
  repeat' (split at h)
  all_goals first | contradiction | skip
  all_goals cases h
  all_goals first
    | exact hw0
    | (have hld := hnl _ (mem_lines_of_getElem? _ _ _ (by assumption))
       refine ⟨?_, ?_⟩
       · simp only [LineBuffer.count, List.length_set, List.length_append, List.length_cons]
         omega
       · first
         | exact forall_mem_set _ _ _ _ hnl
             (insert_char_store_data _ _ _ _ _ (by assumption) (by assumption) hld)
         | exact forall_mem_split _ _ _ _ _ hnl (fun hm => hld (List.mem_of_mem_take hm))
             (fun hm => hld (List.mem_of_mem_drop (List.mem_of_mem_take hm))))

theorem not_mem_cut (d : List Nat) (x y : Nat) (hd : 10 ∉ d) : 10 ∉ d.take x ++ d.drop y := by
  intro h
  rcases List.mem_append.mp h with h | h
  · exact hd (List.mem_of_mem_take h)
  · exact hd (List.mem_of_mem_drop h)

theorem not_mem_append (d e : List Nat) (hd : 10 ∉ d) (he : 10 ∉ e) : 10 ∉ d ++ e := by
  intro h
  rcases List.mem_append.mp h with h | h
  · exact hd h
  · exact he h

theorem delete_char_well_formed (st st1 : Editor) (h : delete_char st = some st1)
    (hw : well_formed st.buffer) : well_formed st1.buffer := by
  have hw0 := hw
  obtain ⟨hcount, hnl⟩ := hw
  unfold LineBuffer.count at hcount
  unfold delete_char at h
  dsimp only at h
  repeat' (split at h)
  all_goals first | contradiction | skip
  all_goals cases h
  all_goals first
    | exact hw0
    | (have hld := hnl _ (mem_lines_of_getElem? _ _ _ (by assumption))
       refine ⟨?_, ?_⟩
       · simp only [LineBuffer.count, List.length_set]
         omega
       · exact forall_mem_set _ _ _ _ hnl (not_mem_cut _ _ _ hld))
    | (have hall : ∀ (i : Nat) (l : Line), st.buffer.lines[i]? = some l → 10 ∉ l.data :=
         fun i l hl => hnl l (mem_lines_of_getElem? _ i l hl)
       refine ⟨?_, ?_⟩
       · simp only [LineBuffer.count, free_data_at_length, List.length_append,
           List.length_cons]
         omega
       · intro l1 h1
         obtain ⟨l2, h2, h3, _⟩ := free_data_at_mem _ _ _ h1
         rw [h3]
         exact forall_mem_join (fun l => 10 ∉ l.data) _ _ _ hnl
           (not_mem_append _ _ (hall _ _ (by assumption)) (hall _ _ (by assumption))) l2 h2)

theorem insert_char_effect (c : Nat) (st st1 : Editor) (h : insert_char c st = some st1) :
    edit_effect st st1 := by
  refine ⟨insert_char_well_formed c st st1 h, ?_⟩
  unfold insert_char at h
  repeat' (split at h)
  all_goals first
    | (left; cases h; exact ⟨rfl, rfl⟩)
    | (right; cases h; rfl)
    | contradiction

theorem delete_char_effect (st st1 : Editor) (h : delete_char st = some st1) :
    edit_effect st st1 := by
  refine ⟨delete_char_well_formed st st1 h, ?_⟩
  unfold delete_char at h
  dsimp only at h
  repeat' (split at h)
  all_goals first
    | (left; cases h; exact ⟨rfl, rfl⟩)
    | (right; cases h; rfl)
    | contradiction

theorem key_backspace_effect (st st1 : Editor) (h : key_backspace st = some st1) :
    edit_effect st st1 := by
  unfold key_backspace at h
  repeat' (split at h)
  all_goals first
    | (cases h; exact ⟨fun hw => hw, Or.inl ⟨rfl, rfl⟩⟩)
    | contradiction
    | skip
  · have e := delete_char_effect _ _ h
    exact e
  · rename_i hd
    cases h
    have e := delete_char_effect _ _ hd
    exact e

/-- The cursor keys change neither the buffer nor `modified`. -/
theorem cursor_keys_keep (st st1 : Editor) :
    (key_up st = some st1 → st1.buffer = st.buffer ∧ st1.modified = st.modified)
    ∧ (key_down st = some st1 → st1.buffer = st.buffer ∧ st1.modified = st.modified)
    ∧ (key_left st = some st1 → st1.buffer = st.buffer ∧ st1.modified = st.modified)
    ∧ (key_right st = some st1 → st1.buffer = st.buffer ∧ st1.modified = st.modified)
    ∧ (key_pgup st = some st1 → st1.buffer = st.buffer ∧ st1.modified = st.modified)
    ∧ (key_pgdown st = some st1 → st1.buffer = st.buffer ∧ st1.modified = st.modified)
    ∧ (key_home st = some st1 → st1.buffer = st.buffer ∧ st1.modified = st.modified)
    ∧ (key_end st = some st1 → st1.buffer = st.buffer ∧ st1.modified = st.modified)
    ∧ (∀ d, move_cursor_word d st = some st1 →
        st1.buffer = st.buffer ∧ st1.modified = st.modified) := by
  refine ⟨?_, ?_, ?_, ?_, ?_, ?_, ?_, ?_, ?_⟩
  · intro h; unfold key_up at h
    repeat' (split at h)
    all_goals first | contradiction | (cases h; exact ⟨rfl, rfl⟩)
  · intro h; unfold key_down at h
    repeat' (split at h)
    all_goals first | contradiction | (cases h; exact ⟨rfl, rfl⟩)
  · intro h; unfold key_left at h
    dsimp only at h
    repeat' (split at h)
    all_goals first | contradiction | (cases h; exact ⟨rfl, rfl⟩)
  · intro h; unfold key_right at h
    dsimp only at h
    repeat' (split at h)
    all_goals first | contradiction | (cases h; exact ⟨rfl, rfl⟩)
  · intro h; unfold key_pgup at h
    repeat' (split at h)
    all_goals first | contradiction | (cases h; exact ⟨rfl, rfl⟩)
  · intro h; unfold key_pgdown at h
    repeat' (split at h)
    all_goals first | contradiction | (cases h; exact ⟨rfl, rfl⟩)
  · intro h; unfold key_home at h
    cases h; exact ⟨rfl, rfl⟩
  · intro h; unfold key_end at h
    dsimp only at h
    repeat' (split at h)
    all_goals first | contradiction | (cases h; exact ⟨rfl, rfl⟩)
  · intro d h; unfold move_cursor_word at h
    dsimp only at h
    repeat' (split at h)
    all_goals first | contradiction | (cases h; exact ⟨rfl, rfl⟩)

theorem edit_effect_of_keeps (st st1 : Editor)
    (h : st1.buffer = st.buffer ∧ st1.modified = st.modified) : edit_effect st st1 :=
  ⟨fun hw => by rw [h.1]; exact hw, Or.inl h⟩

theorem save_file_effect (st : Editor) :
    (save_file st).buffer = st.buffer
    ∧ ((st.fd = -1 ∨ st.view_mode ≠ 0) → save_file st = st)
    ∧ (¬ (st.fd = -1 ∨ st.view_mode ≠ 0) → (save_file st).modified = 0) := by
  unfold save_file
  by_cases h : st.fd = -1 ∨ st.view_mode ≠ 0
  · rw [if_pos h]; exact ⟨rfl, fun _ => rfl, fun hn => absurd h hn⟩
  · rw [if_neg h]; exact ⟨rfl, fun hp => absurd hp h, fun _ => rfl⟩


theorem option_map_some (f : Editor → Session) (x : Option Editor) (b : Session)
    (h : x.map f = some b) : ∃ a, x = some a ∧ f a = b := by
  cases x with
  | none => simp at h
  | some a => exact ⟨a, rfl, Option.some.inj h⟩

theorem session_effect_same (s s1 : Session) (h1 : s1.ed.buffer = s.ed.buffer)
    (h2 : s1.ed.modified = s.ed.modified) (h3 : s1.saved = s.saved) : session_effect s s1 :=
  Or.inl ⟨edit_effect_of_keeps _ _ ⟨h1, h2⟩, h3⟩

theorem save_effect (s : Session) : session_effect s s.save := by
  obtain ⟨h1, h2, h3⟩ := save_file_effect s.ed
  by_cases h : s.ed.fd = -1 ∨ s.ed.view_mode ≠ 0
  · refine session_effect_same _ _ ?_ ?_ ?_
    · exact h1
    · show (save_file s.ed).modified = s.ed.modified
      rw [h2 h]
    · show (if s.ed.fd = -1 ∨ s.ed.view_mode ≠ 0 then s.saved else s.ed.buffer.contents)
        = s.saved
      rw [if_pos h]
  · right
    refine ⟨h1, h3 h, ?_⟩
    show (if s.ed.fd = -1 ∨ s.ed.view_mode ≠ 0 then s.saved else s.ed.buffer.contents)
        = s.ed.buffer.contents
    rw [if_neg h]

theorem leave_effect (s : Session) : session_effect s s.leave := by
  unfold Session.leave
  by_cases h : s.ed.modified ≠ 0
  · rw [if_pos h]
    exact save_effect s
  · rw [if_neg h]
    exact session_effect_same _ _ rfl rfl rfl

theorem leave_or_menu_effect (s : Session) : session_effect s s.leave_or_menu := by
  unfold Session.leave_or_menu
  by_cases h : s.ed.modified = 0
  · rw [if_pos h]
    exact leave_effect s
  · rw [if_neg h]
    exact session_effect_same _ _ rfl rfl rfl

theorem handle_menu_key_effect (c : Int) (selected : Nat) (s : Session) :
    session_effect s (handle_menu_key c selected s) := by
  unfold handle_menu_key
  split_ifs
  all_goals first
    | exact session_effect_same _ _ rfl rfl rfl
    | exact save_effect s
    | exact leave_effect s

theorem leave_or_menu_keeps (s : Session) :
    s.leave_or_menu.ed = s.ed ∧ s.leave_or_menu.saved = s.saved := by
  unfold Session.leave_or_menu
  by_cases h : s.ed.modified = 0
  · rw [if_pos h]
    unfold Session.leave
    rw [if_neg (by rw [h]; decide)]
    exact ⟨rfl, rfl⟩
  · rw [if_neg h]
    exact ⟨rfl, rfl⟩

/-- The dispatch of the main loop: a key either leaves the buffer, `modified` and the saved
text as they are, or it is an edit key pressed in edit mode and the new editor state is the
result of the editing function it is bound to. -/
theorem handle_key_cases (c : Int) (s s1 : Session) (h : handle_key c s = some s1) :
    (s1.ed.buffer = s.ed.buffer ∧ s1.ed.modified = s.ed.modified ∧ s1.saved = s.saved)
    ∨ (s.ed.view_mode = 0 ∧ s1.saved = s.saved
        ∧ ((c = KEY_BACKSPACE ∧ key_backspace s.ed = some s1.ed)
          ∨ (c = KEY_DELETE ∧ delete_char s.ed = some s1.ed)
          ∨ (c = KEY_TAB ∧ insert_char 9 s.ed = some s1.ed)
          ∨ ((32 ≤ c ∧ c ≤ 126) ∧ insert_char c.toNat s.ed = some s1.ed)
          ∨ (c = KEY_ENTER ∧ insert_char 10 s.ed = some s1.ed))) := by
  have hk := fun e => cursor_keys_keep s.ed e
  have hsame : ∀ s2 : Session, s2.ed.buffer = s.ed.buffer → s2.ed.modified = s.ed.modified →
      s2.saved = s.saved → some s2 = some s1 →
      (s1.ed.buffer = s.ed.buffer ∧ s1.ed.modified = s.ed.modified ∧ s1.saved = s.saved) := by
    intro s2 h1 h2 h3 h4
    cases h4
    exact ⟨h1, h2, h3⟩
  have hnav : ∀ (r : Option Editor),
      (∀ e, r = some e → e.buffer = s.ed.buffer ∧ e.modified = s.ed.modified) →
      r.map (fun e => ({ s with ed := e } : Session)) = some s1 →
      (s1.ed.buffer = s.ed.buffer ∧ s1.ed.modified = s.ed.modified ∧ s1.saved = s.saved) := by
    intro r hr hm
    obtain ⟨e, he, rfl⟩ := option_map_some _ _ _ hm
    exact ⟨(hr e he).1, (hr e he).2, rfl⟩
  have hedit : ∀ (r : Option Editor),
      r.map (fun e => ({ s with ed := e } : Session)) = some s1 →
      r = some s1.ed ∧ s1.saved = s.saved := by
    intro r hm
    obtain ⟨e, he, rfl⟩ := option_map_some _ _ _ hm
    exact ⟨he, rfl⟩
  unfold handle_key at h
  dsimp only at h
  by_cases c1 : c = KEY_F1
  · rw [if_pos c1] at h; exact Or.inl (by cases h; exact ⟨rfl, rfl, rfl⟩)
  rw [if_neg c1] at h
  by_cases c2 : c = KEY_F3
  · rw [if_pos c2] at h
    by_cases v : s.ed.view_mode ≠ 0
    · rw [if_pos v] at h
      have := leave_or_menu_keeps s
      exact Or.inl (hsame _ (by rw [this.1]) (by rw [this.1]) this.2 h)
    · rw [if_neg v] at h; exact Or.inl (by cases h; exact ⟨rfl, rfl, rfl⟩)
  rw [if_neg c2] at h
  by_cases c3 : c = KEY_F4
  · rw [if_pos c3] at h
    by_cases v : s.ed.view_mode = 0
    · rw [if_pos v] at h
      have := leave_or_menu_keeps s
      exact Or.inl (hsame _ (by rw [this.1]) (by rw [this.1]) this.2 h)
    · rw [if_neg v] at h; exact Or.inl (by cases h; exact ⟨rfl, rfl, rfl⟩)
  rw [if_neg c3] at h
  by_cases c4 : c = KEY_F5
  · rw [if_pos c4] at h; exact Or.inl (by cases h; exact ⟨rfl, rfl, rfl⟩)
  rw [if_neg c4] at h
  by_cases c5 : c = KEY_F10
  · rw [if_pos c5] at h
    have := leave_or_menu_keeps s
    exact Or.inl (hsame _ (by rw [this.1]) (by rw [this.1]) this.2 h)
  rw [if_neg c5] at h
  by_cases c6 : c = KEY_UP
  · rw [if_pos c6] at h; exact Or.inl (hnav _ (fun e => (hk e).1) h)
  rw [if_neg c6] at h
  by_cases c7 : c = KEY_DOWN
  · rw [if_pos c7] at h; exact Or.inl (hnav _ (fun e => (hk e).2.1) h)
  rw [if_neg c7] at h
  by_cases c8 : c = KEY_LEFT
  · rw [if_pos c8] at h; exact Or.inl (hnav _ (fun e => (hk e).2.2.1) h)
  rw [if_neg c8] at h
  by_cases c9 : c = KEY_RIGHT
  · rw [if_pos c9] at h; exact Or.inl (hnav _ (fun e => (hk e).2.2.2.1) h)
  rw [if_neg c9] at h
  by_cases c10 : c = KEY_CTRL_LEFT ∧ s.ed.view_mode = 0
  · rw [if_pos c10] at h; exact Or.inl (hnav _ (fun e => (hk e).2.2.2.2.2.2.2.2 _) h)
  rw [if_neg c10] at h
  by_cases c11 : c = KEY_CTRL_RIGHT ∧ s.ed.view_mode = 0
  · rw [if_pos c11] at h; exact Or.inl (hnav _ (fun e => (hk e).2.2.2.2.2.2.2.2 _) h)
  rw [if_neg c11] at h
  by_cases c12 : c = KEY_PGUP
  · rw [if_pos c12] at h; exact Or.inl (hnav _ (fun e => (hk e).2.2.2.2.1) h)
  rw [if_neg c12] at h
  by_cases c13 : c = KEY_PGDOWN
  · rw [if_pos c13] at h; exact Or.inl (hnav _ (fun e => (hk e).2.2.2.2.2.1) h)
  rw [if_neg c13] at h
  by_cases c14 : c = KEY_HOME
  · rw [if_pos c14] at h; exact Or.inl (hnav _ (fun e => (hk e).2.2.2.2.2.2.1) h)
  rw [if_neg c14] at h
  by_cases c15 : c = KEY_END
  · rw [if_pos c15] at h; exact Or.inl (hnav _ (fun e => (hk e).2.2.2.2.2.2.2.1) h)
  rw [if_neg c15] at h
  by_cases v : s.ed.view_mode = 0
  · rw [if_pos v] at h
    by_cases d1 : c = KEY_INSERT
    · rw [if_pos d1] at h; exact Or.inl (by cases h; exact ⟨rfl, rfl, rfl⟩)
    rw [if_neg d1] at h
    by_cases d2 : c = KEY_BACKSPACE
    · rw [if_pos d2] at h
      exact Or.inr ⟨v, (hedit _ h).2, Or.inl ⟨d2, (hedit _ h).1⟩⟩
    rw [if_neg d2] at h
    by_cases d3 : c = KEY_DELETE
    · rw [if_pos d3] at h
      exact Or.inr ⟨v, (hedit _ h).2, Or.inr (Or.inl ⟨d3, (hedit _ h).1⟩)⟩
    rw [if_neg d3] at h
    by_cases d4 : c = KEY_TAB
    · rw [if_pos d4] at h
      exact Or.inr ⟨v, (hedit _ h).2, Or.inr (Or.inr (Or.inl ⟨d4, (hedit _ h).1⟩))⟩
    rw [if_neg d4] at h
    by_cases d5 : 32 ≤ c ∧ c ≤ 126
    · rw [if_pos d5] at h
      exact Or.inr ⟨v, (hedit _ h).2, Or.inr (Or.inr (Or.inr (Or.inl ⟨d5, (hedit _ h).1⟩)))⟩
    rw [if_neg d5] at h
    by_cases d6 : c = KEY_ENTER
    · rw [if_pos d6] at h
      exact Or.inr ⟨v, (hedit _ h).2, Or.inr (Or.inr (Or.inr (Or.inr ⟨d6, (hedit _ h).1⟩)))⟩
    rw [if_neg d6] at h
    exact Or.inl (by cases h; exact ⟨rfl, rfl, rfl⟩)
  · rw [if_neg v] at h
    exact Or.inl (by cases h; exact ⟨rfl, rfl, rfl⟩)

theorem handle_key_effect (c : Int) (s s1 : Session) (h : handle_key c s = some s1) :
    session_effect s s1 := by
  rcases handle_key_cases c s s1 h with ⟨h1, h2, h3⟩ | ⟨_, h3, h4⟩
  · exact session_effect_same _ _ h1 h2 h3
  · rcases h4 with ⟨_, h5⟩ | ⟨_, h5⟩ | ⟨_, h5⟩ | ⟨_, h5⟩ | ⟨_, h5⟩
    · exact Or.inl ⟨key_backspace_effect _ _ h5, h3⟩
    · exact Or.inl ⟨delete_char_effect _ _ h5, h3⟩
    · exact Or.inl ⟨insert_char_effect _ _ _ h5, h3⟩
    · exact Or.inl ⟨insert_char_effect _ _ _ h5, h3⟩
    · exact Or.inl ⟨insert_char_effect _ _ _ h5, h3⟩

/-- Every key leaves a session in the relation `session_effect` to the one before. -/
theorem step_effect (c : Int) (s s1 : Session) (h : step c s = some s1) :
    session_effect s s1 := by
  unfold step at h
  split at h
  · cases h
    exact session_effect_same _ _ rfl rfl rfl
  · split at h
    · cases h
      exact handle_menu_key_effect _ _ _
    · exact handle_key_effect c s s1 h

/-- Every key the main loop or the menu handles keeps the buffer well formed. -/
theorem step_well_formed (c : Int) (s s1 : Session) (h : step c s = some s1)
    (hw : well_formed s.ed.buffer) : well_formed s1.ed.buffer := by
  rcases step_effect c s s1 h with h1 | h1
  · exact h1.1.1 hw
  · rw [h1.1]; exact hw


theorem step_menu_closed (c : Int) (s s1 : Session) (h : step c s = some s1)
    (hm : s.menu = none) : s1 = s ∨ handle_key c s = some s1 := by
  unfold step at h
  by_cases he : s.exited = true
  · rw [if_pos he] at h
    left; exact (Option.some.inj h).symm
  · rw [if_neg he, hm] at h
    right; exact h

/-- The property of a session that the exit check relies on: `modified = 0` only when the
buffer holds the text of the last load or save. -/
theorem run_keeps_saved_text :
    ∀ (keys : List Int) (s s1 : Session), run keys s = some s1 →
      (s.ed.modified = 0 → s.ed.buffer.contents = s.saved) →
      (s1.ed.modified = 0 → s1.ed.buffer.contents = s1.saved) := by
  intro keys
  induction keys with
  | nil =>
    intro s s1 h hinv
    cases h
    exact hinv
  | cons c cs ih =>
    intro s s1 h hinv
    rw [run] at h
    cases hs : step c s with
    | none => rw [hs] at h; simp at h
    | some s2 =>
      rw [hs] at h
      apply ih s2 s1 h
      intro hm
      rcases step_effect c s s2 hs with ⟨⟨_, h1⟩, h2⟩ | ⟨h1, _, h3⟩
      · rcases h1 with ⟨hb, hmod⟩ | hone
        · rw [hb, h2]
          exact hinv (by rw [← hmod]; exact hm)
        · rw [hone] at hm
          exact absurd hm (by decide)
      · rw [h1, h3]

/-- C28: (1) for every session and key, if the buffer contents after the key differ from
those before it, `modified` is 1 afterwards; (2) with the menu closed, every key that is not
an edit key, and every key at all in view mode, leaves the buffer and `modified` unchanged;
(3) forward delete with the cursor at the end of the last line leaves them unchanged;
(4) hence, along every sequence of keys, `modified = 0` implies that the buffer holds the
text of the last load or save; (5) after Delete and `X` typed at the start of the line `abc`
`modified` is 1 and the buffer holds `Xbc`, and after F10, Down, Enter (the menu item Save)
`modified` is 0 with the saved text `Xbc`. -/
theorem C28_modified_flag_tracks_edits :
    (∀ (c : Int) (s s1 : Session), step c s = some s1 →
        s1.ed.buffer.contents ≠ s.ed.buffer.contents → s1.ed.modified = 1)
    ∧ (∀ (c : Int) (s s1 : Session), step c s = some s1 → s.menu = none →
        (¬ edit_key c ∨ s.ed.view_mode ≠ 0) →
        s1.ed.buffer = s.ed.buffer ∧ s1.ed.modified = s.ed.modified)
    ∧ (∀ (s s1 : Session) (l : Line), step KEY_DELETE s = some s1 → s.menu = none →
        s.ed.buffer.lines[s.ed.cursor_y]? = some l → l.data.length ≤ s.ed.cursor_x →
        s.ed.buffer.count ≤ s.ed.cursor_y + 1 →
        s1.ed.buffer = s.ed.buffer ∧ s1.ed.modified = s.ed.modified)
    ∧ (∀ (keys : List Int) (s s1 : Session), run keys s = some s1 →
        (s.ed.modified = 0 → s.ed.buffer.contents = s.saved) →
        (s1.ed.modified = 0 → s1.ed.buffer.contents = s1.saved))
    ∧ (run [KEY_DELETE, 88] (session_of (editor_of [[97, 98, 99]] 0 0))).map
          (fun s => (s.ed.modified, s.ed.buffer.contents, s.saved))
        = some (1, [[88, 98, 99]], [[97, 98, 99]])
    ∧ (run [KEY_DELETE, 88, KEY_F10, KEY_DOWN, KEY_ENTER]
          (session_of (editor_of [[97, 98, 99]] 0 0))).map
          (fun s => (s.ed.modified, s.ed.buffer.contents, s.saved, s.menu, s.exited))
        = some (0, [[88, 98, 99]], [[88, 98, 99]], none, false) := by
  refine ⟨?_, ?_, ?_, run_keeps_saved_text, by decide, by decide⟩
  · intro c s s1 h hne
    rcases step_effect c s s1 h with ⟨⟨_, h1⟩, _⟩ | ⟨h1, _, _⟩
    · rcases h1 with ⟨hb, _⟩ | hone
      · exact absurd (by rw [hb]) hne
      · exact hone
    · exact absurd (by rw [h1]) hne
  · intro c s s1 h hm hcond
    rcases step_menu_closed c s s1 h hm with rfl | hk
    · exact ⟨rfl, rfl⟩
    · rcases handle_key_cases c s s1 hk with ⟨h1, h2, _⟩ | ⟨hv, _, h4⟩
      · exact ⟨h1, h2⟩
      · rcases hcond with hc | hc
        · exfalso
          apply hc
          unfold edit_key
          rcases h4 with ⟨h5, _⟩ | ⟨h5, _⟩ | ⟨h5, _⟩ | ⟨h5, _⟩ | ⟨h5, _⟩
          · exact Or.inl h5
          · exact Or.inr (Or.inl h5)
          · exact Or.inr (Or.inr (Or.inl h5))
          · exact Or.inr (Or.inr (Or.inr (Or.inl h5)))
          · exact Or.inr (Or.inr (Or.inr (Or.inr h5)))
        · exact absurd hv hc
  · intro s s1 l h hm hl hx hy
    rcases step_menu_closed KEY_DELETE s s1 h hm with rfl | hk
    · exact ⟨rfl, rfl⟩
    · rcases handle_key_cases KEY_DELETE s s1 hk with ⟨h1, h2, _⟩ | ⟨hv, _, h4⟩
      · exact ⟨h1, h2⟩
      · have hdel : delete_char s.ed = some s.ed := by
          unfold delete_char
          rw [if_neg (by rw [hv]; decide), hl]
          dsimp only
          rw [if_neg (by omega), if_neg (by omega)]
        rcases h4 with ⟨h5, _⟩ | ⟨_, h6⟩ | ⟨h5, _⟩ | ⟨h5, _⟩ | ⟨h5, _⟩
        · exact absurd h5 (by decide)
        · rw [hdel] at h6
          have := Option.some.inj h6
          rw [← this]
          exact ⟨rfl, rfl⟩
        · exact absurd h5 (by decide)
        · exact absurd h5 (by decide)
        · exact absurd h5 (by decide)



/-! ## `load_file` on a source of more than two chunks -/

theorem load_loop_step_none (file : List Nat) (file_size n f : Nat) (s : Loader)
    (h : s.offset < file_size) (hr : ¬ (pread file s.chunk n s.offset).2 ≤ 0)
    (hscan : scan_chunk file file_size n ((file_size + 1) * (n + 1) + 1) 0
        { s with chunk := (pread file s.chunk n s.offset).1,
                 bytes := (pread file s.chunk n s.offset).2 } = none) :
    load_loop file file_size n (f + 1) s = none := by
  simp only [load_loop, if_pos h, if_neg hr, hscan]

/-- A file of two full chunks without a newline followed by the two bytes `c`, newline has
no defined load: after the carry-over of the first chunk `line_start` is left at
`chunk + n`, and the line that ends in the third chunk is copied from there, beyond the
`n` bytes of the chunk array. -/
theorem load_file_chunked_two_chunks (n : Nat) (hn2 : 2 ≤ n) (hn : n < MAX_LINE_SIZE) :
    load_file_chunked n (two_chunks_and_a_line n) (n + (n + 2)) = none := by
  obtain ⟨m, hm⟩ : ∃ m, n = m + 1 := ⟨n - 1, by omega⟩
  subst hm
  have hF : two_chunks_and_a_line (m + 1)
      = List.replicate (m + 1) 97 ++ (List.replicate (m + 1) 98 ++ [99, 10]) := rfl
  have hpread0 : pread (two_chunks_and_a_line (m + 1)) (List.replicate (m + 1) 0) (m + 1) 0
      = (List.replicate (m + 1) 97, m + 1) := by
    simp [pread, hF, List.take_append_eq_append_take]
  have hpread1 : ∀ chunk : List Nat,
      pread (two_chunks_and_a_line (m + 1)) chunk (m + 1) (0 + (m + 1))
      = (List.replicate (m + 1) 98 ++ chunk.drop (m + 1), m + 1) := by
    intro chunk
    simp [pread, hF, List.drop_append_eq_append_drop, List.take_append_eq_append_take]
  have hpread2 : ∀ chunk : List Nat,
      pread (two_chunks_and_a_line (m + 1)) chunk (m + 1) (0 + (m + 1) + (m + 1))
      = (99 :: 10 :: chunk.drop 2, 2) := by
    intro chunk
    have hdrop : List.drop (0 + (m + 1) + (m + 1)) (two_chunks_and_a_line (m + 1))
        = [99, 10] := by
      rw [hF, ← List.append_assoc]
      apply List.drop_left'
      rw [List.length_append, List.length_replicate, List.length_replicate]
      omega
    have htake : List.take (m + 1) [99, 10] = [99, 10] :=
      List.take_of_length_le (by simp; omega)
    simp only [pread]
    rw [hdrop, htake]
    rfl
  have hget : ∀ j, j < m + 1 → (List.replicate (m + 1) 97).getD j 0 = 97 := by
    intro j hj
    simp [List.getD_eq_getElem?_getD, List.getElem?_replicate, hj]
  -- the scan of the first chunk up to its last byte
  have hrun := scan_chunk_plain_run (two_chunks_and_a_line (m + 1)) (m + 1 + (m + 1 + 2))
    (m + 1) m
    ((m + 1 + (m + 1 + 2) + 1) * (m + 1 + 1) + 1 - m) 0
    { chunk := List.replicate (m + 1) 97, offset := 0, bytes := m + 1, line_start := 0,
      line_len := 0, buffer := init_buffer }
    (by simp) (fun j _ h2 => by rw [hget j (by omega)]; decide) (by simp; omega)
  have hfuel : (m + 1 + (m + 1 + 2) + 1) * (m + 1 + 1) + 1 - m + m
      = (m + 1 + (m + 1 + 2) + 1) * (m + 1 + 1) + 1 := by
    have : m ≤ (m + 1 + (m + 1 + 2) + 1) * (m + 1 + 1) := by nlinarith
    omega
  rw [hfuel] at hrun
  obtain ⟨g, hg⟩ : ∃ g, (m + 1 + (m + 1 + 2) + 1) * (m + 1 + 1) + 1 - m = g + 1 + 1 :=
    ⟨(m + 1 + (m + 1 + 2) + 1) * (m + 1 + 1) + 1 - m - 2, by
      have : m + 2 ≤ (m + 1 + (m + 1 + 2) + 1) * (m + 1 + 1) := by nlinarith
      omega⟩
  rw [hg] at hrun
  simp only [Nat.zero_add] at hrun
  -- the last byte of the first chunk: the carry-over branch
  have hc : ¬ ((List.replicate (m + 1) 97).getD m 0 = 10 ∨ m ≥ MAX_LINE_SIZE) := by
    rw [hget m (by omega)]
    intro h; rcases h with h | h
    · exact absurd h (by decide)
    · omega
  have hslice : slice (List.replicate (m + 1) 97) (m + 1) 0 (m + 1)
      = some (List.replicate (m + 1) 97) := by
    simp [slice]
  have hcarry : (m = m + 1 - 1 ∧ 0 + (m + 1) < m + 1 + (m + 1 + 2)) := by omega
  have hpos : 0 < m + 1 := by omega
  have hnot : ¬ (m + 1 - 1 + 1 < m + 1) := by omega
  have hlast : scan_chunk (two_chunks_and_a_line (m + 1)) (m + 1 + (m + 1 + 2)) (m + 1)
      (g + 1 + 1) m
      { chunk := List.replicate (m + 1) 97, offset := 0, bytes := m + 1, line_start := 0,
        line_len := m, buffer := init_buffer }
      = some { chunk := List.replicate (m + 1) 97
                  ++ (List.replicate (m + 1) 98
                        ++ (List.replicate (m + 1) 97).drop (m + 1)).drop (m + 1),
               offset := 0 + (m + 1), bytes := m + 1, line_start := m + 1, line_len := 0,
               buffer := init_buffer } := by
    simp only [scan_chunk, Nat.lt_succ_self, if_true, if_neg hc, if_pos hcarry, hslice,
      hpread1, hpos, List.length_replicate, Nat.le_refl, if_neg hnot]
  rw [hlast] at hrun
  -- the third chunk: `c` is counted, the newline ends a line that starts at `chunk + n`
  have hscan2 : ∀ (chunk : List Nat) (f : Nat),
      scan_chunk (two_chunks_and_a_line (m + 1)) (m + 1 + (m + 1 + 2)) (m + 1) (f + 1 + 1) 0
        { chunk := 99 :: 10 :: chunk, offset := 0 + (m + 1) + (m + 1), bytes := 2,
          line_start := m + 1, line_len := 0, buffer := init_buffer } = none := by
    intro chunk f
    rw [scan_chunk_plain_step (two_chunks_and_a_line (m + 1)) (m + 1 + (m + 1 + 2)) (m + 1)
      (f + 1) 0
      { chunk := 99 :: 10 :: chunk, offset := 0 + (m + 1) + (m + 1), bytes := 2,
        line_start := m + 1, line_len := 0, buffer := init_buffer }
      (by show 0 + 1 < 2; omega) (by show (99 : Nat) ≠ 10; decide)
      (by show 0 < MAX_LINE_SIZE; decide)]
    have h1 : ((99 :: 10 :: chunk).getD (0 + 1) 0 = 10 ∨ 0 + 1 ≥ MAX_LINE_SIZE) :=
      Or.inl rfl
    have h2 : slice (99 :: 10 :: chunk) (m + 1) (m + 1) (0 + 1) = none := by
      unfold slice
      rw [if_neg (by omega)]
    simp only [scan_chunk, if_pos h1, h2]
    simp
  unfold load_file_chunked
  obtain ⟨f, hf⟩ : ∃ f, m + 1 + (m + 1 + 2) + 1 = f + 1 + 1 := ⟨m + 1 + (m + 1 + 2) - 1, by omega⟩
  rw [hf]
  rw [load_loop_step_no_line _ _ _ _ _ _ (by show 0 < _; omega) (by rw [hpread0]; simp)
        (by rw [hpread0]; exact hrun) rfl]
  rw [load_loop_step_none _ _ _ _ _ (by show 0 + (m + 1) + (m + 1) < _; omega)
        (by rw [hpread2]; simp)
        (by
          rw [hpread2]
          obtain ⟨k, hk⟩ : ∃ k, (m + 1 + (m + 1 + 2) + 1) * (m + 1 + 1) + 1 = k + 1 + 1 :=
            ⟨(m + 1 + (m + 1 + 2) + 1) * (m + 1 + 1) - 1, by
              have : 1 ≤ (m + 1 + (m + 1 + 2) + 1) * (m + 1 + 1) := by nlinarith
              omega⟩
          rw [hk]
          exact hscan2 _ k)]

theorem two_chunks_and_a_line_length (n : Nat) :
    (two_chunks_and_a_line n).length = n + (n + 2) := by
  unfold two_chunks_and_a_line
  rw [List.length_append, List.length_append, List.length_replicate, List.length_replicate]
  rfl

theorem load_file_startup_none (file : List Nat) (rows cols : Int)
    (h : load_file_chunked CHUNK_SIZE file file.length = none) :
    load_file (startup file rows cols) = none := by
  have e1 : (startup file rows cols).file = file := rfl
  have e2 : (startup file rows cols).file_size = file.length := rfl
  unfold load_file
  rw [e1, e2, h]

/-- C22 (code defect): for the file made of 64000 bytes `a`, 64000 bytes `b` and the two
bytes `c`, newline (128002 bytes), `load_file` has no defined result: the first chunk is
carried over, which leaves `line_start` at `chunk + 64000`; the second chunk is skipped; in
the third chunk the newline ends a line of length 1 that `add_line` copies from
`chunk + 64000`, one byte past the 64000 bytes of `chunk`.  The byte stored in the buffer as
a line is whatever lies behind the array, a newline byte included.  With four-byte chunks
the same happens on the ten bytes `aaaabbbbc` and newline. -/
theorem C22_load_reads_past_the_chunk :
    load_file (startup (two_chunks_and_a_line CHUNK_SIZE) 24 80) = none
    ∧ load_file_chunked 4 [97, 97, 97, 97, 98, 98, 98, 98, 99, 10] 10 = none := by
  constructor
  · apply load_file_startup_none
    rw [two_chunks_and_a_line_length]
    exact load_file_chunked_two_chunks CHUNK_SIZE (by decide) (by decide)
  · decide



/-! ## Bounds of the rendered range -/

theorem display_to_byte_loop_le (data : List Nat) (disp_pos len : Nat) :
    ∀ (fuel bp cd : Nat), bp ≤ len →
      (display_to_byte_loop data disp_pos len fuel bp cd).1 ≤ len := by
  intro fuel
  induction fuel with
  | zero => intro bp cd h; exact h
  | succ f ih =>
    intro bp cd h
    by_cases hc : bp < len ∧ cd < disp_pos
    · rw [display_to_byte_loop, if_pos hc]
      apply ih
      have hb := (utf8_to_codepoint_bytes data bp len).2.2 hc.1
      by_cases hfit : cd + utf8_char_width (utf8_to_codepoint data bp len).1 ≤ disp_pos
      · rw [if_pos hfit]; exact hb
      · rw [if_neg hfit]; exact h
    · rw [display_to_byte_loop, if_neg hc]
      exact h

theorem render_loop_bounds (data : List Nat) (len cols : Nat) :
    ∀ (fuel be d : Nat), be ≤ len → d ≤ cols + 1 → len ≤ fuel + be →
      be ≤ (render_loop data len cols fuel be d).1
      ∧ (render_loop data len cols fuel be d).1 ≤ len
      ∧ (render_loop data len cols fuel be d).2 ≤ cols + 1
      ∧ ¬ ((render_loop data len cols fuel be d).1 < len
            ∧ (render_loop data len cols fuel be d).2 < cols) := by
  intro fuel
  induction fuel with
  | zero =>
    intro be d h1 h2 h3
    simp only [render_loop]
    exact ⟨Nat.le_refl _, h1, h2, by omega⟩
  | succ f ih =>
    intro be d h1 h2 h3
    by_cases hc : be < len ∧ d < cols
    · rw [render_loop, if_pos hc]
      have hb := utf8_to_codepoint_bytes data be len
      have hw := utf8_char_width_le_two (utf8_to_codepoint data be len).1
      have := ih (be + (utf8_to_codepoint data be len).2)
        (d + utf8_char_width (utf8_to_codepoint data be len).1) (hb.2.2 hc.1) (by omega)
        (by omega)
      exact ⟨by omega, this.2⟩
    · rw [render_loop, if_neg hc]
      exact ⟨Nat.le_refl _, h1, h2, hc⟩

/-- The range `update_line` prints lies inside the line, its loop ends with its condition
false, and its display width exceeds `cols` by at most one column. -/
theorem update_line_range_bounds (data : List Nat) (scroll_x cols : Int) :
    (update_line_range data scroll_x cols).1 ≤ (update_line_range data scroll_x cols).2.1
    ∧ (update_line_range data scroll_x cols).2.1 ≤ data.length
    ∧ (update_line_range data scroll_x cols).2.2 ≤ size_t_of_int cols + 1
    ∧ ¬ ((update_line_range data scroll_x cols).2.1 < data.length
          ∧ (update_line_range data scroll_x cols).2.2 < size_t_of_int cols) := by
  have h0 : display_to_byte data (size_t_of_int scroll_x) data.length ≤ data.length :=
    display_to_byte_loop_le data _ _ _ 0 0 (Nat.zero_le _)
  exact render_loop_bounds data data.length (size_t_of_int cols) data.length _ 0 h0
    (Nat.zero_le _) (by omega)

/-! ## Room for the terminator -/

theorem add_line_has_room (b : LineBuffer) (d : List Nat)
    (hr : ∀ l ∈ b.lines, has_room l) : ∀ l ∈ (add_line b d).lines, has_room l := by
  intro l hl
  unfold add_line at hl
  dsimp only at hl
  rw [List.mem_append, List.mem_singleton] at hl
  rcases hl with h | h
  · apply hr
    by_cases hc : b.count ≥ b.capacity
    · rw [if_pos hc] at h; exact h
    · rw [if_neg hc] at h; exact h
  · rw [h]
    show d.length < d.length + 1
    omega

/-- The newline split keeps `len < capacity` for every line. -/
theorem newline_split_keeps_room (st st1 : Editor) (h : insert_char 10 st = some st1)
    (hr : ∀ l ∈ st.buffer.lines, has_room l) : ∀ l ∈ st1.buffer.lines, has_room l := by
  unfold insert_char at h
  repeat' (split at h)
  all_goals first | contradiction | (exfalso; omega) | skip
  all_goals cases h
  all_goals first
    | exact hr
    | (have hl := hr _ (mem_lines_of_getElem? _ _ _ (by assumption))
       unfold has_room at hl
       refine forall_mem_split has_room _ _ _ _ hr ?_ ?_
       · unfold has_room
         dsimp only
         rw [List.length_take]
         omega
       · unfold has_room
         dsimp only
         rw [List.length_take, List.length_drop]
         omega)

/-- Forward delete and the join of two lines keep `len < capacity` for every line. -/
theorem delete_char_keeps_room (st st1 : Editor) (h : delete_char st = some st1)
    (hr : ∀ l ∈ st.buffer.lines, has_room l) : ∀ l ∈ st1.buffer.lines, has_room l := by
  unfold delete_char at h
  dsimp only at h
  repeat' (split at h)
  all_goals first | contradiction | skip
  all_goals cases h
  all_goals first
    | exact hr
    | (have hl := hr _ (mem_lines_of_getElem? _ _ _ (by assumption))
       unfold has_room at hl
       refine forall_mem_set has_room _ _ _ hr ?_
       unfold has_room
       dsimp only
       rw [List.length_append, List.length_take, List.length_drop]
       omega)
    | (intro l1 h1
       obtain ⟨l2, h2, h3, h4⟩ := free_data_at_mem _ _ _ h1
       have h5 : has_room l2 := by
         have hl := hr _ (mem_lines_of_getElem? _ st.cursor_y _ (by assumption))
         unfold has_room at hl
         refine forall_mem_join has_room _ _ _ hr ?_ l2 h2
         unfold has_room
         dsimp only
         rw [List.length_append]
         omega
       unfold has_room at h5 ⊢
       rw [h3, h4]
       exact h5)


end TV
